import Mathlib

/-!
Verification of the HTML text-blocks tree library (src/htmlparser.py).

The arena of nodes (`HTMLTextBlocksTree`, a Python list subclass) is modelled as a
`List Node`; Python text strings are modelled as `List Char`, integer indices as
`Nat`, and the `-1` "no parent" sentinel keeps its `Int` representation.  All
recursions that walk the index graph are fuel-bounded (the public entry points
supply `t.length` fuel, which is enough on well-formed trees, where child indices
are strictly larger than their parent's index).
-/

namespace HTMLTree

/-- `MarkZone` from src/htmlparser.py: information about inline elements that
covered a text node.  `length = -1` marks a zone whose end is not yet known. -/
structure MarkZone where
  start : Nat
  length : Int
  tag : String
  style_classes : List String
  link : String
deriving Repr, DecidableEq

/-- `Node` from src/htmlparser.py.  Block nodes carry `tag`, `style_classes` and
`child_indices`; text nodes carry `text` and `mark_zones`.  `text_nodes_count`
is the cached count of text leaves below (and including) the node. -/
structure Node where
  parent_index : Int := -1
  tag : String := ""
  style_classes : List String := []
  child_indices : List Nat := []
  text : List Char := []
  mark_zones : List MarkZone := []
  text_nodes_count : Nat := 0
deriving Repr, DecidableEq

/-- The tree is an arena of nodes addressed by integer index. -/
abbrev Tree := List Node

/-- Arena access `self[i]`.  Out-of-range access yields a default node; on
well-formed trees every index that is dereferenced is in range. -/
def nd (t : Tree) (i : Nat) : Node := t.getD i {}

/-- `__check_tag_match`: the nodes' tags are equal and either the two nodes carry
fewer than two style classes combined, or their style-class sets intersect. -/
def check_tag_match (first_node second_node : Node) : Bool :=
  if first_node.tag ≠ second_node.tag then false
  else if first_node.style_classes.length + second_node.style_classes.length < 2 then true
  else first_node.style_classes.any (fun c => second_node.style_classes.contains c)

/-- One position of the candidate scan of `__check_matching`'s inner loop:
update the best match only on a strictly greater score (so the first
encountered wins ties).  The accumulator `none` stands for
`best_match_pos = -1` / `best_matched = 0`; `some (pos, matched, matching)`
holds the current best. -/
def cm_scan_step (t u : Tree) (child_index : Nat) (tcs : List Nat)
    (score : Nat → Nat × List (Nat × Nat))
    (b : Option (Nat × Nat × List (Nat × Nat))) (pos : Nat) :
    Option (Nat × Nat × List (Nat × Nat)) :=
  let tci := tcs.getD pos 0
  if check_tag_match (nd t child_index) (nd u tci) then
    let m := score tci
    match b with
    | none => if m.1 > 0 then some (pos, m.1, m.2) else none
    | some b0 => if m.1 > b0.2.1 then some (pos, m.1, m.2) else some b0
  else b

/-- The candidate scan of `__check_matching`'s inner loop over the given
candidate positions into `tcs`.  `score` is the recursive matcher applied to
the current self child. -/
def cm_scan (t u : Tree) (child_index : Nat) (tcs : List Nat)
    (score : Nat → Nat × List (Nat × Nat)) (positions : List Nat)
    (b : Option (Nat × Nat × List (Nat × Nat))) :
    Option (Nat × Nat × List (Nat × Nat)) :=
  positions.foldl (cm_scan_step t u child_index tcs score) b

/-- One `child_index` iteration of `__check_matching`'s outer loop.  The
accumulator holds `(total_matched, sub_tree_matching, start_pos)`. -/
def cm_child_step (t u : Tree) (tcs : List Nat)
    (score : Nat → Nat → Nat × List (Nat × Nat))
    (acc : Nat × List (Nat × Nat) × Nat) (child_index : Nat) :
    Nat × List (Nat × Nat) × Nat :=
  let best := cm_scan t u child_index tcs (score child_index)
    (List.range' acc.2.2 (tcs.length - acc.2.2)) none
  match best with
  | some b0 => (acc.1 + b0.2.1, acc.2.1 ++ b0.2.2, b0.1 + 1)
  | none => acc

/-- `__check_matching`: recursive matching of the subtree of `node_index` in `t`
against the subtree of `tree_node_index` in `u`.  Returns the score together
with the `(node index, score)` output list. -/
def check_matching : Nat → Tree → Tree → Nat → Nat → Nat × List (Nat × Nat)
  | 0, _, _, _, _ => (0, [])
  | fuel+1, t, u, node_index, tree_node_index =>
    let self_node := nd t node_index
    let tree_node := nd u tree_node_index
    if self_node.text ≠ [] then
      if tree_node.text ≠ [] ∧
          (tree_node.text.isPrefixOf self_node.text ∨
            self_node.text.isPrefixOf tree_node.text) then
        (1, [(node_index, 1)])
      else
        (0, [(node_index, 0)])
    else
      let r := self_node.child_indices.foldl
        (cm_child_step t u tree_node.child_indices
          (fun child_index tci => check_matching fuel t u child_index tci))
        (0, [], 0)
      (r.1, (node_index, r.1) :: r.2.1)

/-- Pure form of `__count_texts_in_nodes`: the number of text leaves in the
subtree of `i` reached through current child links. -/
def subtree_text_count : Nat → Tree → Nat → Nat
  | 0, _, _ => 0
  | fuel+1, t, i =>
    if (nd t i).text ≠ [] then 1
    else ((nd t i).child_indices.map (fun c => subtree_text_count fuel t c)).sum

/-- `__check_connection`: whether `first_index` and `second_index` belong to a
homogeneous run of siblings.  The scan covers the positions strictly after
`first_index`'s, up to and including `second_index`'s. -/
def check_connection (t : Tree) (first_index second_index : Nat) : Bool :=
  let siblings := (nd t (nd t first_index).parent_index.toNat).child_indices
  let start := siblings.findIdx (fun s => s = first_index) + 1
  let stop := siblings.findIdx (fun s => s = second_index) + 1
  (List.range' start (stop - start)).all
    (fun k => check_tag_match (nd t first_index) (nd t (siblings.getD k 0)))

/-- The siblings strictly between `first` and `second` in their parent's child
order (this follows the spec's wording; the code's scan differs). -/
def siblings_between (t : Tree) (first second : Nat) : List Nat :=
  let siblings := (nd t (nd t first).parent_index.toNat).child_indices
  let i1 := siblings.findIdx (fun s => s = first)
  let i2 := siblings.findIdx (fun s => s = second)
  (siblings.drop (i1 + 1)).take (i2 - (i1 + 1))

/-- `__get_node_depth`: the length of the node's path (fuel-bounded parent walk). -/
def node_depth : Nat → Tree → Nat → Nat
  | 0, _, _ => 1
  | fuel+1, t, i =>
    if (nd t i).parent_index > -1 then 1 + node_depth fuel t (nd t i).parent_index.toNat
    else 1

/-- `__build_path`: all the node's ancestors, starting from the root. -/
def build_path : Nat → Tree → Nat → List Nat
  | 0, _, i => [i]
  | fuel+1, t, i =>
    if (nd t i).parent_index > -1 then
      build_path fuel t (nd t i).parent_index.toNat ++ [i]
    else [i]

/-- The zip loop of `__get_matched_path_len`. -/
def matched_path_len_loop (first_len : Nat) : List (Nat × Nat) → Nat → Nat
  | [], _ => 0
  | ab :: rest, common =>
    if ab.1 = ab.2 then matched_path_len_loop first_len rest (common + 1)
    else first_len - common

/-- `__get_matched_path_len`: length of the unmatched part of the two paths. -/
def get_matched_path_len (t : Tree) (first second : Nat) : Nat :=
  let fp := build_path t.length t first
  let sp := build_path t.length t second
  matched_path_len_loop fp.length (fp.zip sp) 0

/-- `__CONTEXT_LENGTH` (for paths matching). -/
def CONTEXT_LENGTH : Nat := 2

/-- The sibling window `siblings[max(0, pos - 2) : pos + 3]`. -/
def context_window (siblings : List Nat) (pos : Nat) : List Nat :=
  (siblings.drop (pos - CONTEXT_LENGTH)).take
    (pos + CONTEXT_LENGTH + 1 - (pos - CONTEXT_LENGTH))

/-- The different-parents branch of `__check_paths_equality`'s depth loop:
compare the two ancestors' sibling windows. -/
def windows_equal (t : Tree) (fd sd fparent sparent : Nat) : Bool :=
  let first_siblings := (nd t fparent).child_indices
  let first_pos := first_siblings.findIdx (fun s => s = fd)
  let fsc := context_window first_siblings first_pos
  let second_siblings := (nd t sparent).child_indices
  let second_pos := second_siblings.findIdx (fun s => s = sd)
  let ssc := context_window second_siblings second_pos
  let fpic := fsc.findIdx (fun s => s = fd)
  let spic := ssc.findIdx (fun s => s = sd)
  if ssc.length ≠ fsc.length ∨ fpic ≠ spic then false
  else (fsc.zip ssc).all (fun ab => check_tag_match (nd t ab.1) (nd t ab.2))

/-- Lookup in the `matched_nodes` memo (a Python dict, modelled as an
insertion-ordered association list). -/
def memo_find (m : List ((Nat × Nat) × Bool)) (k : Nat × Nat) : Option Bool :=
  (m.find? (fun e => e.1 = k)).map (·.2)

/-- The depth loop of `__check_paths_equality`, returning the verdict together
with the updated memo. -/
def paths_eq_loop (t : Tree) (fp sp : List Nat) :
    List Nat → List ((Nat × Nat) × Bool) → Bool × List ((Nat × Nat) × Bool)
  | [], memo => (true, memo)
  | d :: rest, memo =>
    let a := fp.getD d 0
    let b := sp.getD d 0
    if a = b then paths_eq_loop t fp sp rest memo
    else
      let key := (min a b, max a b)
      match memo_find memo key with
      | some cached => if cached then paths_eq_loop t fp sp rest memo else (false, memo)
      | none =>
        let eq :=
          if fp.getD (d - 1) 0 = sp.getD (d - 1) 0 then
            check_connection t a b
          else
            windows_equal t a b (fp.getD (d - 1) 0) (sp.getD (d - 1) 0)
        if eq then paths_eq_loop t fp sp rest memo
        else (false, memo ++ [(key, false)])

/-- `__check_paths_equality`: path equality of two nodes with respect to their
sibling context, memoised in `matched_nodes`. -/
def check_paths_equality (t : Tree) (first second : Nat)
    (memo : List ((Nat × Nat) × Bool)) : Bool × List ((Nat × Nat) × Bool) :=
  if ¬ check_tag_match (nd t first) (nd t second) then (false, memo)
  else
    let fp := build_path t.length t first
    let sp := build_path t.length t second
    if fp.length ≠ sp.length then (false, memo)
    else paths_eq_loop t fp sp (List.range' 1 (fp.length - 1)) memo

/-- `iterate_DFS` with the `TextBasket` actor of `get_text_nodes`: indices of
text nodes in depth-first pre-order. -/
def dfs_text_nodes : Nat → Tree → Nat → List Nat
  | 0, _, _ => []
  | fuel+1, t, i =>
    (if (nd t i).text ≠ [] then [i] else []) ++
      (nd t i).child_indices.foldl (fun acc c => acc ++ dfs_text_nodes fuel t c) []

/-- `get_text_nodes`: indices of the reachable text nodes. -/
def get_text_nodes (t : Tree) : List Nat := dfs_text_nodes t.length t 0

/-- Stable insertion of a `(depth, node index)` pair into an ascending list,
used to model Python's `text_elements.sort()`. -/
def insert_pair (x : Nat × Nat) : List (Nat × Nat) → List (Nat × Nat)
  | [] => [x]
  | y :: ys =>
    if x.1 < y.1 ∨ (x.1 = y.1 ∧ x.2 ≤ y.2) then x :: y :: ys
    else y :: insert_pair x ys

/-- Python's `list.sort()` on `(depth, node index)` pairs: ascending
lexicographic order. -/
def sort_pairs (l : List (Nat × Nat)) : List (Nat × Nat) := l.foldr insert_pair []

/-- `fellows_by_matched_len.setdefault(matched_len, []).append(node)`:
insertion-ordered bucket update. -/
def bucket_add (bs : List (Nat × List Nat)) (k : Nat) (v : Nat) : List (Nat × List Nat) :=
  match bs with
  | [] => [(k, [v])]
  | b :: rest => if b.1 = k then (b.1, b.2 ++ [v]) :: rest else b :: bucket_add rest k v

/-- The `len(group) > len(fellows)` scan over the buckets, starting from `[]`. -/
def largest_bucket (bs : List (Nat × List Nat)) : List Nat :=
  bs.foldl (fun fellows kg => if kg.2.length > fellows.length then kg.2 else fellows) []

/-- The inner `compare_index` loop of `get_similar_sense_texts`: group the
not-yet-used same-depth fellows of `node_index` by matched path length,
stopping at the first element of different depth. -/
def collect_fellows (t : Tree) (depth node_index : Nat) :
    List (Nat × Nat) → List Nat → List ((Nat × Nat) × Bool) → List (Nat × List Nat) →
    List (Nat × List Nat) × List ((Nat × Nat) × Bool)
  | [], _, memo, buckets => (buckets, memo)
  | cmp :: rest, used, memo, buckets =>
    if cmp.1 ≠ depth then (buckets, memo)
    else if cmp.2 ∈ used then collect_fellows t depth node_index rest used memo buckets
    else
      let r := check_paths_equality t node_index cmp.2 memo
      if r.1 then
        collect_fellows t depth node_index rest used r.2
          (bucket_add buckets (get_matched_path_len t node_index cmp.2) cmp.2)
      else collect_fellows t depth node_index rest used r.2 buckets

/-- The outer loop of `get_similar_sense_texts`. -/
def similar_loop (t : Tree) :
    List (Nat × Nat) → List Nat → List ((Nat × Nat) × Bool) → List (List Nat) →
    List (List Nat)
  | [], _, _, groups => groups
  | cur :: rest, used, memo, groups =>
    if cur.2 ∈ used then similar_loop t rest used memo groups
    else
      let r := collect_fellows t cur.1 cur.2 rest used memo []
      if r.1 ≠ [] then
        let fellows := largest_bucket r.1
        similar_loop t rest (used ++ fellows) r.2 (groups ++ [cur.2 :: fellows])
      else similar_loop t rest used r.2 groups

/-- `get_similar_sense_texts`: groups of text nodes with similar contexts. -/
def get_similar_sense_texts (t : Tree) : List (List Nat) :=
  let text_elements := (get_text_nodes t).map (fun i => (node_depth t.length t i, i))
  similar_loop t (sort_pairs text_elements) [] [] []

/-- `child_indices.remove(node_index)` on node `p`: removes the first
occurrence of `c` from `p`'s child list. -/
def erase_child (t : Tree) (p c : Nat) : Tree :=
  t.set p { nd t p with child_indices := (nd t p).child_indices.erase c }

/-- Store a recomputed `text_nodes_count` on node `i`. -/
def set_count (t : Tree) (i n : Nat) : Tree :=
  t.set i { nd t i with text_nodes_count := n }

/-- `__count_texts_in_nodes`: recompute and cache the text-leaf counts in the
subtree of `node_index`, returning the updated arena and the subtree's count. -/
def count_texts_in_nodes : Nat → Tree → Nat → Tree × Nat
  | 0, t, _ => (t, 0)
  | fuel+1, t, node_index =>
    if (nd t node_index).text ≠ [] then
      (set_count t node_index 1, 1)
    else
      let r := (nd t node_index).child_indices.foldl
        (fun (acc : Tree × Nat) c =>
          ((count_texts_in_nodes fuel acc.1 c).1,
            acc.2 + (count_texts_in_nodes fuel acc.1 c).2))
        (set_count t node_index 0, 0)
      (set_count r.1 node_index r.2, r.2)

/-- The unlink condition of `__unlink_text_free_nodes` for node `i`: it has a
parent, it is currently in the parent's child list, and its cached count is 0. -/
def prune_cond (t : Tree) (i : Nat) : Prop :=
  (nd t i).parent_index > -1 ∧
    i ∈ (nd t (nd t i).parent_index.toNat).child_indices ∧
    (nd t i).text_nodes_count = 0

instance (t : Tree) (i : Nat) : Decidable (prune_cond t i) := by
  unfold prune_cond
  infer_instance

/-- One iteration of the `__unlink_text_free_nodes` loop. -/
def prune_step (t : Tree) (i : Nat) : Tree :=
  if prune_cond t i then erase_child t (nd t i).parent_index.toNat i else t

/-- `__unlink_text_free_nodes`: unlink every node whose cached text count is 0. -/
def unlink_text_free_nodes (t : Tree) : Tree :=
  (List.range t.length).foldl prune_step t

/-- One entry of the subtract loop of `__binary_operation`: unlink the output
node if its matched fraction reaches the 0.9 threshold.  The float comparison
`float(texts_matched) / total_texts >= 0.9` is rendered exactly on the integer
inputs as `10 * texts_matched ≥ 9 * total_texts`. -/
def sub_step (acc : Tree) (e : Nat × Nat) : Tree :=
  if 10 * e.2 ≥ 9 * (nd acc e.1).text_nodes_count ∧
      (nd acc e.1).parent_index > -1 then
    erase_child acc (nd acc e.1).parent_index.toNat e.1
  else acc

/-- The subtract branch of `__binary_operation`. -/
def subtract_pass (t : Tree) (matching : List (Nat × Nat)) : Tree :=
  matching.foldl sub_step t

/-- One index of the cross loop of `__binary_operation`: unlink the node unless
its matcher score was strictly positive. -/
def cross_step (matched_nodes : List Nat) (acc : Tree) (i : Nat) : Tree :=
  if i ∉ matched_nodes ∧ (nd acc i).parent_index > -1 ∧
      i ∈ (nd acc (nd acc i).parent_index.toNat).child_indices then
    erase_child acc (nd acc i).parent_index.toNat i
  else acc

/-- The cross branch of `__binary_operation`: unlink every node (over the whole
arena) whose matcher score is not strictly positive. -/
def cross_pass (t : Tree) (matching : List (Nat × Nat)) : Tree :=
  (List.range t.length).foldl
    (cross_step ((matching.filter (fun e => e.2 ≠ 0)).map (fun e => e.1))) t

/-- `substract_tree` (via `__binary_operation(substract = True)`): subtract
pass over the matcher output, then recount, then prune. -/
def substract_tree (t u : Tree) : Tree :=
  let m := (check_matching t.length t u 0 0).2
  let t1 := subtract_pass t m
  let t2 := (count_texts_in_nodes t1.length t1 0).1
  unlink_text_free_nodes t2

/-- `cross_tree` (via `__binary_operation(cross = True)`): cross pass over the
matcher output, then recount, then prune. -/
def cross_tree (t u : Tree) : Tree :=
  let m := (check_matching t.length t u 0 0).2
  let t1 := cross_pass t m
  let t2 := (count_texts_in_nodes t1.length t1 0).1
  unlink_text_free_nodes t2

/-- Liveness: a node is reachable iff it is the root or some reachable node's
child list contains it. -/
inductive Reachable (t : Tree) : Nat → Prop
  | root : Reachable t 0
  | child {p c : Nat} : Reachable t p → c ∈ (nd t p).child_indices → Reachable t c

section ArenaLemmas

theorem nd_oob (t : Tree) (j : Nat) (h : t.length ≤ j) : nd t j = {} := by
  unfold nd
  rw [List.getD_eq_getElem?_getD, List.getElem?_eq_none h]
  rfl

theorem nd_set (t : Tree) (p : Nat) (x : Node) (j : Nat) :
    nd (t.set p x) j = if p = j ∧ p < t.length then x else nd t j := by
  unfold nd
  rw [List.getD_eq_getElem?_getD, List.getD_eq_getElem?_getD, List.getElem?_set]
  by_cases hj : p = j
  · subst hj
    by_cases hp : p < t.length
    · simp [hp]
    · simp [hp, List.getElem?_eq_none (le_of_not_lt hp)]
  · simp [hj]

theorem length_erase_child (t : Tree) (p c : Nat) :
    (erase_child t p c).length = t.length := List.length_set ..

theorem nd_erase_child (t : Tree) (p c j : Nat) :
    nd (erase_child t p c) j =
      if p = j ∧ p < t.length then
        { nd t p with child_indices := (nd t p).child_indices.erase c }
      else nd t j := nd_set ..

theorem erase_child_keeps_node (t : Tree) (p c j : Nat) :
    (nd (erase_child t p c) j).parent_index = (nd t j).parent_index ∧
    (nd (erase_child t p c) j).text = (nd t j).text ∧
    (nd (erase_child t p c) j).text_nodes_count = (nd t j).text_nodes_count ∧
    (nd (erase_child t p c) j).tag = (nd t j).tag ∧
    (nd (erase_child t p c) j).style_classes = (nd t j).style_classes ∧
    (nd (erase_child t p c) j).mark_zones = (nd t j).mark_zones := by
  rw [nd_erase_child]
  by_cases h : p = j ∧ p < t.length
  · obtain ⟨rfl, hp⟩ := h
    simp [hp]
  · rw [if_neg h]
    exact ⟨rfl, rfl, rfl, rfl, rfl, rfl⟩

theorem erase_child_children_sub (t : Tree) (p c j x : Nat)
    (h : x ∈ (nd (erase_child t p c) j).child_indices) :
    x ∈ (nd t j).child_indices := by
  rw [nd_erase_child] at h
  by_cases hc : p = j ∧ p < t.length
  · rw [if_pos hc] at h
    obtain ⟨rfl, _⟩ := hc
    exact List.mem_of_mem_erase h
  · rwa [if_neg hc] at h

theorem erase_child_children_nodup (t : Tree) (p c j : Nat)
    (h : (nd t j).child_indices.Nodup) :
    (nd (erase_child t p c) j).child_indices.Nodup := by
  rw [nd_erase_child]
  by_cases hc : p = j ∧ p < t.length
  · rw [if_pos hc]
    obtain ⟨rfl, _⟩ := hc
    exact h.erase c
  · rwa [if_neg hc]

theorem prune_step_keeps_node (t : Tree) (i j : Nat) :
    (nd (prune_step t i) j).parent_index = (nd t j).parent_index ∧
    (nd (prune_step t i) j).text = (nd t j).text ∧
    (nd (prune_step t i) j).text_nodes_count = (nd t j).text_nodes_count := by
  unfold prune_step
  by_cases hc : prune_cond t i
  · rw [if_pos hc]
    exact ⟨(erase_child_keeps_node ..).1, (erase_child_keeps_node ..).2.1,
      (erase_child_keeps_node ..).2.2.1⟩
  · rw [if_neg hc]
    exact ⟨rfl, rfl, rfl⟩

theorem prune_step_length (t : Tree) (i : Nat) :
    (prune_step t i).length = t.length := by
  unfold prune_step
  by_cases hc : prune_cond t i
  · rw [if_pos hc]
    exact length_erase_child ..
  · rw [if_neg hc]

theorem prune_step_children_sub (t : Tree) (i j x : Nat)
    (h : x ∈ (nd (prune_step t i) j).child_indices) :
    x ∈ (nd t j).child_indices := by
  unfold prune_step at h
  by_cases hc : prune_cond t i
  · rw [if_pos hc] at h
    exact erase_child_children_sub _ _ _ _ _ h
  · rwa [if_neg hc] at h

theorem prune_step_children_nodup (t : Tree) (i j : Nat)
    (h : (nd t j).child_indices.Nodup) :
    (nd (prune_step t i) j).child_indices.Nodup := by
  unfold prune_step
  by_cases hc : prune_cond t i
  · rw [if_pos hc]
    exact erase_child_children_nodup _ _ _ _ h
  · rwa [if_neg hc]

theorem prune_step_cond_false (t : Tree) (i k : Nat) (h : ¬ prune_cond t k) :
    ¬ prune_cond (prune_step t i) k := by
  intro hcon
  obtain ⟨h1, h2, h3⟩ := hcon
  rw [(prune_step_keeps_node t i k).1] at h1 h2
  rw [(prune_step_keeps_node t i k).2.2] at h3
  exact h ⟨h1, prune_step_children_sub _ _ _ _ h2, h3⟩

theorem prune_step_kills_cond (t : Tree) (i : Nat)
    (hnd : ∀ j, (nd t j).child_indices.Nodup) :
    ¬ prune_cond (prune_step t i) i := by
  by_cases hc : prune_cond t i
  · unfold prune_step
    rw [if_pos hc]
    intro hcon
    obtain ⟨h1, h2, h3⟩ := hcon
    set p := (nd t i).parent_index.toNat with hp
    rw [(erase_child_keeps_node t p i i).1] at h1 h2
    by_cases hplen : p < t.length
    · rw [nd_erase_child] at h2
      rw [if_pos ⟨rfl, hplen⟩] at h2
      exact (hnd p).not_mem_erase h2
    · have : nd t p = {} := nd_oob t p (by omega)
      have hmem := hc.2.1
      rw [← hp, this] at hmem
      exact absurd hmem (List.not_mem_nil i)
  · exact fun hcon => hc (by rwa [prune_step, if_neg hc] at hcon)

theorem prune_fold_keeps_node (l : List Nat) : ∀ (t : Tree) (j : Nat),
    (nd (l.foldl prune_step t) j).parent_index = (nd t j).parent_index ∧
    (nd (l.foldl prune_step t) j).text = (nd t j).text ∧
    (nd (l.foldl prune_step t) j).text_nodes_count = (nd t j).text_nodes_count := by
  induction l with
  | nil => exact fun t j => ⟨rfl, rfl, rfl⟩
  | cons i rest ih =>
    intro t j
    rw [List.foldl_cons]
    refine ⟨?_, ?_, ?_⟩
    · rw [(ih (prune_step t i) j).1, (prune_step_keeps_node t i j).1]
    · rw [(ih (prune_step t i) j).2.1, (prune_step_keeps_node t i j).2.1]
    · rw [(ih (prune_step t i) j).2.2, (prune_step_keeps_node t i j).2.2]

theorem prune_fold_length (l : List Nat) : ∀ (t : Tree),
    (l.foldl prune_step t).length = t.length := by
  induction l with
  | nil => exact fun t => rfl
  | cons i rest ih =>
    intro t
    rw [List.foldl_cons, ih, prune_step_length]

theorem prune_fold_children_sub (l : List Nat) : ∀ (t : Tree) (j x : Nat),
    x ∈ (nd (l.foldl prune_step t) j).child_indices → x ∈ (nd t j).child_indices := by
  induction l with
  | nil => exact fun t j x h => h
  | cons i rest ih =>
    intro t j x h
    rw [List.foldl_cons] at h
    exact prune_step_children_sub _ _ _ _ (ih (prune_step t i) j x h)

theorem prune_fold_children_nodup (l : List Nat) : ∀ (t : Tree),
    (∀ j, (nd t j).child_indices.Nodup) →
    ∀ j, (nd (l.foldl prune_step t) j).child_indices.Nodup := by
  induction l with
  | nil => exact fun t h => h
  | cons i rest ih =>
    intro t h j
    rw [List.foldl_cons]
    exact ih (prune_step t i) (fun k => prune_step_children_nodup t i k (h k)) j

theorem prune_fold_cond_false (l : List Nat) : ∀ (t : Tree) (k : Nat),
    ¬ prune_cond t k → ¬ prune_cond (l.foldl prune_step t) k := by
  induction l with
  | nil => exact fun t k h => h
  | cons i rest ih =>
    intro t k h
    rw [List.foldl_cons]
    exact ih (prune_step t i) k (prune_step_cond_false t i k h)

theorem prune_fold_kills_all (l : List Nat) : ∀ (t : Tree),
    (∀ j, (nd t j).child_indices.Nodup) →
    ∀ i ∈ l, ¬ prune_cond (l.foldl prune_step t) i := by
  induction l with
  | nil => intro t _ i hi; exact absurd hi (List.not_mem_nil i)
  | cons i0 rest ih =>
    intro t hnd i hi
    rw [List.foldl_cons]
    rcases List.mem_cons.mp hi with h1 | h1
    · subst h1
      exact prune_fold_cond_false rest (prune_step t i) i (prune_step_kills_cond t i hnd)
    · exact ih (prune_step t i0) (fun k => prune_step_children_nodup t i0 k (hnd k)) i h1

theorem prune_fold_id (l : List Nat) : ∀ (t : Tree),
    (∀ i ∈ l, ¬ prune_cond t i) → l.foldl prune_step t = t := by
  induction l with
  | nil => exact fun t _ => rfl
  | cons i rest ih =>
    intro t h
    rw [List.foldl_cons]
    have hstep : prune_step t i = t := by
      rw [prune_step, if_neg (h i (by simp))]
    rw [hstep]
    exact ih t (fun k hk => h k (by simp [hk]))

theorem unlink_idempotent (t : Tree)
    (hnd : ∀ j, (nd t j).child_indices.Nodup) :
    unlink_text_free_nodes (unlink_text_free_nodes t) = unlink_text_free_nodes t := by
  unfold unlink_text_free_nodes
  rw [prune_fold_length]
  apply prune_fold_id
  exact prune_fold_kills_all (List.range t.length) t hnd

end ArenaLemmas

section Claims45

/-- C5: two nodes tag-match iff their tags are equal and either the combined
number of style classes is below 2 or the class sets intersect; in particular
classes `{"a"}` vs `{}` match, `{"a"}` vs `{"b"}` do not, and `{"a","b"}` vs
`{"b","c"}` match. -/
theorem tag_match_characterization :
    (∀ a b : Node, check_tag_match a b = true ↔
      (a.tag = b.tag ∧ (a.style_classes.length + b.style_classes.length < 2 ∨
        ∃ c, c ∈ a.style_classes ∧ c ∈ b.style_classes))) ∧
    check_tag_match { tag := "x", style_classes := ["a"] } { tag := "x" } = true ∧
    check_tag_match { tag := "x", style_classes := ["a"] }
      { tag := "x", style_classes := ["b"] } = false ∧
    check_tag_match { tag := "x", style_classes := ["a", "b"] }
      { tag := "x", style_classes := ["b", "c"] } = true := by
  refine ⟨fun a b => ?_, by decide, by decide, by decide⟩
  unfold check_tag_match
  by_cases h : a.tag = b.tag
  · by_cases h2 : a.style_classes.length + b.style_classes.length < 2
    · simp [h, h2]
    · simp only [h, h2, ne_eq, not_true_eq_false, not_false_eq_true, ite_true, ite_false,
        if_false, Bool.false_eq_true, false_iff, List.any_eq_true]
      simp [List.elem_iff, h, h2]
  · simp [check_tag_match, h]

/-- C4: when the self node is a text leaf, the matcher gives the pair score 1
iff the other node is also a text leaf and one text is a (case-sensitive)
prefix of the other, and score 0 otherwise. -/
theorem text_leaf_score (fuel : Nat) (t u : Tree) (i j : Nat)
    (h : (nd t i).text ≠ []) :
    ((check_matching (fuel + 1) t u i j).1 = 1 ↔
      ((nd u j).text ≠ [] ∧
        ((nd u j).text.isPrefixOf (nd t i).text ∨
          (nd t i).text.isPrefixOf (nd u j).text))) ∧
    ((check_matching (fuel + 1) t u i j).1 = 1 ∨
      (check_matching (fuel + 1) t u i j).1 = 0) := by
  unfold check_matching
  simp only [h, ne_eq, not_false_eq_true, if_true, ite_true]
  split_ifs with hm
  · simpa using hm
  · simpa using hm

/-- Witness for `text_leaf_score` at a concrete pair of one-node trees. -/
theorem text_leaf_score_witness :
    (nd [({ text := ['a', 'b'] } : Node)] 0).text ≠ [] ∧
    ((check_matching 1 [({ text := ['a', 'b'] } : Node)]
        [({ text := ['a'] } : Node)] 0 0).1 = 1 ↔
      ((nd [({ text := ['a'] } : Node)] 0).text ≠ [] ∧
        ((nd [({ text := ['a'] } : Node)] 0).text.isPrefixOf
            (nd [({ text := ['a', 'b'] } : Node)] 0).text ∨
          (nd [({ text := ['a', 'b'] } : Node)] 0).text.isPrefixOf
            (nd [({ text := ['a'] } : Node)] 0).text))) := by
  exact ⟨by decide,
    (text_leaf_score 0 [{ text := ['a', 'b'] }] [{ text := ['a'] }] 0 0 (by decide)).1⟩

end Claims45

section Claim6

/-- A concrete tree: root with two block children of different tags (`div`, `p`),
each holding one text leaf.  The two leaves sit at the same depth, and their
depth-1 ancestors `1` and `2` are distinct siblings under the root with no
sibling strictly between them. -/
def ex6 : Tree :=
  [ { tag := "root", child_indices := [1, 2] },
    { tag := "div", parent_index := 0, child_indices := [3] },
    { tag := "p", parent_index := 0, child_indices := [4] },
    { parent_index := 1, text := ['a'] },
    { parent_index := 2, text := ['b'] } ]

/-- C6 counterexample: in the path-equality test on `ex6`'s two leaves, the
sibling ancestors `1` and `2` (same parent, same depth) are judged unequal even
though every sibling strictly between them (there are none) tag-matches the
first ancestor — the code's scan also requires the second ancestor itself to
tag-match the first, which fails here (`div` vs `p`). -/
theorem paths_equality_between_counterexample :
    ¬ (((check_paths_equality ex6 3 4 []).1 = true) ↔
      (∀ s ∈ siblings_between ex6 1 2, check_tag_match (nd ex6 1) (nd ex6 s) = true)) := by
  decide

/-- C6 amended: for two distinct same-parent ancestors, with `first` occurring
before `second` in the parent's child order, the connection check succeeds iff
every sibling strictly between them tag-matches `first` AND `second` itself
tag-matches `first`. -/
theorem check_connection_characterization (t : Tree) (first second : Nat)
    (h1 : first ∈ (nd t (nd t first).parent_index.toNat).child_indices)
    (h2 : second ∈ (nd t (nd t first).parent_index.toNat).child_indices)
    (hlt : (nd t (nd t first).parent_index.toNat).child_indices.findIdx (fun s => s = first) <
      (nd t (nd t first).parent_index.toNat).child_indices.findIdx (fun s => s = second)) :
    (check_connection t first second = true ↔
      ((∀ s ∈ siblings_between t first second,
          check_tag_match (nd t first) (nd t s) = true) ∧
        check_tag_match (nd t first) (nd t second) = true)) := by
  set sibs := (nd t (nd t first).parent_index.toNat).child_indices with hsibs
  set i1 := sibs.findIdx (fun s => s = first) with hi1
  set i2 := sibs.findIdx (fun s => s = second) with hi2
  have hi2len : i2 < sibs.length :=
    List.findIdx_lt_length_of_exists ⟨second, h2, by simp⟩
  have hget2 : sibs[i2] = second := by
    simpa using List.findIdx_getElem (w := hi2len)
  have key : ∀ (P : Nat → Prop),
      ((∀ m ∈ List.range' (i1 + 1) (i2 + 1 - (i1 + 1)), P (sibs.getD m 0)) ↔
        ((∀ s ∈ (sibs.drop (i1 + 1)).take (i2 - (i1 + 1)), P s) ∧ P second)) := by
    intro P
    constructor
    · intro hall
      constructor
      · intro s hs
        obtain ⟨k, hk, hks⟩ := List.mem_iff_getElem.mp hs
        have hklen : k < i2 - (i1 + 1) := by
          have := hk
          simp at this
          omega
        have hkd : k < (sibs.drop (i1 + 1)).length := by
          have := hk
          simp at this ⊢
          omega
        have hbk : i1 + 1 + k < sibs.length := by
          have h9 := hkd
          simp at h9
          omega
        have hgs : ((sibs.drop (i1 + 1)).take (i2 - (i1 + 1)))[k] =
            sibs[i1 + 1 + k] := by
          rw [List.getElem_take]
          exact List.getElem_drop _
        have hm : i1 + 1 + k ∈ List.range' (i1 + 1) (i2 + 1 - (i1 + 1)) := by
          rw [List.mem_range'_1]
          omega
        have := hall _ hm
        rw [List.getD_eq_getElem sibs 0 hbk] at this
        rw [← hks, hgs]
        exact this
      · have hm : i2 ∈ List.range' (i1 + 1) (i2 + 1 - (i1 + 1)) := by
          rw [List.mem_range'_1]
          omega
        have := hall _ hm
        rwa [List.getD_eq_getElem sibs 0 hi2len, hget2] at this
    · rintro ⟨hbetween, hsecond⟩ m hm
      rw [List.mem_range'_1] at hm
      by_cases hm2 : m = i2
      · rw [hm2, List.getD_eq_getElem sibs 0 hi2len, hget2]
        exact hsecond
      · have hmlt : m < i2 := by omega
        have hmlen : m < sibs.length := by omega
        have hkd : m - (i1 + 1) < ((sibs.drop (i1 + 1)).take (i2 - (i1 + 1))).length := by
          simp
          omega
        have hgs : ((sibs.drop (i1 + 1)).take (i2 - (i1 + 1)))[m - (i1 + 1)] =
            sibs[m] := by
          rw [List.getElem_take]
          rw [List.getElem_drop _]
          congr 1
          omega
        have hmem : sibs[m] ∈ (sibs.drop (i1 + 1)).take (i2 - (i1 + 1)) := by
          rw [← hgs]
          exact List.getElem_mem hkd
        have := hbetween _ hmem
        rwa [List.getD_eq_getElem sibs 0 hmlen]
  unfold check_connection siblings_between
  rw [List.all_eq_true]
  simp only [← hsibs, ← hi1, ← hi2]
  exact key (fun s => check_tag_match (nd t first) (nd t s) = true)

/-- A homogeneous sibling run: root with three `li` children, one text leaf each. -/
def ex6w : Tree :=
  [ { tag := "root", child_indices := [1, 2, 3] },
    { tag := "li", parent_index := 0, child_indices := [4] },
    { tag := "li", parent_index := 0, child_indices := [5] },
    { tag := "li", parent_index := 0, child_indices := [6] },
    { parent_index := 1, text := ['a'] },
    { parent_index := 2, text := ['b'] },
    { parent_index := 3, text := ['c'] } ]

/-- Witness for `check_connection_characterization`: root with three `li`
children, checking the first against the third. -/
theorem check_connection_characterization_witness :
    (1 ∈ (nd ex6w (nd ex6w 1).parent_index.toNat).child_indices ∧
      3 ∈ (nd ex6w (nd ex6w 1).parent_index.toNat).child_indices) ∧
    (check_connection ex6w 1 3 = true ↔
      ((∀ s ∈ siblings_between ex6w 1 3,
          check_tag_match (nd ex6w 1) (nd ex6w s) = true) ∧
        check_tag_match (nd ex6w 1) (nd ex6w 3) = true)) :=
  ⟨⟨by decide, by decide⟩,
    check_connection_characterization ex6w 1 3 (by decide) (by decide) (by decide)⟩

end Claim6

section Claim7

theorem bucket_add_values_nonempty (k v : Nat) :
    ∀ (bs : List (Nat × List Nat)), (∀ b ∈ bs, b.2 ≠ []) →
      ∀ b ∈ bucket_add bs k v, b.2 ≠ []
  | [], _ => by
    intro b hb
    simp only [bucket_add, List.mem_singleton] at hb
    subst hb
    simp
  | b0 :: rest, h => by
    intro b hb
    simp only [bucket_add] at hb
    split at hb
    · rcases List.mem_cons.mp hb with h1 | h1
      · subst h1
        have := h b0 (by simp)
        simp only [ne_eq]
        intro hcon
        exact absurd (List.append_eq_nil.mp hcon).1 this
      · exact h b (List.mem_cons_of_mem _ h1)
    · rcases List.mem_cons.mp hb with h1 | h1
      · subst h1
        exact h b (by simp)
      · exact bucket_add_values_nonempty k v rest (fun x hx => h x (by simp [hx])) b h1

theorem collect_fellows_values_nonempty (t : Tree) (depth node_index : Nat) :
    ∀ (elems : List (Nat × Nat)) (used : List Nat) (memo : List ((Nat × Nat) × Bool))
      (buckets : List (Nat × List Nat)), (∀ b ∈ buckets, b.2 ≠ []) →
      ∀ b ∈ (collect_fellows t depth node_index elems used memo buckets).1, b.2 ≠ []
  | [], _, _, _, h => by
    intro b hb
    exact h b hb
  | cmp :: rest, used, memo, buckets, h => by
    intro b hb
    simp only [collect_fellows] at hb
    split at hb
    · exact h b hb
    · split at hb
      · exact collect_fellows_values_nonempty t depth node_index rest used memo buckets h b hb
      · split at hb
        · exact collect_fellows_values_nonempty t depth node_index rest used _ _
            (bucket_add_values_nonempty _ _ buckets h) b hb
        · exact collect_fellows_values_nonempty t depth node_index rest used _ buckets h b hb

theorem largest_bucket_fold_length_mono (bs : List (Nat × List Nat)) :
    ∀ (acc : List Nat), acc.length ≤
      (bs.foldl (fun fellows kg => if kg.2.length > fellows.length then kg.2 else fellows)
        acc).length := by
  induction bs with
  | nil => intro acc; simp
  | cons b rest ih =>
    intro acc
    simp only [List.foldl_cons]
    by_cases hc : b.2.length > acc.length
    · simp only [hc, if_true, if_pos]
      exact le_trans (le_of_lt hc) (ih b.2)
    · simp only [hc, if_false, if_neg]
      exact ih acc

theorem largest_bucket_nonempty (bs : List (Nat × List Nat))
    (hne : bs ≠ []) (h : ∀ b ∈ bs, b.2 ≠ []) : largest_bucket bs ≠ [] := by
  cases bs with
  | nil => exact absurd rfl hne
  | cons b rest =>
    unfold largest_bucket
    simp only [List.foldl_cons, List.length_nil]
    have hb : b.2 ≠ [] := h b (by simp)
    have hlen : 0 < b.2.length := List.length_pos.mpr hb
    simp only [gt_iff_lt, hlen, if_true, if_pos]
    intro hcon
    have := largest_bucket_fold_length_mono rest b.2
    rw [hcon] at this
    simp at this
    exact absurd this hb

theorem similar_loop_groups (t : Tree) :
    ∀ (elems : List (Nat × Nat)) (used : List Nat) (memo : List ((Nat × Nat) × Bool))
      (groups : List (List Nat)),
      (∀ g ∈ groups, ∃ x xs, g = x :: xs ∧ xs ≠ []) →
      ∀ g ∈ similar_loop t elems used memo groups, ∃ x xs, g = x :: xs ∧ xs ≠ []
  | [], _, _, _, h => by
    intro g hg
    exact h g hg
  | cur :: rest, used, memo, groups, h => by
    intro g hg
    simp only [similar_loop] at hg
    split at hg
    · exact similar_loop_groups t rest used memo groups h g hg
    · split at hg
      · refine similar_loop_groups t rest _ _ _ ?_ g hg
        intro g2 hg2
        rcases List.mem_append.mp hg2 with h1 | h1
        · exact h g2 h1
        · rw [List.mem_singleton.mp h1]
          refine ⟨cur.2, _, rfl, ?_⟩
          apply largest_bucket_nonempty
          · assumption
          · exact collect_fellows_values_nonempty t cur.1 cur.2 rest used memo []
              (by simp)
      · exact similar_loop_groups t rest used _ groups h g hg

/-- C7: the similarity grouper never emits a singleton group — every emitted
group is the current leaf followed by at least one fellow leaf. -/
theorem similar_sense_no_singleton_groups (t : Tree) :
    ∀ g ∈ get_similar_sense_texts t, ∃ x xs, g = x :: xs ∧ xs ≠ [] := by
  unfold get_similar_sense_texts
  exact similar_loop_groups t _ [] [] [] (by simp)

/-- Witness for `similar_sense_no_singleton_groups`: on the three-`li` tree the
grouper emits exactly the group `[4, 5, 6]`, which is no singleton. -/
theorem similar_sense_no_singleton_groups_witness :
    ([4, 5, 6] : List Nat) ∈ get_similar_sense_texts ex6w ∧
      ∃ x xs, ([4, 5, 6] : List Nat) = x :: xs ∧ xs ≠ [] :=
  ⟨by decide, similar_sense_no_singleton_groups ex6w [4, 5, 6] (by decide)⟩

end Claim7

section Claim9

/-- C9: on a tree with up-to-date text-leaf counts (and duplicate-free child
lists, as on every built tree), running the prune pass twice yields the same
reachable node set as running it once — the second pass leaves the arena
unchanged. -/
theorem prune_pass_idempotent (t : Tree)
    (hacc : ∀ i < t.length, (nd t i).text_nodes_count = subtree_text_count t.length t i)
    (hnd : ∀ j < t.length, (nd t j).child_indices.Nodup) :
    ∀ x, Reachable (unlink_text_free_nodes (unlink_text_free_nodes t)) x ↔
      Reachable (unlink_text_free_nodes t) x := by
  have hnd2 : ∀ j, (nd t j).child_indices.Nodup := by
    intro j
    by_cases hj : j < t.length
    · exact hnd j hj
    · rw [nd_oob t j (le_of_not_lt hj)]
      exact List.nodup_nil
  rw [unlink_idempotent t hnd2]
  exact fun x => Iff.rfl

/-- A tree with accurate counts: root holding an empty block (count 0) and a
text leaf. -/
def ex9 : Tree :=
  [ { tag := "root", child_indices := [1, 2], text_nodes_count := 1 },
    { tag := "div", parent_index := 0, text_nodes_count := 0 },
    { parent_index := 0, text := ['a'], text_nodes_count := 1 } ]

/-- Witness for `prune_pass_idempotent` on `ex9`. -/
theorem prune_pass_idempotent_witness :
    (∀ i < ex9.length, (nd ex9 i).text_nodes_count = subtree_text_count ex9.length ex9 i) ∧
    (∀ x, Reachable (unlink_text_free_nodes (unlink_text_free_nodes ex9)) x ↔
      Reachable (unlink_text_free_nodes ex9) x) :=
  ⟨by decide, prune_pass_idempotent ex9 (by decide) (by decide)⟩

end Claim9

section Claim3

/-- The recursive score of the candidate at position `p` of `tcs`. -/
def cand_score (fuel : Nat) (t u : Tree) (child : Nat) (tcs : List Nat) (p : Nat) : Nat :=
  (check_matching fuel t u child (tcs.getD p 0)).1

/-- The tag-matching positions of a position list (spec: the candidates a self
child considers, once restricted to positions at or after the cursor). -/
def good_list (t u : Tree) (child : Nat) (tcs : List Nat) (L : List Nat) : List Nat :=
  L.filter (fun p => check_tag_match (nd t child) (nd u (tcs.getD p 0)))

/-- The highest recursive score among the tag-matching positions (0 if none). -/
def max_score (fuel : Nat) (t u : Tree) (child : Nat) (tcs : List Nat) (L : List Nat) : Nat :=
  ((good_list t u child tcs L).map (cand_score fuel t u child tcs)).foldr max 0

/-- Modelled from the spec: the per-child choice — the first considered
candidate achieving the highest recursive score, provided some considered
candidate matches (achieves a positive score). -/
def spec_choice (fuel : Nat) (t u : Tree) (child : Nat) (tcs : List Nat) (cursor : Nat) :
    Option Nat :=
  let cands := good_list t u child tcs (List.range' cursor (tcs.length - cursor))
  let best := max_score fuel t u child tcs (List.range' cursor (tcs.length - cursor))
  if best > 0 then cands.find? (fun p => cand_score fuel t u child tcs p = best) else none

/-- Modelled from the spec: the ordered, non-reusable greedy scan — each self
child in order picks its choice, the cursor advances past a chosen candidate,
an unmatched child contributes 0 and leaves the cursor unchanged; the node
score is the sum of the chosen children's scores. -/
def spec_align (fuel : Nat) (t u : Tree) (tcs : List Nat) : List Nat → Nat → Nat
  | [], _ => 0
  | c :: cs, cursor =>
    match spec_choice fuel t u c tcs cursor with
    | some p => cand_score fuel t u c tcs p + spec_align fuel t u tcs cs (p + 1)
    | none => spec_align fuel t u tcs cs cursor

/-- The score held by a scan accumulator (`best_matched`, 0 for `none`). -/
def best_val : Option (Nat × Nat × List (Nat × Nat)) → Nat
  | none => 0
  | some b0 => b0.2.1

theorem best_val_none : best_val none = 0 := rfl

theorem best_val_some (r : Nat × Nat × List (Nat × Nat)) : best_val (some r) = r.2.1 := rfl

theorem good_list_cons_true (t u : Tree) (child : Nat) (tcs : List Nat) (p : Nat)
    (L : List Nat) (h : check_tag_match (nd t child) (nd u (tcs.getD p 0)) = true) :
    good_list t u child tcs (p :: L) = p :: good_list t u child tcs L := by
  unfold good_list
  rw [List.filter_cons, if_pos h]

theorem good_list_cons_false (t u : Tree) (child : Nat) (tcs : List Nat) (p : Nat)
    (L : List Nat) (h : ¬ check_tag_match (nd t child) (nd u (tcs.getD p 0)) = true) :
    good_list t u child tcs (p :: L) = good_list t u child tcs L := by
  unfold good_list
  rw [List.filter_cons, if_neg h]

theorem max_score_cons_true (fuel : Nat) (t u : Tree) (child : Nat) (tcs : List Nat)
    (p : Nat) (L : List Nat)
    (h : check_tag_match (nd t child) (nd u (tcs.getD p 0)) = true) :
    max_score fuel t u child tcs (p :: L) =
      max (cand_score fuel t u child tcs p) (max_score fuel t u child tcs L) := by
  rw [max_score, good_list_cons_true t u child tcs p L h, List.map_cons, List.foldr_cons]
  rfl

theorem max_score_cons_false (fuel : Nat) (t u : Tree) (child : Nat) (tcs : List Nat)
    (p : Nat) (L : List Nat)
    (h : ¬ check_tag_match (nd t child) (nd u (tcs.getD p 0)) = true) :
    max_score fuel t u child tcs (p :: L) = max_score fuel t u child tcs L := by
  rw [max_score, good_list_cons_false t u child tcs p L h]
  rfl

theorem foldr_max_attained (l : List Nat) : l.foldr max 0 = 0 ∨ l.foldr max 0 ∈ l := by
  induction l with
  | nil => exact Or.inl rfl
  | cons x xs ih =>
    rw [List.foldr_cons]
    rcases max_cases x (xs.foldr max 0) with ⟨he, _⟩ | ⟨he, _⟩
    · exact Or.inr (by rw [he]; exact List.mem_cons_self x xs)
    · rcases ih with h0 | hmem
      · exact Or.inl (by rw [he, h0])
      · exact Or.inr (by rw [he]; exact List.mem_cons_of_mem x hmem)

theorem max_score_attained (fuel : Nat) (t u : Tree) (child : Nat) (tcs : List Nat)
    (L : List Nat) (h : 0 < max_score fuel t u child tcs L) :
    ∃ q ∈ good_list t u child tcs L,
      cand_score fuel t u child tcs q = max_score fuel t u child tcs L := by
  rcases foldr_max_attained ((good_list t u child tcs L).map (cand_score fuel t u child tcs))
    with h0 | hmem
  · rw [max_score] at h
    omega
  · rcases List.mem_map.mp hmem with ⟨q, hq, hqe⟩
    exact ⟨q, hq, hqe⟩

theorem cm_scan_step_good (fuel : Nat) (t u : Tree) (child : Nat) (tcs : List Nat)
    (b : Option (Nat × Nat × List (Nat × Nat))) (p : Nat)
    (hgood : check_tag_match (nd t child) (nd u (tcs.getD p 0)) = true) :
    cm_scan_step t u child tcs (check_matching fuel t u child) b p =
      if best_val b < cand_score fuel t u child tcs p then
        some (p, cand_score fuel t u child tcs p,
          (check_matching fuel t u child (tcs.getD p 0)).2)
      else b := by
  cases b with
  | none => simp only [cm_scan_step, hgood, if_true, ite_true, best_val, cand_score]
  | some r => simp only [cm_scan_step, hgood, if_true, ite_true, best_val, cand_score]

theorem cm_scan_step_bad (t u : Tree) (child : Nat) (tcs : List Nat)
    (score : Nat → Nat × List (Nat × Nat))
    (b : Option (Nat × Nat × List (Nat × Nat))) (p : Nat)
    (hbad : ¬ check_tag_match (nd t child) (nd u (tcs.getD p 0)) = true) :
    cm_scan_step t u child tcs score b p = b := by
  have hbad2 : ¬ check_tag_match (nd t child) (nd u (tcs[p]?.getD 0)) = true := by
    rw [← List.getD_eq_getElem?_getD]
    exact hbad
  simp [cm_scan_step, hbad2]

/-- The operational candidate scan with a strictly-improving best equals the
spec's "first position attaining the (positive) maximum score". -/
theorem cm_scan_spec (fuel : Nat) (t u : Tree) (child : Nat) (tcs : List Nat) :
    ∀ (L : List Nat) (b : Option (Nat × Nat × List (Nat × Nat))),
      (∀ r, b = some r → 0 < r.2.1) →
      cm_scan t u child tcs (check_matching fuel t u child) L b =
        (if best_val b < max_score fuel t u child tcs L then
          match (good_list t u child tcs L).find?
              (fun p => cand_score fuel t u child tcs p = max_score fuel t u child tcs L) with
          | some p => some (p, cand_score fuel t u child tcs p,
              (check_matching fuel t u child (tcs.getD p 0)).2)
          | none => b
        else b) := by
  intro L
  induction L with
  | nil =>
    intro b hb
    have h0 : max_score fuel t u child tcs [] = 0 := rfl
    rw [h0]
    simp [cm_scan]
  | cons p L2 ih =>
    intro b hb
    rw [cm_scan, List.foldl_cons]
    by_cases hgood : check_tag_match (nd t child) (nd u (tcs.getD p 0)) = true
    · rw [cm_scan_step_good fuel t u child tcs b p hgood]
      rw [max_score_cons_true fuel t u child tcs p L2 hgood,
        good_list_cons_true t u child tcs p L2 hgood]
      set S := cand_score fuel t u child tcs p with hS
      set mm := (check_matching fuel t u child (tcs.getD p 0)).2 with hmm
      set M2 := max_score fuel t u child tcs L2 with hM2
      by_cases hcmp : best_val b < S
      · rw [if_pos hcmp]
        have hb2 : ∀ r, (some (p, S, mm) : Option (Nat × Nat × List (Nat × Nat))) =
            some r → 0 < r.2.1 := by
          rintro r hr
          cases hr
          simp only
          omega
        have hres := ih (some (p, S, mm)) hb2
        rw [cm_scan] at hres
        rw [hres, best_val_some]
        simp only
        by_cases hM : S < M2
        · rw [if_pos hM]
          have hmax : max S M2 = M2 := max_eq_right (le_of_lt hM)
          rw [hmax, if_pos (lt_trans hcmp hM)]
          rw [List.find?_cons]
          have hne : (decide (cand_score fuel t u child tcs p = M2)) = false := by
            simp only [decide_eq_false_iff_not, ← hS]
            omega
          rw [hne]
          rcases max_score_attained fuel t u child tcs L2 (by omega) with ⟨q, hq, hqe⟩
          cases hfind : (good_list t u child tcs L2).find?
              (fun x => cand_score fuel t u child tcs x = M2) with
          | none =>
            exfalso
            have := List.find?_eq_none.mp hfind q hq
            simp only [decide_eq_true_eq, ← hM2] at this
            exact this hqe
          | some q2 => rfl
        · rw [if_neg hM]
          have hmax : max S M2 = S := max_eq_left (le_of_not_lt hM)
          rw [hmax, if_pos hcmp]
          rw [List.find?_cons]
          have heq : (decide (cand_score fuel t u child tcs p = S)) = true := by
            simp [← hS]
          rw [heq]
      · rw [if_neg hcmp]
        have hres := ih b hb
        rw [cm_scan] at hres
        rw [hres]
        have hSle : S ≤ best_val b := le_of_not_lt hcmp
        by_cases hM : best_val b < M2
        · have h1 : best_val b < max S M2 := lt_max_of_lt_right hM
          rw [if_pos hM, if_pos h1]
          have hmax : max S M2 = M2 := max_eq_right (by omega)
          rw [hmax]
          rw [List.find?_cons]
          have hne : (decide (cand_score fuel t u child tcs p = M2)) = false := by
            simp only [decide_eq_false_iff_not, ← hS]
            omega
          rw [hne]
        · have h1 : ¬ best_val b < max S M2 := by
            rcases max_cases S M2 with ⟨he, _⟩ | ⟨he, _⟩ <;> omega
          rw [if_neg hM, if_neg h1]
    · rw [cm_scan_step_bad t u child tcs _ b p hgood]
      rw [max_score_cons_false fuel t u child tcs p L2 hgood,
        good_list_cons_false t u child tcs p L2 hgood]
      have hres := ih b hb
      rw [cm_scan] at hres
      rw [hres]

/-- The outer child loop equals the spec's cursor-threaded greedy alignment. -/
theorem cm_children_spec (fuel : Nat) (t u : Tree) (tcs : List Nat) :
    ∀ (cs : List Nat) (total : Nat) (sub : List (Nat × Nat)) (cursor : Nat),
      (cs.foldl (cm_child_step t u tcs (fun c tci => check_matching fuel t u c tci))
        (total, sub, cursor)).1 = total + spec_align fuel t u tcs cs cursor := by
  intro cs
  induction cs with
  | nil =>
    intro total sub cursor
    simp [spec_align]
  | cons c cs2 ih =>
    intro total sub cursor
    rw [List.foldl_cons]
    have hb : ∀ r, (none : Option (Nat × Nat × List (Nat × Nat))) = some r → 0 < r.2.1 := by
      intro r hr
      cases hr
    have hscan := cm_scan_spec fuel t u c tcs
      (List.range' cursor (tcs.length - cursor)) none hb
    rw [spec_align]
    show (cs2.foldl (cm_child_step t u tcs (fun c tci => check_matching fuel t u c tci))
      (cm_child_step t u tcs (fun c tci => check_matching fuel t u c tci)
        (total, sub, cursor) c)).1 = _
    rw [cm_child_step]
    simp only
    rw [hscan, best_val_none]
    rw [spec_choice]
    simp only [gt_iff_lt]
    by_cases hM : 0 < max_score fuel t u c tcs (List.range' cursor (tcs.length - cursor))
    · rw [if_pos hM, if_pos hM]
      cases hfind : (good_list t u c tcs (List.range' cursor (tcs.length - cursor))).find?
          (fun p => cand_score fuel t u c tcs p =
            max_score fuel t u c tcs (List.range' cursor (tcs.length - cursor))) with
      | none =>
        simp only
        rw [ih]
      | some p =>
        simp only
        rw [ih]
        omega
    · rw [if_neg hM, if_neg hM]
      simp only
      rw [ih]

/-- C3: for a non-text self node, the matcher's score is computed by the spec's
ordered, non-reusable greedy scan over the other node's children: the cursor
starts at 0; each self child in order considers only the tag-matching
candidates at or after the cursor, picks the matching candidate with the
highest recursive score (ties broken by the first encountered), and the cursor
advances past the chosen candidate; a self child no candidate matches
contributes 0 and leaves the cursor unchanged; the node's score is the sum of
the chosen children's scores. -/
theorem matcher_greedy_scan (fuel : Nat) (t u : Tree) (i j : Nat)
    (h : (nd t i).text = []) :
    (check_matching (fuel + 1) t u i j).1 =
      spec_align fuel t u (nd u j).child_indices (nd t i).child_indices 0 := by
  unfold check_matching
  simp only [h, ne_eq, not_true_eq_false, ite_false, if_false]
  rw [cm_children_spec fuel t u (nd u j).child_indices (nd t i).child_indices 0 [] 0]
  omega

/-- Witness for `matcher_greedy_scan`: the three-`li` tree matched against
itself at the root. -/
theorem matcher_greedy_scan_witness :
    (nd ex6w 0).text = [] ∧
    (check_matching 7 ex6w ex6w 0 0).1 =
      spec_align 6 ex6w ex6w (nd ex6w 0).child_indices (nd ex6w 0).child_indices 0 :=
  ⟨by decide, matcher_greedy_scan 6 ex6w ex6w 0 0 (by decide)⟩

end Claim3

section MatcherEntries

/-- Inversion for a successful candidate scan started from `none`: the result
carries the recursive score and matching of its position, and that score is
strictly positive. -/
theorem cm_scan_some (fuel : Nat) (t u : Tree) (child : Nat) (tcs : List Nat)
    (L : List Nat) (r : Nat × Nat × List (Nat × Nat))
    (h : cm_scan t u child tcs (check_matching fuel t u child) L none = some r) :
    r.2.1 = (check_matching fuel t u child (tcs.getD r.1 0)).1 ∧
    r.2.2 = (check_matching fuel t u child (tcs.getD r.1 0)).2 ∧
    0 < r.2.1 := by
  rw [cm_scan_spec fuel t u child tcs L none (by rintro _ ⟨⟩)] at h
  by_cases hM : best_val none < max_score fuel t u child tcs L
  · rw [if_pos hM] at h
    cases hfind : (good_list t u child tcs L).find?
        (fun p => cand_score fuel t u child tcs p = max_score fuel t u child tcs L) with
    | none =>
      rw [hfind] at h
      cases h
    | some p =>
      rw [hfind] at h
      have hpred := List.find?_some hfind
      simp only [decide_eq_true_eq] at hpred
      cases h
      refine ⟨rfl, rfl, ?_⟩
      simp only [cand_score] at hpred ⊢
      rw [best_val_none] at hM
      omega
  · rw [if_neg hM] at h
    cases h

theorem subtree_text_count_mono (t : Tree) : ∀ (fuel i : Nat),
    subtree_text_count fuel t i ≤ subtree_text_count (fuel + 1) t i := by
  intro fuel
  induction fuel with
  | zero =>
    intro i
    exact Nat.zero_le _
  | succ f ih =>
    intro i
    rw [subtree_text_count, subtree_text_count]
    by_cases h : (nd t i).text ≠ []
    · rw [if_pos h, if_pos h]
    · rw [if_neg h, if_neg h]
      exact List.sum_le_sum (fun c _ => ih c)

theorem cm_children_le (fuel : Nat) (t u : Tree) (tcs : List Nat)
    (hrec : ∀ c y, (check_matching fuel t u c y).1 ≤ subtree_text_count fuel t c) :
    ∀ (cs : List Nat) (acc : Nat × List (Nat × Nat) × Nat),
      (cs.foldl (cm_child_step t u tcs (fun c tci => check_matching fuel t u c tci)) acc).1 ≤
        acc.1 + (cs.map (fun c => subtree_text_count fuel t c)).sum := by
  intro cs
  induction cs with
  | nil =>
    intro acc
    simp
  | cons c cs2 ih =>
    intro acc
    rw [List.foldl_cons, List.map_cons, List.sum_cons]
    cases hbest : cm_scan t u c tcs (check_matching fuel t u c)
        (List.range' acc.2.2 (tcs.length - acc.2.2)) none with
    | none =>
      have hstep : cm_child_step t u tcs (fun c tci => check_matching fuel t u c tci) acc c
          = acc := by
        rw [cm_child_step, hbest]
      rw [hstep]
      have := ih acc
      omega
    | some b0 =>
      obtain ⟨hb1, _, _⟩ := cm_scan_some fuel t u c tcs _ b0 hbest
      have hstep : cm_child_step t u tcs (fun c tci => check_matching fuel t u c tci) acc c
          = (acc.1 + b0.2.1, acc.2.1 ++ b0.2.2, b0.1 + 1) := by
        rw [cm_child_step, hbest]
      rw [hstep]
      have h1 := ih (acc.1 + b0.2.1, acc.2.1 ++ b0.2.2, b0.1 + 1)
      have h2 : b0.2.1 ≤ subtree_text_count fuel t c := by
        rw [hb1]
        exact hrec c _
      simp only at h1
      omega

/-- The matcher's score never exceeds the number of text leaves in the self
subtree (computed with the same fuel). -/
theorem score_le_count (t u : Tree) : ∀ (fuel : Nat) (i j : Nat),
    (check_matching fuel t u i j).1 ≤ subtree_text_count fuel t i := by
  intro fuel
  induction fuel with
  | zero =>
    intro i j
    simp [check_matching, subtree_text_count]
  | succ f ih =>
    intro i j
    unfold check_matching subtree_text_count
    by_cases h : (nd t i).text ≠ []
    · rw [if_pos h, if_pos h]
      split
      · exact Nat.le_refl 1
      · exact Nat.zero_le 1
    · rw [if_neg h, if_neg h]
      have := cm_children_le f t u (nd u j).child_indices
        (fun c y => ih c y) (nd t i).child_indices (0, [], 0)
      simpa using this

/-- Provenance of the entries accumulated by the child loop: either already in
the accumulator, or part of a chosen (positive-score) sub-matching of one of
the processed self children. -/
theorem cm_children_entries (fuel : Nat) (t u : Tree) (tcs : List Nat) :
    ∀ (cs : List Nat) (acc : Nat × List (Nat × Nat) × Nat) (xr : Nat × Nat),
      xr ∈ (cs.foldl (cm_child_step t u tcs
        (fun c tci => check_matching fuel t u c tci)) acc).2.1 →
      xr ∈ acc.2.1 ∨ ∃ c ∈ cs, ∃ y, 0 < (check_matching fuel t u c y).1 ∧
        xr ∈ (check_matching fuel t u c y).2 := by
  intro cs
  induction cs with
  | nil =>
    intro acc xr h
    exact Or.inl h
  | cons c cs2 ih =>
    intro acc xr h
    rw [List.foldl_cons] at h
    cases hbest : cm_scan t u c tcs (check_matching fuel t u c)
        (List.range' acc.2.2 (tcs.length - acc.2.2)) none with
    | none =>
      have hstep : cm_child_step t u tcs (fun c tci => check_matching fuel t u c tci) acc c
          = acc := by
        rw [cm_child_step, hbest]
      rw [hstep] at h
      rcases ih acc xr h with h1 | ⟨c2, hc2, y, hy1, hy2⟩
      · exact Or.inl h1
      · exact Or.inr ⟨c2, List.mem_cons_of_mem c hc2, y, hy1, hy2⟩
    | some b0 =>
      obtain ⟨hb1, hb2, hb3⟩ := cm_scan_some fuel t u c tcs _ b0 hbest
      have hstep : cm_child_step t u tcs (fun c tci => check_matching fuel t u c tci) acc c
          = (acc.1 + b0.2.1, acc.2.1 ++ b0.2.2, b0.1 + 1) := by
        rw [cm_child_step, hbest]
      rw [hstep] at h
      rcases ih _ xr h with h1 | ⟨c2, hc2, y, hy1, hy2⟩
      · simp only at h1
        rcases List.mem_append.mp h1 with h2 | h2
        · exact Or.inl h2
        · refine Or.inr ⟨c, List.mem_cons_self c cs2, tcs.getD b0.1 0, ?_, ?_⟩
          · rw [← hb1]
            exact hb3
          · rw [← hb2]
            exact h2
      · exact Or.inr ⟨c2, List.mem_cons_of_mem c hc2, y, hy1, hy2⟩

/-- Every matcher output entry is either strictly positive or the head entry of
the compared node itself. -/
theorem matching_entry_pos (t u : Tree) : ∀ (fuel : Nat) (i j : Nat)
    (xr : Nat × Nat), xr ∈ (check_matching fuel t u i j).2 →
      0 < xr.2 ∨ xr = (i, (check_matching fuel t u i j).1) := by
  intro fuel
  induction fuel with
  | zero =>
    intro i j xr h
    exact absurd h (List.not_mem_nil xr)
  | succ f ih =>
    intro i j xr h
    unfold check_matching at h ⊢
    by_cases ht : (nd t i).text ≠ []
    · rw [if_pos ht] at h ⊢
      by_cases hm : ¬(nd u j).text = [] ∧
          ((nd u j).text.isPrefixOf (nd t i).text ∨
            (nd t i).text.isPrefixOf (nd u j).text)
      · rw [if_pos hm] at h ⊢
        rcases List.mem_singleton.mp h with rfl
        exact Or.inr rfl
      · rw [if_neg hm] at h ⊢
        rcases List.mem_singleton.mp h with rfl
        exact Or.inr rfl
    · rw [if_neg ht] at h ⊢
      simp only at h ⊢
      rcases List.mem_cons.mp h with h1 | h1
      · exact Or.inr h1
      · rcases cm_children_entries f t u (nd u j).child_indices
            (nd t i).child_indices (0, [], 0) xr h1 with h2 | ⟨c, _, y, hy1, hy2⟩
        · exact absurd h2 (List.not_mem_nil xr)
        · rcases ih c y xr hy2 with h3 | h3
          · exact Or.inl h3
          · left
            rw [h3]
            exact hy1

/-- The matcher output always starts with the compared node's own entry. -/
theorem matching_head (fuel : Nat) (t u : Tree) (i j : Nat) :
    ∃ rest, (check_matching (fuel+1) t u i j).2 =
      (i, (check_matching (fuel+1) t u i j).1) :: rest := by
  unfold check_matching
  by_cases ht : (nd t i).text ≠ []
  · rw [if_pos ht]
    by_cases hm : ¬(nd u j).text = [] ∧
        ((nd u j).text.isPrefixOf (nd t i).text ∨
          (nd t i).text.isPrefixOf (nd u j).text)
    · rw [if_pos hm]
      exact ⟨[], rfl⟩
    · rw [if_neg hm]
      exact ⟨[], rfl⟩
  · rw [if_neg ht]
    exact ⟨_, rfl⟩

/-- Each matcher output entry's score is bounded by the current number of text
leaves below the entry's node. -/
theorem matching_entry_le (t u : Tree) : ∀ (fuel : Nat) (i j : Nat)
    (xr : Nat × Nat), xr ∈ (check_matching fuel t u i j).2 →
      xr.2 ≤ subtree_text_count fuel t xr.1 := by
  intro fuel
  induction fuel with
  | zero =>
    intro i j xr h
    exact absurd h (List.not_mem_nil xr)
  | succ f ih =>
    intro i j xr h
    have hkey : xr ∈ (check_matching (f+1) t u i j).2 → xr.2 ≤ subtree_text_count (f+1) t xr.1 := by
      intro h2
      unfold check_matching at h2
      by_cases ht : (nd t i).text ≠ []
      · rw [if_pos ht] at h2
        by_cases hm : ¬(nd u j).text = [] ∧
            ((nd u j).text.isPrefixOf (nd t i).text ∨
              (nd t i).text.isPrefixOf (nd u j).text)
        · rw [if_pos hm] at h2
          rcases List.mem_singleton.mp h2 with rfl
          rw [subtree_text_count, if_pos ht]
        · rw [if_neg hm] at h2
          rcases List.mem_singleton.mp h2 with rfl
          exact Nat.zero_le _
      · rw [if_neg ht] at h2
        simp only at h2
        rcases List.mem_cons.mp h2 with h1 | h1
        · rw [h1]
          have hb := score_le_count t u (f+1) i j
          unfold check_matching at hb
          rw [if_neg ht] at hb
          exact hb
        · rcases cm_children_entries f t u (nd u j).child_indices
              (nd t i).child_indices (0, [], 0) xr h1 with h3 | ⟨c, _, y, _, hy2⟩
          · exact absurd h3 (List.not_mem_nil xr)
          · exact le_trans (ih c y xr hy2) (subtree_text_count_mono t f xr.1)
    exact hkey h

/-- On an index-bounded tree, every matcher output entry names an in-range
self node. -/
theorem matching_entry_lt (t u : Tree)
    (hwf : ∀ i < t.length, ∀ c ∈ (nd t i).child_indices, c < t.length) :
    ∀ (fuel : Nat) (i j : Nat), i < t.length →
      ∀ xr ∈ (check_matching fuel t u i j).2, xr.1 < t.length := by
  intro fuel
  induction fuel with
  | zero =>
    intro i j _ xr h
    exact absurd h (List.not_mem_nil xr)
  | succ f ih =>
    intro i j hi xr h
    unfold check_matching at h
    by_cases ht : (nd t i).text ≠ []
    · rw [if_pos ht] at h
      by_cases hm : ¬(nd u j).text = [] ∧
          ((nd u j).text.isPrefixOf (nd t i).text ∨
            (nd t i).text.isPrefixOf (nd u j).text)
      · rw [if_pos hm] at h
        rcases List.mem_singleton.mp h with rfl
        exact hi
      · rw [if_neg hm] at h
        rcases List.mem_singleton.mp h with rfl
        exact hi
    · rw [if_neg ht] at h
      simp only at h
      rcases List.mem_cons.mp h with h1 | h1
      · rw [h1]
        exact hi
      · rcases cm_children_entries f t u (nd u j).child_indices
            (nd t i).child_indices (0, [], 0) xr h1 with h3 | ⟨c, hc, y, _, hy2⟩
        · exact absurd h3 (List.not_mem_nil xr)
        · exact ih c y (hwf i hi c hc) xr hy2

end MatcherEntries

section Claim10

/-- C10: on a subject tree with accurate cached counts whose root still has a
text descendant, every node index in the matcher's output has a strictly
positive `text_nodes_count`, so subtract's matched-fraction division never
divides by zero; when the subject tree has no reachable text node, the output
still contains the root's entry, whose divisor `text_nodes_count` is 0. -/
theorem subtract_no_division_by_zero (t u : Tree) (hlen : 0 < t.length)
    (hwf : ∀ i < t.length, ∀ c ∈ (nd t i).child_indices, c < t.length)
    (hacc : ∀ i < t.length, (nd t i).text_nodes_count = subtree_text_count t.length t i) :
    (0 < subtree_text_count t.length t 0 →
      ∀ xr ∈ (check_matching t.length t u 0 0).2, 0 < (nd t xr.1).text_nodes_count) ∧
    (subtree_text_count t.length t 0 = 0 →
      ∃ s, (0, s) ∈ (check_matching t.length t u 0 0).2 ∧
        (nd t 0).text_nodes_count = 0) := by
  have hlen2 : t.length = (t.length - 1) + 1 := by omega
  constructor
  · intro hroot xr hxr
    have hx : xr.1 < t.length :=
      matching_entry_lt t u hwf t.length 0 0 hlen xr hxr
    rw [hacc xr.1 hx]
    rcases matching_entry_pos t u t.length 0 0 xr hxr with hpos | hhead
    · have := matching_entry_le t u t.length 0 0 xr hxr
      omega
    · rw [hhead]
      exact hroot
  · intro hroot
    obtain ⟨rest, hrest⟩ := matching_head (t.length - 1) t u 0 0
    rw [← hlen2] at hrest
    refine ⟨(check_matching t.length t u 0 0).1, ?_, ?_⟩
    · rw [hrest]
      exact List.mem_cons_self _ _
    · rw [hacc 0 hlen]
      exact hroot

/-- Witness for `subtract_no_division_by_zero` on the three-`li` tree with
accurate counts (as left by the builder). -/
def ex10 : Tree :=
  [ { tag := "root", child_indices := [1, 2, 3], text_nodes_count := 3 },
    { tag := "li", parent_index := 0, child_indices := [4], text_nodes_count := 1 },
    { tag := "li", parent_index := 0, child_indices := [5], text_nodes_count := 1 },
    { tag := "li", parent_index := 0, child_indices := [6], text_nodes_count := 1 },
    { parent_index := 1, text := ['a'], text_nodes_count := 1 },
    { parent_index := 2, text := ['b'], text_nodes_count := 1 },
    { parent_index := 3, text := ['c'], text_nodes_count := 1 } ]

theorem subtract_no_division_by_zero_witness :
    (0 < ex10.length ∧
      (∀ i < ex10.length, ∀ c ∈ (nd ex10 i).child_indices, c < ex10.length) ∧
      (∀ i < ex10.length,
        (nd ex10 i).text_nodes_count = subtree_text_count ex10.length ex10 i)) ∧
    ((0 < subtree_text_count ex10.length ex10 0 →
      ∀ xr ∈ (check_matching ex10.length ex10 ex10 0 0).2,
        0 < (nd ex10 xr.1).text_nodes_count) ∧
    (subtree_text_count ex10.length ex10 0 = 0 →
      ∃ s, (0, s) ∈ (check_matching ex10.length ex10 ex10 0 0).2 ∧
        (nd ex10 0).text_nodes_count = 0)) :=
  ⟨⟨by decide, by decide, by decide⟩,
    subtract_no_division_by_zero ex10 ex10 (by decide) (by decide) (by decide)⟩

end Claim10

section Descendants

/-- Child-link reachability from node `i` (the subtree of `i`). -/
inductive Desc (t : Tree) : Nat → Nat → Prop
  | refl (i : Nat) : Desc t i i
  | step {i c j : Nat} : c ∈ (nd t i).child_indices → Desc t c j → Desc t i j

/-- Well-formedness of an arena, as established by the tree builder: children
carry strictly larger in-range indices, parent fields are consistent with the
child lists, child lists are duplicate-free, text nodes are childless, and the
root has no parent. -/
structure WFT (t : Tree) : Prop where
  hlen : 0 < t.length
  hchild : ∀ i < t.length, ∀ c ∈ (nd t i).child_indices, i < c ∧ c < t.length
  hparent : ∀ i < t.length, ∀ c ∈ (nd t i).child_indices,
    (nd t c).parent_index = (i : Int)
  hnodup : ∀ i, (nd t i).child_indices.Nodup
  htext : ∀ i, (nd t i).text ≠ [] → (nd t i).child_indices = []
  hroot : (nd t 0).parent_index = -1

theorem children_oob (t : Tree) (i : Nat) (h : t.length ≤ i) :
    (nd t i).child_indices = [] := by
  rw [nd_oob t i h]

theorem desc_le (t : Tree)
    (hchild : ∀ i < t.length, ∀ c ∈ (nd t i).child_indices, i < c ∧ c < t.length) :
    ∀ {i x : Nat}, Desc t i x → i ≤ x := by
  intro i x h
  induction h with
  | refl => exact le_refl _
  | @step i0 c j0 hc _ ih =>
    by_cases hi : i0 < t.length
    · have := (hchild i0 hi c hc).1
      omega
    · rw [children_oob t i0 (le_of_not_lt hi)] at hc
      exact absurd hc (List.not_mem_nil c)

theorem desc_lt_len (t : Tree)
    (hchild : ∀ i < t.length, ∀ c ∈ (nd t i).child_indices, i < c ∧ c < t.length) :
    ∀ {i x : Nat}, Desc t i x → i < t.length → x < t.length := by
  intro i x h
  induction h with
  | refl => exact fun h => h
  | @step i0 c j0 hc _ ih =>
    intro hi
    exact ih ((hchild i0 hi c hc).2)

theorem desc_last_step (t : Tree) :
    ∀ {i x : Nat}, Desc t i x → i ≠ x →
      ∃ y, Desc t i y ∧ x ∈ (nd t y).child_indices := by
  intro i x h
  induction h with
  | refl => exact fun h => absurd rfl h
  | @step i0 c j0 hc hd ih =>
    intro _
    by_cases hcx : c = j0
    · subst hcx
      exact ⟨i0, Desc.refl i0, hc⟩
    · obtain ⟨y, hy1, hy2⟩ := ih hcx
      exact ⟨y, Desc.step hc hy1, hy2⟩

/-- Two distinct siblings have disjoint subtrees. -/
theorem sibling_subtrees_disjoint (t : Tree) (hw : WFT t) :
    ∀ (x : Nat) {p c1 c2 : Nat}, p < t.length →
      c1 ∈ (nd t p).child_indices → c2 ∈ (nd t p).child_indices →
      Desc t c1 x → Desc t c2 x → c1 = c2 := by
  intro x
  induction x using Nat.strong_induction_on with
  | _ x ih =>
    intro p c1 c2 hp h1 h2 hd1 hd2
    by_contra hne
    have hparc1 : (nd t c1).parent_index = (p : Int) := hw.hparent p hp c1 h1
    have hparc2 : (nd t c2).parent_index = (p : Int) := hw.hparent p hp c2 h2
    have key : ∀ {a b : Nat}, a ∈ (nd t p).child_indices → Desc t a b →
        (nd t b).parent_index = (p : Int) → a = b := by
      intro a b ha hab hbp
      by_contra hab2
      obtain ⟨y, hy1, hy2⟩ := desc_last_step t hab hab2
      have hylen : y < t.length := by
        by_contra hy3
        rw [children_oob t y (le_of_not_lt hy3)] at hy2
        exact absurd hy2 (List.not_mem_nil b)
      have hpy := hw.hparent y hylen b hy2
      have hyp2 : y = p := by
        rw [hpy] at hbp
        exact_mod_cast hbp
      have h3 := desc_le t hw.hchild hy1
      have h4 := (hw.hchild p hp a ha).1
      omega
    by_cases hx1 : c1 = x
    · subst hx1
      exact hne (key h2 hd2 hparc1).symm
    · by_cases hx2 : c2 = x
      · subst hx2
        exact hne (key h1 hd1 hparc2)
      · obtain ⟨y1, hy11, hy12⟩ := desc_last_step t hd1 hx1
        obtain ⟨y2, hy21, hy22⟩ := desc_last_step t hd2 hx2
        have hy1len : y1 < t.length := by
          by_contra hy3
          rw [children_oob t y1 (le_of_not_lt hy3)] at hy12
          exact absurd hy12 (List.not_mem_nil x)
        have hy2len : y2 < t.length := by
          by_contra hy3
          rw [children_oob t y2 (le_of_not_lt hy3)] at hy22
          exact absurd hy22 (List.not_mem_nil x)
        have he1 := hw.hparent y1 hy1len x hy12
        have he2 := hw.hparent y2 hy2len x hy22
        have hyeq : y1 = y2 := by
          rw [he1] at he2
          exact_mod_cast he2
        subst hyeq
        have hxlt : y1 < x := (hw.hchild y1 hy1len x hy12).1
        exact hne (ih y1 hxlt hp h1 h2 hy11 hy21)

end Descendants

section CountLemmas

theorem desc_trans (t : Tree) : ∀ {i c q : Nat}, Desc t i c → Desc t c q → Desc t i q := by
  intro i c q h1
  induction h1 with
  | refl => exact fun h => h
  | @step i0 c0 j0 hc _ ih => exact fun h2 => Desc.step hc (ih h2)

theorem subtree_text_count_mono_le (t : Tree) {f1 f2 : Nat} (h : f1 ≤ f2) (i : Nat) :
    subtree_text_count f1 t i ≤ subtree_text_count f2 t i := by
  induction f2 with
  | zero =>
    have : f1 = 0 := by omega
    subst this
    exact le_refl _
  | succ f ih =>
    by_cases he : f1 = f + 1
    · subst he
      exact le_refl _
    · have h2 : f1 ≤ f := by omega
      exact le_trans (ih h2) (subtree_text_count_mono t f i)

theorem subtree_text_count_stable (t : Tree)
    (hchild : ∀ i < t.length, ∀ c ∈ (nd t i).child_indices, i < c ∧ c < t.length) :
    ∀ (f1 f2 i : Nat), t.length ≤ f1 + i → t.length ≤ f2 + i →
      subtree_text_count f1 t i = subtree_text_count f2 t i := by
  intro f1
  induction f1 with
  | zero =>
    intro f2 i h1 _
    have hoob : t.length ≤ i := by omega
    have htext : (nd t i).text = [] := by rw [nd_oob t i hoob]
    cases f2 with
    | zero => rfl
    | succ g =>
      conv_rhs => rw [subtree_text_count]
      rw [if_neg (by simp [htext]), children_oob t i hoob]
      rfl
  | succ g ih =>
    intro f2 i h1 h2
    cases f2 with
    | zero =>
      have hoob : t.length ≤ i := by omega
      have htext : (nd t i).text = [] := by rw [nd_oob t i hoob]
      conv_lhs => rw [subtree_text_count]
      rw [if_neg (by simp [htext]), children_oob t i hoob]
      rfl
    | succ h =>
      rw [subtree_text_count, subtree_text_count]
      by_cases htext : (nd t i).text ≠ []
      · rw [if_pos htext, if_pos htext]
      · rw [if_neg htext, if_neg htext]
        by_cases hi : i < t.length
        · congr 1
          apply List.map_congr_left
          intro c hc
          have hlt := (hchild i hi c hc).1
          exact ih h c (by omega) (by omega)
        · rw [children_oob t i (le_of_not_lt hi)]
          rfl

/-- The fuel-independent subtree text count (what the recount pass stores). -/
def cT (t : Tree) (i : Nat) : Nat := subtree_text_count t.length t i

theorem subtree_text_count_le_cT (t : Tree)
    (hchild : ∀ i < t.length, ∀ c ∈ (nd t i).child_indices, i < c ∧ c < t.length)
    (f i : Nat) : subtree_text_count f t i ≤ cT t i := by
  by_cases hf : f ≤ t.length
  · exact subtree_text_count_mono_le t hf i
  · rw [cT, subtree_text_count_stable t hchild f t.length i (by omega) (by omega)]

theorem cT_unfold (t : Tree)
    (hchild : ∀ i < t.length, ∀ c ∈ (nd t i).child_indices, i < c ∧ c < t.length)
    (i : Nat) :
    cT t i = if (nd t i).text ≠ [] then 1
      else ((nd t i).child_indices.map (fun c => cT t c)).sum := by
  by_cases hi : i < t.length
  · have h1 : t.length = (t.length - 1) + 1 := by omega
    rw [cT, h1, subtree_text_count]
    by_cases htext : (nd t i).text ≠ []
    · rw [if_pos htext, if_pos htext]
    · rw [if_neg htext, if_neg htext]
      congr 1
      apply List.map_congr_left
      intro c hc
      have hlt := (hchild i hi c hc).1
      rw [cT]
      exact subtree_text_count_stable t hchild (t.length - 1) t.length c (by omega) (by omega)
  · have hoob := le_of_not_lt hi
    have htext : (nd t i).text = [] := by rw [nd_oob t i hoob]
    rw [if_neg (by simp [htext]), children_oob t i hoob, cT]
    cases hL : t.length with
    | zero => rfl
    | succ g =>
      rw [subtree_text_count, if_neg (by simp [htext]), children_oob t i (by omega)]
      rfl

theorem subtree_text_count_congr (t t2 : Tree) :
    ∀ (f i : Nat),
      (∀ q, Desc t i q → (nd t2 q).text = (nd t q).text ∧
        (nd t2 q).child_indices = (nd t q).child_indices) →
      subtree_text_count f t2 i = subtree_text_count f t i := by
  intro f
  induction f with
  | zero => intro i _; rfl
  | succ g ih =>
    intro i hshape
    have hself := hshape i (Desc.refl i)
    rw [subtree_text_count, subtree_text_count, hself.1, hself.2]
    by_cases htext : (nd t i).text ≠ []
    · rw [if_pos htext, if_pos htext]
    · rw [if_neg htext, if_neg htext]
      congr 1
      apply List.map_congr_left
      intro c hc
      exact ih c (fun q hq => hshape q (Desc.step hc hq))

end CountLemmas

section MatcherDesc

/-- Accumulated entries are kept by the child fold. -/
theorem cm_children_acc_sub (fuel : Nat) (t u : Tree) (tcs : List Nat) :
    ∀ (cs : List Nat) (acc : Nat × List (Nat × Nat) × Nat) (e : Nat × Nat),
      e ∈ acc.2.1 →
      e ∈ (cs.foldl (cm_child_step t u tcs
        (fun c tci => check_matching fuel t u c tci)) acc).2.1 := by
  intro cs
  induction cs with
  | nil =>
    intro acc e h
    exact h
  | cons c cs2 ih =>
    intro acc e h
    rw [List.foldl_cons]
    cases hbest : cm_scan t u c tcs (check_matching fuel t u c)
        (List.range' acc.2.2 (tcs.length - acc.2.2)) none with
    | none =>
      have hstep : cm_child_step t u tcs (fun c tci => check_matching fuel t u c tci) acc c
          = acc := by
        rw [cm_child_step, hbest]
      rw [hstep]
      exact ih acc e h
    | some b0 =>
      have hstep : cm_child_step t u tcs (fun c tci => check_matching fuel t u c tci) acc c
          = (acc.1 + b0.2.1, acc.2.1 ++ b0.2.2, b0.1 + 1) := by
        rw [cm_child_step, hbest]
      rw [hstep]
      exact ih _ e (by simp only; exact List.mem_append_left _ h)

/-- Every output entry of the matcher names a node in the subtree of the
compared self node. -/
theorem matching_entry_desc (t u : Tree) : ∀ (fuel i j : Nat),
    ∀ xr ∈ (check_matching fuel t u i j).2, Desc t i xr.1 := by
  intro fuel
  induction fuel with
  | zero =>
    intro i j xr h
    exact absurd h (List.not_mem_nil xr)
  | succ f ih =>
    intro i j xr h
    unfold check_matching at h
    by_cases ht : (nd t i).text ≠ []
    · rw [if_pos ht] at h
      by_cases hm : ¬(nd u j).text = [] ∧
          ((nd u j).text.isPrefixOf (nd t i).text ∨
            (nd t i).text.isPrefixOf (nd u j).text)
      · rw [if_pos hm] at h
        rcases List.mem_singleton.mp h with rfl
        exact Desc.refl i
      · rw [if_neg hm] at h
        rcases List.mem_singleton.mp h with rfl
        exact Desc.refl i
    · rw [if_neg ht] at h
      simp only at h
      rcases List.mem_cons.mp h with h1 | h1
      · rw [h1]
        exact Desc.refl i
      · rcases cm_children_entries f t u (nd u j).child_indices
            (nd t i).child_indices (0, [], 0) xr h1 with h3 | ⟨c, hc, y, _, hy2⟩
        · exact absurd h3 (List.not_mem_nil xr)
        · exact Desc.step hc (ih c y xr hy2)

/-- Strengthened provenance: the whole chosen sub-matching stays in the fold's
output. -/
theorem cm_children_entries2 (fuel : Nat) (t u : Tree) (tcs : List Nat) :
    ∀ (cs : List Nat) (acc : Nat × List (Nat × Nat) × Nat) (xr : Nat × Nat),
      xr ∈ (cs.foldl (cm_child_step t u tcs
        (fun c tci => check_matching fuel t u c tci)) acc).2.1 →
      xr ∈ acc.2.1 ∨ ∃ c ∈ cs, ∃ y, 0 < (check_matching fuel t u c y).1 ∧
        xr ∈ (check_matching fuel t u c y).2 ∧
        ∀ e ∈ (check_matching fuel t u c y).2,
          e ∈ (cs.foldl (cm_child_step t u tcs
            (fun c tci => check_matching fuel t u c tci)) acc).2.1 := by
  intro cs
  induction cs with
  | nil =>
    intro acc xr h
    exact Or.inl h
  | cons c cs2 ih =>
    intro acc xr h
    rw [List.foldl_cons] at h ⊢
    cases hbest : cm_scan t u c tcs (check_matching fuel t u c)
        (List.range' acc.2.2 (tcs.length - acc.2.2)) none with
    | none =>
      have hstep : cm_child_step t u tcs (fun c tci => check_matching fuel t u c tci) acc c
          = acc := by
        rw [cm_child_step, hbest]
      rw [hstep] at h ⊢
      rcases ih acc xr h with h1 | ⟨c2, hc2, y, hy1, hy2, hy3⟩
      · exact Or.inl h1
      · exact Or.inr ⟨c2, List.mem_cons_of_mem c hc2, y, hy1, hy2, hy3⟩
    | some b0 =>
      obtain ⟨hb1, hb2, hb3⟩ := cm_scan_some fuel t u c tcs _ b0 hbest
      have hstep : cm_child_step t u tcs (fun c tci => check_matching fuel t u c tci) acc c
          = (acc.1 + b0.2.1, acc.2.1 ++ b0.2.2, b0.1 + 1) := by
        rw [cm_child_step, hbest]
      rw [hstep] at h ⊢
      rcases ih _ xr h with h1 | ⟨c2, hc2, y, hy1, hy2, hy3⟩
      · simp only at h1
        rcases List.mem_append.mp h1 with h2 | h2
        · exact Or.inl h2
        · refine Or.inr ⟨c, List.mem_cons_self c cs2, tcs.getD b0.1 0, ?_, ?_, ?_⟩
          · rw [← hb1]
            exact hb3
          · rw [← hb2]
            exact h2
          · intro e he
            apply cm_children_acc_sub
            simp only
            apply List.mem_append_right
            rw [hb2]
            exact he
      · exact Or.inr ⟨c2, List.mem_cons_of_mem c hc2, y, hy1, hy2, hy3⟩

/-- An output entry naming the compared node itself is the head entry. -/
theorem matching_entry_self (t u : Tree)
    (hchild : ∀ i < t.length, ∀ c ∈ (nd t i).child_indices, i < c ∧ c < t.length) :
    ∀ (fuel i j : Nat) (xr : Nat × Nat), xr ∈ (check_matching fuel t u i j).2 →
      xr.1 = i → xr.2 = (check_matching fuel t u i j).1 := by
  intro fuel i j xr h hx
  cases fuel with
  | zero => exact absurd h (List.not_mem_nil xr)
  | succ f =>
    unfold check_matching at h ⊢
    by_cases ht : (nd t i).text ≠ []
    · rw [if_pos ht] at h ⊢
      by_cases hm : ¬(nd u j).text = [] ∧
          ((nd u j).text.isPrefixOf (nd t i).text ∨
            (nd t i).text.isPrefixOf (nd u j).text)
      · rw [if_pos hm] at h ⊢
        rcases List.mem_singleton.mp h with rfl
        rfl
      · rw [if_neg hm] at h ⊢
        rcases List.mem_singleton.mp h with rfl
        rfl
    · rw [if_neg ht] at h ⊢
      simp only at h ⊢
      rcases List.mem_cons.mp h with h1 | h1
      · rw [h1]
      · exfalso
        rcases cm_children_entries f t u (nd u j).child_indices
            (nd t i).child_indices (0, [], 0) xr h1 with h3 | ⟨c, hc, y, _, hy2⟩
        · exact absurd h3 (List.not_mem_nil xr)
        · have hd := matching_entry_desc t u f c y xr hy2
          have hle := desc_le t hchild hd
          by_cases hi : i < t.length
          · have := (hchild i hi c hc).1
            omega
          · rw [children_oob t i (le_of_not_lt hi)] at hc
            exact absurd hc (List.not_mem_nil c)

/-- If the children fold's total grows, some chosen child's full sub-matching
(with a strictly positive head score) is in the output. -/
theorem cm_children_pos (fuel : Nat) (t u : Tree) (tcs : List Nat) :
    ∀ (cs : List Nat) (acc : Nat × List (Nat × Nat) × Nat),
      acc.1 < (cs.foldl (cm_child_step t u tcs
        (fun c tci => check_matching fuel t u c tci)) acc).1 →
      ∃ c ∈ cs, ∃ y, 0 < (check_matching fuel t u c y).1 ∧
        ∀ e ∈ (check_matching fuel t u c y).2,
          e ∈ (cs.foldl (cm_child_step t u tcs
            (fun c tci => check_matching fuel t u c tci)) acc).2.1 := by
  intro cs
  induction cs with
  | nil =>
    intro acc h
    exact absurd h (lt_irrefl _)
  | cons c cs2 ih =>
    intro acc h
    rw [List.foldl_cons] at h ⊢
    cases hbest : cm_scan t u c tcs (check_matching fuel t u c)
        (List.range' acc.2.2 (tcs.length - acc.2.2)) none with
    | none =>
      have hstep : cm_child_step t u tcs (fun c tci => check_matching fuel t u c tci) acc c
          = acc := by
        rw [cm_child_step, hbest]
      rw [hstep] at h ⊢
      rcases ih acc h with ⟨c2, hc2, y, hy1, hy2⟩
      exact ⟨c2, List.mem_cons_of_mem c hc2, y, hy1, hy2⟩
    | some b0 =>
      obtain ⟨hb1, hb2, hb3⟩ := cm_scan_some fuel t u c tcs _ b0 hbest
      have hstep : cm_child_step t u tcs (fun c tci => check_matching fuel t u c tci) acc c
          = (acc.1 + b0.2.1, acc.2.1 ++ b0.2.2, b0.1 + 1) := by
        rw [cm_child_step, hbest]
      rw [hstep] at h ⊢
      refine ⟨c, List.mem_cons_self c cs2, tcs.getD b0.1 0, ?_, ?_⟩
      · rw [← hb1]
        exact hb3
      · intro e he
        apply cm_children_acc_sub
        simp only
        apply List.mem_append_right
        rw [hb2]
        exact he

end MatcherDesc

section PassLemmas

/-- `s` is obtained from `t` purely by removals from child lists: all other
node data and the arena length are untouched. -/
structure Erased (t s : Tree) : Prop where
  hlen : s.length = t.length
  hfields : ∀ j, (nd s j).parent_index = (nd t j).parent_index ∧
    (nd s j).text = (nd t j).text ∧
    (nd s j).text_nodes_count = (nd t j).text_nodes_count ∧
    (nd s j).tag = (nd t j).tag ∧
    (nd s j).style_classes = (nd t j).style_classes
  hsub : ∀ j, (nd s j).child_indices.Sublist (nd t j).child_indices

theorem Erased_same (t : Tree) : Erased t t :=
  ⟨Eq.refl _, fun _ => ⟨Eq.refl _, Eq.refl _, Eq.refl _, Eq.refl _, Eq.refl _⟩,
    fun _ => List.Sublist.refl _⟩

theorem Erased_comp {t s r : Tree} (h1 : Erased t s) (h2 : Erased s r) : Erased t r := by
  refine ⟨h2.hlen.trans h1.hlen, fun j => ?_, fun j => (h2.hsub j).trans (h1.hsub j)⟩
  obtain ⟨a1, a2, a3, a4, a5⟩ := h1.hfields j
  obtain ⟨b1, b2, b3, b4, b5⟩ := h2.hfields j
  exact ⟨b1.trans a1, b2.trans a2, b3.trans a3, b4.trans a4, b5.trans a5⟩

theorem erase_child_Erased (t : Tree) (p c : Nat) : Erased t (erase_child t p c) := by
  refine ⟨length_erase_child t p c, fun j => ?_, fun j => ?_⟩
  · rw [nd_erase_child]
    by_cases h : p = j ∧ p < t.length
    · obtain ⟨rfl, hp⟩ := h
      simp [hp]
    · rw [if_neg h]
      exact ⟨rfl, rfl, rfl, rfl, rfl⟩
  · rw [nd_erase_child]
    by_cases h : p = j ∧ p < t.length
    · obtain ⟨rfl, hp⟩ := h
      simp only [hp, and_true, if_pos, ite_true, if_true]
      exact List.erase_sublist c (nd t p).child_indices
    · rw [if_neg h]

theorem Erased.nodup {t s : Tree} (h : Erased t s)
    (hnd : ∀ j, (nd t j).child_indices.Nodup) :
    ∀ j, (nd s j).child_indices.Nodup :=
  fun j => (h.hsub j).nodup (hnd j)

/-- If a child list is untouched by an erasure (wrong parent, or the removed
index was never there), the whole node is unchanged. -/
theorem erase_child_untouched (t : Tree) (p c q : Nat)
    (h : p ≠ q ∨ c ∉ (nd t q).child_indices) :
    nd (erase_child t p c) q = nd t q := by
  rw [nd_erase_child]
  by_cases hq : p = q ∧ p < t.length
  · obtain ⟨rfl, hp⟩ := hq
    rw [if_pos ⟨rfl, hp⟩]
    rcases h with h | h
    · exact absurd rfl h
    · rw [List.erase_of_not_mem h]
  · rw [if_neg hq]

theorem mem_erase_child (s : Tree) (p c q x : Nat)
    (hnd : (nd s p).child_indices.Nodup) :
    x ∈ (nd (erase_child s p c) q).child_indices ↔
      x ∈ (nd s q).child_indices ∧ ¬(q = p ∧ x = c ∧ p < s.length) := by
  rw [nd_erase_child]
  by_cases h : p = q ∧ p < s.length
  · obtain ⟨rfl, hp⟩ := h
    rw [if_pos ⟨rfl, hp⟩]
    simp only
    rw [List.Nodup.mem_erase_iff hnd]
    constructor
    · rintro ⟨hxc, hxm⟩
      refine ⟨hxm, ?_⟩
      rintro ⟨_, h2, _⟩
      exact hxc h2
    · rintro ⟨hxm, hno⟩
      refine ⟨?_, hxm⟩
      intro hxc
      exact hno ⟨by trivial, hxc, hp⟩
  · rw [if_neg h]
    constructor
    · intro hm
      refine ⟨hm, ?_⟩
      rintro ⟨rfl, rfl, hp⟩
      exact h ⟨rfl, hp⟩
    · exact fun h2 => h2.1

theorem sub_step_Erased (acc : Tree) (e : Nat × Nat) : Erased acc (sub_step acc e) := by
  unfold sub_step
  split
  · exact erase_child_Erased ..
  · exact Erased_same acc

theorem sub_step_mem (t acc : Tree) (e : Nat × Nat) (her : Erased t acc)
    (hnd : ∀ j, (nd t j).child_indices.Nodup) (q x : Nat) :
    (x ∈ (nd (sub_step acc e) q).child_indices ↔
      x ∈ (nd acc q).child_indices ∧
        ¬(e.1 = x ∧ 10 * e.2 ≥ 9 * (nd t x).text_nodes_count ∧
          (nd t x).parent_index > -1 ∧ q = (nd t x).parent_index.toNat)) := by
  obtain ⟨hpar, _, hcount, _, _⟩ := her.hfields e.1
  unfold sub_step
  rw [hcount, hpar]
  by_cases hcond : 10 * e.2 ≥ 9 * (nd t e.1).text_nodes_count ∧
      (nd t e.1).parent_index > -1
  · rw [if_pos hcond]
    rw [mem_erase_child acc ((nd t e.1).parent_index.toNat) e.1 q x
      (her.nodup hnd ((nd t e.1).parent_index.toNat))]
    constructor
    · rintro ⟨hm, hno⟩
      refine ⟨hm, ?_⟩
      rintro ⟨rfl, _, _, hq⟩
      have hplen : (nd t e.1).parent_index.toNat < acc.length := by
        by_contra hcon
        have : nd acc q = {} := nd_oob acc q (by omega)
        rw [this] at hm
        exact absurd hm (List.not_mem_nil _)
      exact hno ⟨hq, by trivial, hplen⟩
    · rintro ⟨hm, hno⟩
      refine ⟨hm, ?_⟩
      rintro ⟨hq, rfl, _⟩
      exact hno ⟨rfl, hcond.1, hcond.2, hq⟩
  · rw [if_neg hcond]
    constructor
    · intro hm
      refine ⟨hm, ?_⟩
      rintro ⟨rfl, h1, h2, _⟩
      exact hcond ⟨h1, h2⟩
    · exact fun h2 => h2.1

theorem subtract_pass_fold_Erased (t : Tree) :
    ∀ (m : List (Nat × Nat)) (acc : Tree), Erased t acc →
      Erased t (m.foldl sub_step acc) := by
  intro m
  induction m with
  | nil => exact fun acc h => h
  | cons e m2 ih =>
    intro acc h
    rw [List.foldl_cons]
    exact ih _ (Erased_comp h (sub_step_Erased acc e))

theorem subtract_pass_Erased (t : Tree) (m : List (Nat × Nat)) :
    Erased t (subtract_pass t m) :=
  subtract_pass_fold_Erased t m t (Erased_same t)

theorem subtract_pass_mem_aux (t : Tree)
    (hnd : ∀ j, (nd t j).child_indices.Nodup) :
    ∀ (m : List (Nat × Nat)) (acc : Tree), Erased t acc → ∀ (q x : Nat),
      (x ∈ (nd (m.foldl sub_step acc) q).child_indices ↔
        x ∈ (nd acc q).child_indices ∧
          ¬∃ e ∈ m, e.1 = x ∧ 10 * e.2 ≥ 9 * (nd t x).text_nodes_count ∧
            (nd t x).parent_index > -1 ∧ q = (nd t x).parent_index.toNat) := by
  intro m
  induction m with
  | nil =>
    intro acc her q x
    simp
  | cons e m2 ih =>
    intro acc her q x
    rw [List.foldl_cons]
    rw [ih (sub_step acc e) (Erased_comp her (sub_step_Erased acc e)) q x]
    rw [sub_step_mem t acc e her hnd q x]
    constructor
    · rintro ⟨⟨hm, hhead⟩, hrest⟩
      refine ⟨hm, ?_⟩
      rintro ⟨e2, he2, hprop⟩
      rcases List.mem_cons.mp he2 with rfl | he3
      · exact hhead hprop
      · exact hrest ⟨e2, he3, hprop⟩
    · rintro ⟨hm, hno⟩
      refine ⟨⟨hm, fun hprop => hno ⟨e, List.mem_cons_self e m2, hprop⟩⟩, ?_⟩
      rintro ⟨e2, he2, hprop⟩
      exact hno ⟨e2, List.mem_cons_of_mem e he2, hprop⟩

/-- Membership after the subtract pass: a node is in a child list iff it was
before and no matching entry with a reaching fraction targets it there. -/
theorem subtract_pass_mem (t : Tree)
    (hnd : ∀ j, (nd t j).child_indices.Nodup) (m : List (Nat × Nat)) (q x : Nat) :
    x ∈ (nd (subtract_pass t m) q).child_indices ↔
      x ∈ (nd t q).child_indices ∧
        ¬∃ e ∈ m, e.1 = x ∧ 10 * e.2 ≥ 9 * (nd t x).text_nodes_count ∧
          (nd t x).parent_index > -1 ∧ q = (nd t x).parent_index.toNat :=
  subtract_pass_mem_aux t hnd m t (Erased_same t) q x

theorem subtract_pass_untouched (t : Tree) (q : Nat) :
    ∀ (m : List (Nat × Nat)) (acc : Tree), Erased t acc →
      (∀ e ∈ m, (10 * e.2 ≥ 9 * (nd t e.1).text_nodes_count ∧
          (nd t e.1).parent_index > -1) →
        ((nd t e.1).parent_index.toNat ≠ q ∨ e.1 ∉ (nd t q).child_indices)) →
      nd (m.foldl sub_step acc) q = nd acc q := by
  intro m
  induction m with
  | nil => exact fun acc _ _ => Eq.refl _
  | cons e m2 ih =>
    intro acc her hc
    rw [List.foldl_cons]
    have hstep : nd (sub_step acc e) q = nd acc q := by
      obtain ⟨hpar, _, hcount, _, _⟩ := her.hfields e.1
      unfold sub_step
      rw [hcount, hpar]
      by_cases hcond : 10 * e.2 ≥ 9 * (nd t e.1).text_nodes_count ∧
          (nd t e.1).parent_index > -1
      · rw [if_pos hcond]
        apply erase_child_untouched
        rcases hc e (List.mem_cons_self e m2) hcond with h | h
        · exact Or.inl h
        · right
          intro hmem
          exact h ((her.hsub q).mem hmem)
      · rw [if_neg hcond]
    have hrest := ih (sub_step acc e) (Erased_comp her (sub_step_Erased acc e))
      (fun e2 he2 => hc e2 (List.mem_cons_of_mem e he2))
    rw [hrest, hstep]

theorem cross_step_Erased (mn : List Nat) (acc : Tree) (i : Nat) :
    Erased acc (cross_step mn acc i) := by
  unfold cross_step
  split
  · exact erase_child_Erased ..
  · exact Erased_same acc

theorem cross_step_mem (t acc : Tree) (mn : List Nat) (i : Nat) (her : Erased t acc)
    (hnd : ∀ j, (nd t j).child_indices.Nodup) (q x : Nat) :
    (x ∈ (nd (cross_step mn acc i) q).child_indices ↔
      x ∈ (nd acc q).child_indices ∧
        ¬(i = x ∧ x ∉ mn ∧ (nd t x).parent_index > -1 ∧
          q = (nd t x).parent_index.toNat)) := by
  obtain ⟨hpar, _, _, _, _⟩ := her.hfields i
  unfold cross_step
  rw [hpar]
  by_cases hcond : i ∉ mn ∧ (nd t i).parent_index > -1 ∧
      i ∈ (nd acc (nd t i).parent_index.toNat).child_indices
  · rw [if_pos hcond]
    rw [mem_erase_child acc ((nd t i).parent_index.toNat) i q x
      (her.nodup hnd ((nd t i).parent_index.toNat))]
    constructor
    · rintro ⟨hm, hno⟩
      refine ⟨hm, ?_⟩
      rintro ⟨rfl, _, _, hq⟩
      have hplen : (nd t i).parent_index.toNat < acc.length := by
        by_contra hcon
        have : nd acc q = {} := nd_oob acc q (by omega)
        rw [this] at hm
        exact absurd hm (List.not_mem_nil _)
      exact hno ⟨hq, by trivial, hplen⟩
    · rintro ⟨hm, hno⟩
      refine ⟨hm, ?_⟩
      rintro ⟨hq, rfl, _⟩
      exact hno ⟨by trivial, hcond.1, hcond.2.1, hq⟩
  · rw [if_neg hcond]
    constructor
    · intro hm
      refine ⟨hm, ?_⟩
      rintro ⟨rfl, h1, h2, hq⟩
      refine hcond ⟨h1, h2, ?_⟩
      rwa [← hq]
    · exact fun h2 => h2.1

theorem cross_pass_mem_aux (t : Tree)
    (hnd : ∀ j, (nd t j).child_indices.Nodup) (mn : List Nat) :
    ∀ (l : List Nat) (acc : Tree), Erased t acc → ∀ (q x : Nat),
      (x ∈ (nd (l.foldl (cross_step mn) acc) q).child_indices ↔
        x ∈ (nd acc q).child_indices ∧
          ¬(x ∈ l ∧ x ∉ mn ∧ (nd t x).parent_index > -1 ∧
            q = (nd t x).parent_index.toNat)) := by
  intro l
  induction l with
  | nil =>
    intro acc her q x
    simp
  | cons i l2 ih =>
    intro acc her q x
    rw [List.foldl_cons]
    rw [ih (cross_step mn acc i) (Erased_comp her (cross_step_Erased mn acc i)) q x]
    rw [cross_step_mem t acc mn i her hnd q x]
    constructor
    · rintro ⟨⟨hm, hhead⟩, hrest⟩
      refine ⟨hm, ?_⟩
      rintro ⟨hxl, hprop⟩
      rcases List.mem_cons.mp hxl with rfl | hx2
      · exact hhead ⟨by trivial, hprop⟩
      · exact hrest ⟨hx2, hprop⟩
    · rintro ⟨hm, hno⟩
      refine ⟨⟨hm, ?_⟩, ?_⟩
      · rintro ⟨rfl, hprop⟩
        exact hno ⟨List.mem_cons_self _ _, hprop⟩
      · rintro ⟨hx2, hprop⟩
        exact hno ⟨List.mem_cons_of_mem i hx2, hprop⟩

/-- Membership after the cross pass: a node stays in a child list iff it was
there and is not an in-range node without a positive score listed under its
parent. -/
theorem cross_pass_mem (t : Tree)
    (hnd : ∀ j, (nd t j).child_indices.Nodup) (matching : List (Nat × Nat)) (q x : Nat) :
    x ∈ (nd (cross_pass t matching) q).child_indices ↔
      x ∈ (nd t q).child_indices ∧
        ¬(x ∈ List.range t.length ∧
          x ∉ (matching.filter (fun e => e.2 ≠ 0)).map (fun e => e.1) ∧
          (nd t x).parent_index > -1 ∧ q = (nd t x).parent_index.toNat) :=
  cross_pass_mem_aux t hnd _ (List.range t.length) t (Erased_same t) q x

theorem cross_pass_Erased (t : Tree) (matching : List (Nat × Nat)) :
    Erased t (cross_pass t matching) := by
  unfold cross_pass
  have key : ∀ (l : List Nat) (acc : Tree), Erased t acc →
      Erased t (l.foldl (cross_step ((matching.filter (fun e => e.2 ≠ 0)).map
        (fun e => e.1))) acc) := by
    intro l
    induction l with
    | nil => exact fun acc h => h
    | cons i l2 ih =>
      intro acc h
      rw [List.foldl_cons]
      exact ih _ (Erased_comp h (cross_step_Erased _ acc i))
  exact key (List.range t.length) t (Erased_same t)

theorem prune_step_mem (t acc : Tree) (i : Nat) (her : Erased t acc)
    (hnd : ∀ j, (nd t j).child_indices.Nodup) (q x : Nat) :
    (x ∈ (nd (prune_step acc i) q).child_indices ↔
      x ∈ (nd acc q).child_indices ∧
        ¬(i = x ∧ (nd t x).parent_index > -1 ∧ (nd t x).text_nodes_count = 0 ∧
          q = (nd t x).parent_index.toNat)) := by
  obtain ⟨hpar, _, hcount, _, _⟩ := her.hfields i
  unfold prune_step prune_cond
  simp only [hpar, hcount]
  by_cases hcond : (nd t i).parent_index > -1 ∧
      i ∈ (nd acc (nd t i).parent_index.toNat).child_indices ∧
      (nd t i).text_nodes_count = 0
  · rw [if_pos hcond]
    rw [mem_erase_child acc ((nd t i).parent_index.toNat) i q x
      (her.nodup hnd ((nd t i).parent_index.toNat))]
    constructor
    · rintro ⟨hm, hno⟩
      refine ⟨hm, ?_⟩
      rintro ⟨rfl, _, _, hq⟩
      have hplen : (nd t i).parent_index.toNat < acc.length := by
        by_contra hcon
        have : nd acc q = {} := nd_oob acc q (by omega)
        rw [this] at hm
        exact absurd hm (List.not_mem_nil _)
      exact hno ⟨hq, by trivial, hplen⟩
    · rintro ⟨hm, hno⟩
      refine ⟨hm, ?_⟩
      rintro ⟨hq, rfl, _⟩
      exact hno ⟨by trivial, hcond.1, hcond.2.2, hq⟩
  · rw [if_neg hcond]
    constructor
    · intro hm
      refine ⟨hm, ?_⟩
      rintro ⟨rfl, h1, h2, hq⟩
      refine hcond ⟨h1, ?_, h2⟩
      rwa [← hq]
    · exact fun h2 => h2.1

theorem prune_fold_mem_aux (t : Tree)
    (hnd : ∀ j, (nd t j).child_indices.Nodup) :
    ∀ (l : List Nat) (acc : Tree), Erased t acc → ∀ (q x : Nat),
      (x ∈ (nd (l.foldl prune_step acc) q).child_indices ↔
        x ∈ (nd acc q).child_indices ∧
          ¬(x ∈ l ∧ (nd t x).parent_index > -1 ∧ (nd t x).text_nodes_count = 0 ∧
            q = (nd t x).parent_index.toNat)) := by
  intro l
  induction l with
  | nil =>
    intro acc her q x
    simp
  | cons i l2 ih =>
    intro acc her q x
    rw [List.foldl_cons]
    have hse : Erased acc (prune_step acc i) := by
      unfold prune_step
      split
      · exact erase_child_Erased ..
      · exact Erased_same acc
    rw [ih (prune_step acc i) (Erased_comp her hse) q x]
    rw [prune_step_mem t acc i her hnd q x]
    constructor
    · rintro ⟨⟨hm, hhead⟩, hrest⟩
      refine ⟨hm, ?_⟩
      rintro ⟨hxl, hprop⟩
      rcases List.mem_cons.mp hxl with rfl | hx2
      · exact hhead ⟨by trivial, hprop⟩
      · exact hrest ⟨hx2, hprop⟩
    · rintro ⟨hm, hno⟩
      refine ⟨⟨hm, ?_⟩, ?_⟩
      · rintro ⟨rfl, hprop⟩
        exact hno ⟨List.mem_cons_self _ _, hprop⟩
      · rintro ⟨hx2, hprop⟩
        exact hno ⟨List.mem_cons_of_mem i hx2, hprop⟩

/-- Membership after the prune pass. -/
theorem unlink_mem (t : Tree)
    (hnd : ∀ j, (nd t j).child_indices.Nodup) (q x : Nat) :
    x ∈ (nd (unlink_text_free_nodes t) q).child_indices ↔
      x ∈ (nd t q).child_indices ∧
        ¬(x ∈ List.range t.length ∧ (nd t x).parent_index > -1 ∧
          (nd t x).text_nodes_count = 0 ∧ q = (nd t x).parent_index.toNat) :=
  prune_fold_mem_aux t hnd (List.range t.length) t (Erased_same t) q x

theorem unlink_Erased (t : Tree) : Erased t (unlink_text_free_nodes t) := by
  unfold unlink_text_free_nodes
  have key : ∀ (l : List Nat) (acc : Tree), Erased t acc →
      Erased t (l.foldl prune_step acc) := by
    intro l
    induction l with
    | nil => exact fun acc h => h
    | cons i l2 ih =>
      intro acc h
      rw [List.foldl_cons]
      refine ih _ (Erased_comp h ?_)
      unfold prune_step
      split
      · exact erase_child_Erased ..
      · exact Erased_same acc
  exact key (List.range t.length) t (Erased_same t)

end PassLemmas

section RecountLemmas

/-- Structural agreement of two arenas: same length and, at every index, the
same text, child list and parent field (the cached counts may differ). -/
def SameShape (s s2 : Tree) : Prop :=
  s2.length = s.length ∧ ∀ y, (nd s2 y).text = (nd s y).text ∧
    (nd s2 y).child_indices = (nd s y).child_indices ∧
    (nd s2 y).parent_index = (nd s y).parent_index

theorem SameShape_same (s : Tree) : SameShape s s :=
  ⟨Eq.refl _, fun _ => ⟨Eq.refl _, Eq.refl _, Eq.refl _⟩⟩

theorem SameShape_comp {s a b : Tree} (h1 : SameShape s a) (h2 : SameShape a b) :
    SameShape s b := by
  refine ⟨h2.1.trans h1.1, fun y => ?_⟩
  obtain ⟨a1, a2, a3⟩ := h1.2 y
  obtain ⟨b1, b2, b3⟩ := h2.2 y
  exact ⟨b1.trans a1, b2.trans a2, b3.trans a3⟩

theorem set_count_SameShape (s : Tree) (i n : Nat) : SameShape s (set_count s i n) := by
  refine ⟨List.length_set .., fun y => ?_⟩
  unfold set_count
  rw [nd_set]
  by_cases h : i = y ∧ i < s.length
  · obtain ⟨rfl, hp⟩ := h
    rw [if_pos ⟨rfl, hp⟩]
    exact ⟨rfl, rfl, rfl⟩
  · rw [if_neg h]
    exact ⟨rfl, rfl, rfl⟩

theorem set_count_count_ne (s : Tree) (i n y : Nat) (h : ¬ i = y) :
    (nd (set_count s i n) y).text_nodes_count = (nd s y).text_nodes_count := by
  unfold set_count
  rw [nd_set, if_neg (fun h2 => h h2.1)]

theorem set_count_count_eq (s : Tree) (i n : Nat) (h : i < s.length) :
    (nd (set_count s i n) i).text_nodes_count = n := by
  unfold set_count
  rw [nd_set, if_pos ⟨rfl, h⟩]

theorem stc_shape {s s2 : Tree} (h : SameShape s s2) (f i : Nat) :
    subtree_text_count f s2 i = subtree_text_count f s i :=
  subtree_text_count_congr s s2 f i (fun q _ => ⟨(h.2 q).1, (h.2 q).2.1⟩)

theorem desc_cases (t : Tree) {i q : Nat} (h : Desc t i q) :
    q = i ∨ ∃ c ∈ (nd t i).child_indices, Desc t c q := by
  cases h with
  | refl => exact Or.inl rfl
  | step hc hd => exact Or.inr ⟨_, hc, hd⟩

theorem count_texts_succ (fuel : Nat) (t : Tree) (i : Nat) :
    count_texts_in_nodes (fuel+1) t i =
      if (nd t i).text ≠ [] then (set_count t i 1, 1)
      else
        (set_count ((nd t i).child_indices.foldl
            (fun (acc : Tree × Nat) c =>
              ((count_texts_in_nodes fuel acc.1 c).1,
                acc.2 + (count_texts_in_nodes fuel acc.1 c).2))
            (set_count t i 0, 0)).1 i
          ((nd t i).child_indices.foldl
            (fun (acc : Tree × Nat) c =>
              ((count_texts_in_nodes fuel acc.1 c).1,
                acc.2 + (count_texts_in_nodes fuel acc.1 c).2))
            (set_count t i 0, 0)).2,
        ((nd t i).child_indices.foldl
            (fun (acc : Tree × Nat) c =>
              ((count_texts_in_nodes fuel acc.1 c).1,
                acc.2 + (count_texts_in_nodes fuel acc.1 c).2))
            (set_count t i 0, 0)).2) := rfl

theorem count_texts_text (f : Nat) (t : Tree) (i : Nat) (h : (nd t i).text ≠ []) :
    count_texts_in_nodes (f+1) t i = (set_count t i 1, 1) := by
  rw [count_texts_succ, if_pos h]

theorem count_texts_nontext (f : Nat) (t : Tree) (i : Nat) (h : ¬ (nd t i).text ≠ [])
    (R : Tree × Nat)
    (hR : (nd t i).child_indices.foldl
      (fun (acc : Tree × Nat) c =>
        ((count_texts_in_nodes f acc.1 c).1,
          acc.2 + (count_texts_in_nodes f acc.1 c).2)) (set_count t i 0, 0) = R) :
    count_texts_in_nodes (f+1) t i = (set_count R.1 i R.2, R.2) := by
  subst hR
  rw [count_texts_succ, if_neg h]

/-- Master lemma on the recount pass, relative to a fixed shape reference `s`:
the pass preserves the shape, returns the subtree text count of the visited
node, leaves the cached counts outside the visited subtree alone, and (given
enough fuel) stores the fuel-independent count on every node of the visited
subtree. -/
theorem count_texts_master (s : Tree) (hw : WFT s) :
    ∀ (fuel : Nat) (s2 : Tree) (i : Nat), SameShape s s2 →
      SameShape s (count_texts_in_nodes fuel s2 i).1 ∧
      (count_texts_in_nodes fuel s2 i).2 = subtree_text_count fuel s i ∧
      (∀ q, ¬ Desc s i q →
        (nd (count_texts_in_nodes fuel s2 i).1 q).text_nodes_count =
          (nd s2 q).text_nodes_count) ∧
      (i < s.length → s.length - i ≤ fuel → ∀ q, Desc s i q →
        (nd (count_texts_in_nodes fuel s2 i).1 q).text_nodes_count = cT s q) := by
  intro fuel
  induction fuel with
  | zero =>
    intro s2 i hsh
    refine ⟨hsh, rfl, fun q _ => rfl, ?_⟩
    intro hi hf
    omega
  | succ f ih =>
    intro s2 i hsh
    have htext_eq : (nd s2 i).text = (nd s i).text := (hsh.2 i).1
    have hch_eq : (nd s2 i).child_indices = (nd s i).child_indices := (hsh.2 i).2.1
    by_cases ht : (nd s2 i).text ≠ []
    · have hts : (nd s i).text ≠ [] := by rwa [htext_eq] at ht
      have hchnil : (nd s i).child_indices = [] := hw.htext i hts
      rw [count_texts_text f s2 i ht]
      refine ⟨SameShape_comp hsh (set_count_SameShape s2 i 1), ?_, ?_, ?_⟩
      · rw [subtree_text_count, if_pos hts]
      · intro q hq
        have hne : ¬ i = q := fun h => hq (h ▸ Desc.refl i)
        exact set_count_count_ne s2 i 1 q hne
      · intro hi hf q hq
        have hqi : q = i := by
          rcases desc_cases s hq with h | ⟨c, hc, _⟩
          · exact h
          · rw [hchnil] at hc
            exact absurd hc (List.not_mem_nil c)
        subst hqi
        show (nd (set_count s2 q 1) q).text_nodes_count = cT s q
        rw [set_count_count_eq s2 q 1 (by rw [hsh.1]; exact hi),
          cT_unfold s hw.hchild q, if_pos hts]
    · have hts : ¬ (nd s i).text ≠ [] := by rwa [htext_eq] at ht
      have hfold : ∀ (cs : List Nat), (∀ c ∈ cs, c ∈ (nd s i).child_indices) →
          cs.Nodup → ∀ (a : Tree) (n : Nat), SameShape s a →
          SameShape s (cs.foldl
            (fun (acc : Tree × Nat) c =>
              ((count_texts_in_nodes f acc.1 c).1,
                acc.2 + (count_texts_in_nodes f acc.1 c).2)) (a, n)).1 ∧
          (cs.foldl (fun (acc : Tree × Nat) c =>
              ((count_texts_in_nodes f acc.1 c).1,
                acc.2 + (count_texts_in_nodes f acc.1 c).2)) (a, n)).2 =
            n + (cs.map (fun c => subtree_text_count f s c)).sum ∧
          (∀ q, (∀ c ∈ cs, ¬ Desc s c q) →
            (nd (cs.foldl (fun (acc : Tree × Nat) c =>
              ((count_texts_in_nodes f acc.1 c).1,
                acc.2 + (count_texts_in_nodes f acc.1 c).2)) (a, n)).1 q).text_nodes_count =
              (nd a q).text_nodes_count) ∧
          (i < s.length → s.length - i ≤ f + 1 → ∀ q c, c ∈ cs → Desc s c q →
            (nd (cs.foldl (fun (acc : Tree × Nat) c =>
              ((count_texts_in_nodes f acc.1 c).1,
                acc.2 + (count_texts_in_nodes f acc.1 c).2)) (a, n)).1 q).text_nodes_count =
              cT s q) := by
        intro cs
        induction cs with
        | nil =>
          intro _ _ a n hsta
          refine ⟨hsta, by simp, fun q _ => rfl, ?_⟩
          intro _ _ q c hc
          exact absurd hc (List.not_mem_nil c)
        | cons c cs2 ihl =>
          intro hmem hnd a n hsta
          have hcmem : c ∈ (nd s i).child_indices := hmem c (List.mem_cons_self c cs2)
          obtain ⟨k1, k2, k3, k4⟩ := ih a c hsta
          obtain ⟨m1, m2, m3, m4⟩ := ihl
            (fun c2 h2 => hmem c2 (List.mem_cons_of_mem c h2))
            (List.nodup_cons.mp hnd).2 (count_texts_in_nodes f a c).1
            (n + (count_texts_in_nodes f a c).2) k1
          rw [List.foldl_cons]
          refine ⟨m1, ?_, ?_, ?_⟩
          · refine m2.trans ?_
            rw [k2]
            simp only [List.map_cons, List.sum_cons]
            omega
          · intro q hq
            refine (m3 q (fun c2 h2 => hq c2 (List.mem_cons_of_mem c h2))).trans ?_
            exact k3 q (hq c (List.mem_cons_self c cs2))
          · intro hi2 hf2 q c0 hc0 hdesc
            rcases List.mem_cons.mp hc0 with h | h
            · subst h
              have hb := hw.hchild i hi2 c0 hcmem
              have hnot : ∀ c2 ∈ cs2, ¬ Desc s c2 q := by
                intro c2 h2 hd2
                have hceq : c0 = c2 := sibling_subtrees_disjoint s hw q hi2 hcmem
                  (hmem c2 (List.mem_cons_of_mem c0 h2)) hdesc hd2
                have hni : c0 ∉ cs2 := (List.nodup_cons.mp hnd).1
                rw [hceq] at hni
                exact hni h2
              refine (m3 q hnot).trans ?_
              exact k4 hb.2 (by omega) q hdesc
            · exact m4 hi2 hf2 q c0 h hdesc
      obtain ⟨R, hR⟩ : ∃ R, (nd s2 i).child_indices.foldl
          (fun (acc : Tree × Nat) c =>
            ((count_texts_in_nodes f acc.1 c).1,
              acc.2 + (count_texts_in_nodes f acc.1 c).2)) (set_count s2 i 0, 0) = R :=
        ⟨_, rfl⟩
      have hre := count_texts_nontext f s2 i ht R hR
      rw [hch_eq] at hR
      obtain ⟨P1, P2, P3, P4⟩ := hfold (nd s i).child_indices (fun c h => h)
        (hw.hnodup i) (set_count s2 i 0) 0 (SameShape_comp hsh (set_count_SameShape s2 i 0))
      rw [hR] at P1 P2 P3 P4
      refine ⟨?_, ?_, ?_, ?_⟩
      · rw [hre]
        exact SameShape_comp P1 (set_count_SameShape R.1 i R.2)
      · rw [hre]
        show R.2 = subtree_text_count (f+1) s i
        rw [P2, subtree_text_count, if_neg hts]
        omega
      · intro q hq
        have hne : ¬ i = q := fun h => hq (h ▸ Desc.refl i)
        rw [hre]
        show (nd (set_count R.1 i R.2) q).text_nodes_count = (nd s2 q).text_nodes_count
        rw [set_count_count_ne R.1 i R.2 q hne,
          P3 q (fun c hc hd => hq (Desc.step hc hd))]
        exact set_count_count_ne s2 i 0 q hne
      · intro hi hf q hq
        rw [hre]
        show (nd (set_count R.1 i R.2) q).text_nodes_count = cT s q
        by_cases hqi : q = i
        · subst hqi
          rw [set_count_count_eq R.1 q R.2 (by rw [P1.1]; exact hi)]
          rw [P2, cT_unfold s hw.hchild q, if_neg hts]
          have hmapeq : ((nd s q).child_indices.map (fun c => subtree_text_count f s c)) =
              ((nd s q).child_indices.map (fun c => cT s c)) := by
            apply List.map_congr_left
            intro c hc
            have hb := hw.hchild q hi c hc
            rw [cT]
            exact subtree_text_count_stable s hw.hchild f s.length c (by omega) (by omega)
          rw [hmapeq]
          omega
        · rw [set_count_count_ne R.1 i R.2 q (fun h => hqi h.symm)]
          rcases desc_cases s hq with h | ⟨c, hc, hdq⟩
          · exact absurd h hqi
          · exact P4 hi (by omega) q c hc hdq

/-- The recount pass preserves the tree's shape. -/
theorem recount_shape (t1 : Tree) (hw : WFT t1) :
    SameShape t1 (count_texts_in_nodes t1.length t1 0).1 :=
  (count_texts_master t1 hw t1.length t1 0 (SameShape_same t1)).1

/-- On every node below the root, the recount pass stores the
fuel-independent subtree text count. -/
theorem recount_desc (t1 : Tree) (hw : WFT t1) (q : Nat) (h : Desc t1 0 q) :
    (nd (count_texts_in_nodes t1.length t1 0).1 q).text_nodes_count = cT t1 q :=
  (count_texts_master t1 hw t1.length t1 0 (SameShape_same t1)).2.2.2 hw.hlen
    (by omega) q h

/-- Nodes not below the root keep their cached count. -/
theorem recount_not_desc (t1 : Tree) (hw : WFT t1) (q : Nat) (h : ¬ Desc t1 0 q) :
    (nd (count_texts_in_nodes t1.length t1 0).1 q).text_nodes_count =
      (nd t1 q).text_nodes_count :=
  (count_texts_master t1 hw t1.length t1 0 (SameShape_same t1)).2.2.1 q h

theorem desc_reachable (t : Tree) :
    ∀ {i x : Nat}, Desc t i x → Reachable t i → Reachable t x := by
  intro i x h
  induction h with
  | refl => exact fun h => h
  | @step i0 c j0 hc _ ih => exact fun hr => ih (Reachable.child hr hc)

theorem reachable_iff_desc (t : Tree) (x : Nat) : Reachable t x ↔ Desc t 0 x := by
  constructor
  · intro h
    induction h with
    | root => exact Desc.refl 0
    | @child p c _ hc ih => exact desc_trans t ih (Desc.step hc (Desc.refl c))
  · exact fun h => desc_reachable t h Reachable.root

end RecountLemmas

section Claim1Infra

/-- Well-formedness survives child-list erasures. -/
theorem WFT_of_Erased {t s : Tree} (hw : WFT t) (he : Erased t s) : WFT s := by
  refine ⟨?_, ?_, ?_, ?_, ?_, ?_⟩
  · rw [he.hlen]
    exact hw.hlen
  · intro i hi c hc
    rw [he.hlen] at hi ⊢
    exact hw.hchild i hi c ((he.hsub i).mem hc)
  · intro i hi c hc
    rw [he.hlen] at hi
    rw [(he.hfields c).1]
    exact hw.hparent i hi c ((he.hsub i).mem hc)
  · exact he.nodup hw.hnodup
  · intro i hti
    rw [(he.hfields i).2.1] at hti
    have h1 := hw.htext i hti
    have h2 := he.hsub i
    rw [h1] at h2
    exact List.sublist_nil.mp h2
  · rw [(he.hfields 0).1]
    exact hw.hroot

/-- Well-formedness survives a count-only rewrite of the arena. -/
theorem WFT_of_SameShape {t s : Tree} (hw : WFT t) (hsh : SameShape t s) : WFT s := by
  refine ⟨?_, ?_, ?_, ?_, ?_, ?_⟩
  · rw [hsh.1]
    exact hw.hlen
  · intro i hi c hc
    rw [hsh.1] at hi ⊢
    rw [(hsh.2 i).2.1] at hc
    exact hw.hchild i hi c hc
  · intro i hi c hc
    rw [hsh.1] at hi
    rw [(hsh.2 i).2.1] at hc
    rw [(hsh.2 c).2.2]
    exact hw.hparent i hi c hc
  · intro i
    rw [(hsh.2 i).2.1]
    exact hw.hnodup i
  · intro i hti
    rw [(hsh.2 i).1] at hti
    rw [(hsh.2 i).2.1]
    exact hw.htext i hti
  · rw [(hsh.2 0).2.2]
    exact hw.hroot

theorem cT_oob (t : Tree)
    (hchild : ∀ i < t.length, ∀ c ∈ (nd t i).child_indices, i < c ∧ c < t.length)
    (i : Nat) (h : t.length ≤ i) : cT t i = 0 := by
  have htext : (nd t i).text = [] := by rw [nd_oob t i h]
  rw [cT_unfold t hchild i, if_neg (by simp [htext]), children_oob t i h]
  rfl

/-- A node with a positive subtree text count has a text leaf below it. -/
theorem cT_pos_leaf (t : Tree)
    (hchild : ∀ i < t.length, ∀ c ∈ (nd t i).child_indices, i < c ∧ c < t.length) :
    ∀ (d i : Nat), t.length - i ≤ d → 0 < cT t i →
      ∃ y, Desc t i y ∧ (nd t y).text ≠ [] := by
  intro d
  induction d with
  | zero =>
    intro i h hpos
    by_cases hi : i < t.length
    · omega
    · rw [cT_oob t hchild i (le_of_not_lt hi)] at hpos
      omega
  | succ d2 ih =>
    intro i h hpos
    rw [cT_unfold t hchild i] at hpos
    by_cases ht : (nd t i).text ≠ []
    · exact ⟨i, Desc.refl i, ht⟩
    · rw [if_neg ht] at hpos
      by_cases hi : i < t.length
      · have hex : ∃ c ∈ (nd t i).child_indices, 0 < cT t c := by
          by_contra hall
          push_neg at hall
          have hz : ((nd t i).child_indices.map (fun c => cT t c)).sum = 0 := by
            apply List.sum_eq_zero
            intro x hx
            rcases List.mem_map.mp hx with ⟨c, hc, rfl⟩
            have := hall c hc
            omega
          omega
        obtain ⟨c, hc, hcpos⟩ := hex
        have hlt := hchild i hi c hc
        obtain ⟨y, hy1, hy2⟩ := ih c (by omega) hcpos
        exact ⟨y, Desc.step hc hy1, hy2⟩
      · rw [children_oob t i (le_of_not_lt hi)] at hpos
        simp at hpos

/-- A text leaf below a node makes its subtree text count positive. -/
theorem cT_pos_of_leaf (t : Tree)
    (hchild : ∀ i < t.length, ∀ c ∈ (nd t i).child_indices, i < c ∧ c < t.length) :
    ∀ {i y : Nat}, Desc t i y → (nd t y).text ≠ [] → 0 < cT t i := by
  intro i y h
  induction h with
  | refl j =>
    intro ht
    rw [cT_unfold t hchild j, if_pos ht]
    omega
  | @step i0 c j0 hc hd ih =>
    intro ht
    have hcpos := ih ht
    rw [cT_unfold t hchild i0]
    by_cases h0 : (nd t i0).text ≠ []
    · rw [if_pos h0]
      omega
    · rw [if_neg h0]
      have hmem : cT t c ∈ (nd t i0).child_indices.map (fun c => cT t c) :=
        List.mem_map_of_mem _ hc
      have hle := List.single_le_sum (fun x _ => Nat.zero_le x) _ hmem
      omega

/-- Full decomposition of the matcher's children fold: the output entries are
the accumulator's entries followed by the chosen children's sub-matchings in
order, and the total is the sum of the chosen scores.  The chosen children
form a sublist of the processed children. -/
theorem cm_fold_decomp (f : Nat) (t u : Tree) (tcs : List Nat) :
    ∀ (cs : List Nat) (acc : Nat × List (Nat × Nat) × Nat),
      ∃ CH : List (Nat × Nat),
        (CH.map (fun p => p.1)).Sublist cs ∧
        (∀ p ∈ CH, 0 < (check_matching f t u p.1 p.2).1) ∧
        (cs.foldl (cm_child_step t u tcs
          (fun c tci => check_matching f t u c tci)) acc).2.1 =
          acc.2.1 ++ (CH.map (fun p => (check_matching f t u p.1 p.2).2)).flatten ∧
        (cs.foldl (cm_child_step t u tcs
          (fun c tci => check_matching f t u c tci)) acc).1 =
          acc.1 + (CH.map (fun p => (check_matching f t u p.1 p.2).1)).sum := by
  intro cs
  induction cs with
  | nil =>
    intro acc
    refine ⟨[], List.nil_sublist _, fun p hp => absurd hp (List.not_mem_nil p), ?_, ?_⟩
    · simp
    · simp
  | cons c cs2 ih =>
    intro acc
    rw [List.foldl_cons]
    cases hbest : cm_scan t u c tcs (check_matching f t u c)
        (List.range' acc.2.2 (tcs.length - acc.2.2)) none with
    | none =>
      have hstep : cm_child_step t u tcs (fun c tci => check_matching f t u c tci) acc c
          = acc := by
        rw [cm_child_step, hbest]
      rw [hstep]
      obtain ⟨CH, h1, h2, h3, h4⟩ := ih acc
      exact ⟨CH, h1.cons c, h2, h3, h4⟩
    | some b0 =>
      obtain ⟨hb1, hb2, hb3⟩ := cm_scan_some f t u c tcs _ b0 hbest
      have hstep : cm_child_step t u tcs (fun c tci => check_matching f t u c tci) acc c
          = (acc.1 + b0.2.1, acc.2.1 ++ b0.2.2, b0.1 + 1) := by
        rw [cm_child_step, hbest]
      rw [hstep]
      obtain ⟨CH, h1, h2, h3, h4⟩ := ih (acc.1 + b0.2.1, acc.2.1 ++ b0.2.2, b0.1 + 1)
      refine ⟨(c, tcs.getD b0.1 0) :: CH, h1.cons₂ c, ?_, ?_, ?_⟩
      · intro p hp
        rcases List.mem_cons.mp hp with rfl | hp2
        · exact hb1 ▸ hb3
        · exact h2 p hp2
      · rw [h3]
        simp only [List.map_cons, List.flatten_cons, List.append_assoc]
        rw [hb2]
      · rw [h4]
        simp only [List.map_cons, List.sum_cons]
        rw [← hb1]
        omega

theorem matching_nontext (f : Nat) (t u : Tree) (i j : Nat)
    (h : ¬ (nd t i).text ≠ []) :
    check_matching (f+1) t u i j =
      (((nd t i).child_indices.foldl (cm_child_step t u (nd u j).child_indices
          (fun c tci => check_matching f t u c tci)) (0, [], 0)).1,
        (i, ((nd t i).child_indices.foldl (cm_child_step t u (nd u j).child_indices
          (fun c tci => check_matching f t u c tci)) (0, [], 0)).1) ::
        ((nd t i).child_indices.foldl (cm_child_step t u (nd u j).child_indices
          (fun c tci => check_matching f t u c tci)) (0, [], 0)).2.1) := by
  simp only [check_matching]
  rw [if_neg h]

/-- Decomposition of a non-text node's matching output: the head entry followed
by the chosen children's sub-matchings; the score is the sum of theirs. -/
theorem matching_decomp (f : Nat) (t u : Tree) (i j : Nat)
    (h : ¬ (nd t i).text ≠ []) :
    ∃ CH : List (Nat × Nat),
      (CH.map (fun p => p.1)).Sublist (nd t i).child_indices ∧
      (∀ p ∈ CH, 0 < (check_matching f t u p.1 p.2).1) ∧
      (check_matching (f+1) t u i j).2 =
        (i, (check_matching (f+1) t u i j).1) ::
          (CH.map (fun p => (check_matching f t u p.1 p.2).2)).flatten ∧
      (check_matching (f+1) t u i j).1 =
        (CH.map (fun p => (check_matching f t u p.1 p.2).1)).sum := by
  obtain ⟨CH, h1, h2, h3, h4⟩ := cm_fold_decomp f t u (nd u j).child_indices
    (nd t i).child_indices (0, [], 0)
  have he := matching_nontext f t u i j h
  have h4' : ((nd t i).child_indices.foldl (cm_child_step t u (nd u j).child_indices
      (fun c tci => check_matching f t u c tci)) (0, [], 0)).1 =
      (CH.map (fun p => (check_matching f t u p.1 p.2).1)).sum := by
    rw [h4]
    exact Nat.zero_add _
  refine ⟨CH, h1, h2, ?_, ?_⟩
  · rw [he]
    show (i, ((nd t i).child_indices.foldl (cm_child_step t u (nd u j).child_indices
        (fun c tci => check_matching f t u c tci)) (0, [], 0)).1) ::
      ((nd t i).child_indices.foldl (cm_child_step t u (nd u j).child_indices
        (fun c tci => check_matching f t u c tci)) (0, [], 0)).2.1 = _
    rw [h3]
    rfl
  · rw [he]
    exact h4'

/-- Each node is named at most once in a single matcher run's output. -/
theorem matching_names_nodup (t u : Tree) (hw : WFT t) :
    ∀ (fuel i j : Nat), i < t.length →
      ((check_matching fuel t u i j).2.map (fun e => e.1)).Nodup := by
  intro fuel
  induction fuel with
  | zero =>
    intro i j _
    simp [check_matching]
  | succ f ih =>
    intro i j hi
    by_cases ht : (nd t i).text ≠ []
    · unfold check_matching
      rw [if_pos ht]
      by_cases hm : ¬(nd u j).text = [] ∧
          ((nd u j).text.isPrefixOf (nd t i).text ∨
            (nd t i).text.isPrefixOf (nd u j).text)
      · rw [if_pos hm]
        simp
      · rw [if_neg hm]
        simp
    · obtain ⟨CH, h1, h2, h3, h4⟩ := matching_decomp f t u i j ht
      have hch : ∀ p ∈ CH, p.1 ∈ (nd t i).child_indices :=
        fun p hp => h1.mem (List.mem_map_of_mem _ hp)
      have hndch : (CH.map (fun p => p.1)).Nodup := h1.nodup (hw.hnodup i)
      have hchunks : ∀ (CH2 : List (Nat × Nat)),
          (∀ p ∈ CH2, p.1 ∈ (nd t i).child_indices) →
          (CH2.map (fun p => p.1)).Nodup →
          (((CH2.map (fun p => (check_matching f t u p.1 p.2).2)).flatten).map
            (fun e => e.1)).Nodup := by
        intro CH2
        induction CH2 with
        | nil =>
          intro _ _
          simp
        | cons p CH3 ihc =>
          intro hmem hnd
          rw [List.map_cons] at hnd
          simp only [List.map_cons, List.flatten_cons, List.map_append, List.nodup_append]
          refine ⟨?_, ?_, ?_⟩
          · exact ih p.1 p.2 (hw.hchild i hi p.1 (hmem p (List.mem_cons_self p CH3))).2
          · exact ihc (fun q hq => hmem q (List.mem_cons_of_mem p hq))
              (List.nodup_cons.mp hnd).2
          · intro x hx1 hx2
            rcases List.mem_map.mp hx1 with ⟨e, he, rfl⟩
            rw [List.map_flatten] at hx2
            rcases List.mem_flatten.mp hx2 with ⟨l, hl, hxl⟩
            rcases List.mem_map.mp hl with ⟨chunk, hchunk, rfl⟩
            rcases List.mem_map.mp hchunk with ⟨q, hq, rfl⟩
            rcases List.mem_map.mp hxl with ⟨e2, he2, heq⟩
            have heq2 : e2.1 = e.1 := heq
            have hd1 : Desc t p.1 e.1 := matching_entry_desc t u f p.1 p.2 e he
            have hd2 : Desc t q.1 e.1 := by
              have hd0 := matching_entry_desc t u f q.1 q.2 e2 he2
              rwa [heq2] at hd0
            have hpq : p.1 = q.1 := sibling_subtrees_disjoint t hw e.1 hi
              (hmem p (List.mem_cons_self p CH3))
              (hmem q (List.mem_cons_of_mem p hq)) hd1 hd2
            have hni : p.1 ∉ CH3.map (fun p => p.1) := (List.nodup_cons.mp hnd).1
            rw [hpq] at hni
            exact hni (List.mem_map_of_mem _ hq)
      rw [h3]
      simp only [List.map_cons]
      rw [List.nodup_cons]
      refine ⟨?_, hchunks CH hch hndch⟩
      intro hmem2
      rw [List.map_flatten] at hmem2
      rcases List.mem_flatten.mp hmem2 with ⟨l, hl, hil⟩
      rcases List.mem_map.mp hl with ⟨chunk, hchunk, rfl⟩
      rcases List.mem_map.mp hchunk with ⟨q, hq, rfl⟩
      rcases List.mem_map.mp hil with ⟨e2, he2, heq⟩
      have heq2 : e2.1 = i := heq
      have hd : Desc t q.1 e2.1 := matching_entry_desc t u f q.1 q.2 e2 he2
      have hle := desc_le t hw.hchild hd
      have hlt := (hw.hchild i hi q.1 (hch q hq)).1
      omega

/-- If no node of a subtree is targeted by the subtract pass, the whole
subtree's links survive it. -/
theorem desc_preserved (t : Tree) (M : List (Nat × Nat))
    (hnd : ∀ j, (nd t j).child_indices.Nodup) :
    ∀ {i y : Nat}, Desc t i y →
      (∀ x, Desc t i x → ¬∃ e ∈ M, e.1 = x ∧
        10 * e.2 ≥ 9 * (nd t x).text_nodes_count ∧ (nd t x).parent_index > -1) →
      Desc (subtract_pass t M) i y := by
  intro i y h
  induction h with
  | refl j => exact fun _ => Desc.refl j
  | @step i0 c0 j0 hc hd ih =>
    intro hnokill
    have hc1 : c0 ∈ (nd (subtract_pass t M) i0).child_indices := by
      rw [subtract_pass_mem t hnd M i0 c0]
      refine ⟨hc, ?_⟩
      rintro ⟨e, he, he1, he2, he3, _⟩
      exact hnokill c0 (Desc.step hc (Desc.refl c0)) ⟨e, he, he1, he2, he3⟩
    exact Desc.step hc1 (ih (fun x hx => hnokill x (Desc.step hc hx)))

/-- Summing the per-child fraction bounds over a parent's children against the
chosen children's scores. -/
theorem hl_sum_bound (f : Nat) (t u : Tree) :
    ∀ (CH : List (Nat × Nat)) (L : List Nat),
      (CH.map (fun p => p.1)).Sublist L → L.Nodup →
      (∀ c ∈ L, ∀ p ∈ CH, p.1 = c →
        9 * cT t c ≤ 10 * (check_matching f t u p.1 p.2).1) →
      (∀ c ∈ L, (∀ p ∈ CH, ¬ p.1 = c) → cT t c = 0) →
      9 * (L.map (fun c => cT t c)).sum ≤
        10 * (CH.map (fun p => (check_matching f t u p.1 p.2).1)).sum := by
  intro CH L
  induction L generalizing CH with
  | nil =>
    intro hsub _ _ _
    cases CH with
    | nil => simp
    | cons p CH2 =>
      have hn := List.sublist_nil.mp hsub
      simp at hn
  | cons c L2 ihl =>
    intro hsub hnd hper hzero
    rcases List.sublist_cons_iff.mp hsub with hsub2 | ⟨r, hr, hrsub⟩
    · have hc0 : cT t c = 0 := by
        apply hzero c (List.mem_cons_self c L2)
        intro p hp hpc
        have hmem : p.1 ∈ L2 := hsub2.mem (List.mem_map_of_mem _ hp)
        rw [hpc] at hmem
        exact (List.nodup_cons.mp hnd).1 hmem
      have hrec := ihl CH hsub2 (List.nodup_cons.mp hnd).2
        (fun c2 h2 p hp hpc => hper c2 (List.mem_cons_of_mem c h2) p hp hpc)
        (fun c2 h2 hnone => hzero c2 (List.mem_cons_of_mem c h2) hnone)
      rw [List.map_cons, List.sum_cons, hc0]
      omega
    · cases CH with
      | nil => simp at hr
      | cons p CH2 =>
        rw [List.map_cons] at hr
        injection hr with hr1 hr2
        have hsub3 : (CH2.map (fun p => p.1)).Sublist L2 := by
          rw [hr2]
          exact hrsub
        have hhead := hper c (List.mem_cons_self c L2) p (List.mem_cons_self p CH2) hr1
        have hzero2 : ∀ c2 ∈ L2, (∀ q ∈ CH2, ¬ q.1 = c2) → cT t c2 = 0 := by
          intro c2 h2 hnone
          apply hzero c2 (List.mem_cons_of_mem c h2)
          intro q hq
          rcases List.mem_cons.mp hq with rfl | hq2
          · rw [hr1]
            intro hcc2
            rw [hcc2] at hnd
            exact (List.nodup_cons.mp hnd).1 h2
          · exact hnone q hq2
        have hrec := ihl CH2 hsub3 (List.nodup_cons.mp hnd).2
          (fun c2 h2 q hq hqc =>
            hper c2 (List.mem_cons_of_mem c h2) q (List.mem_cons_of_mem p hq) hqc)
          hzero2
        rw [List.map_cons, List.sum_cons, List.map_cons, List.sum_cons]
        have hch : cT t c ≥ 0 := Nat.zero_le _
        omega

/-- Hard lemma for subtract: when a compared node's score stays below the 0.9
fraction of its subtree text count, the subtract pass leaves at least one text
leaf reachable below it.  `M` is any entry list that localises to this run on
the node's subtree. -/
theorem subtract_keeps_text (t u : Tree) (hw : WFT t)
    (hacc : ∀ x, (nd t x).text_nodes_count = cT t x)
    (M : List (Nat × Nat)) :
    ∀ (fuel : Nat) (i j : Nat), i < t.length → t.length - i ≤ fuel →
      (∀ e ∈ M, Desc t i e.1 → e ∈ (check_matching fuel t u i j).2) →
      10 * (check_matching fuel t u i j).1 < 9 * cT t i →
      ∃ y, Desc (subtract_pass t M) i y ∧ (nd t y).text ≠ [] := by
  intro fuel
  induction fuel with
  | zero =>
    intro i j hi hf _ _
    omega
  | succ f ih =>
    intro i j hi hf hB hfrac
    by_cases ht : (nd t i).text ≠ []
    · exact ⟨i, Desc.refl i, ht⟩
    · obtain ⟨CH, h1, h2, h3, h4⟩ := matching_decomp f t u i j ht
      by_contra hno
      push_neg at hno
      have hroute : ∀ e ∈ M, Desc t i e.1 → e.1 ≠ i →
          ∃ p ∈ CH, e ∈ (check_matching f t u p.1 p.2).2 ∧ Desc t p.1 e.1 := by
        intro e he hde hne
        have hin := hB e he hde
        rw [h3] at hin
        rcases List.mem_cons.mp hin with heq | hflat
        · exact absurd (congrArg Prod.fst heq) hne
        · rcases List.mem_flatten.mp hflat with ⟨l, hl, hel⟩
          rcases List.mem_map.mp hl with ⟨p, hp, rfl⟩
          exact ⟨p, hp, hel, matching_entry_desc t u f p.1 p.2 e hel⟩
      have hchmem : ∀ p ∈ CH, p.1 ∈ (nd t i).child_indices :=
        fun p hp => h1.mem (List.mem_map_of_mem _ hp)
      have hndch : (CH.map (fun p => p.1)).Nodup := h1.nodup (hw.hnodup i)
      have hper : ∀ c ∈ (nd t i).child_indices, ∀ p ∈ CH, p.1 = c →
          9 * cT t c ≤ 10 * (check_matching f t u p.1 p.2).1 := by
        intro c hc p hp hpc
        subst hpc
        by_contra hlt0
        push_neg at hlt0
        have hcb := hw.hchild i hi p.1 hc
        by_cases hsurv : p.1 ∈ (nd (subtract_pass t M) i).child_indices
        · have hBp : ∀ e ∈ M, Desc t p.1 e.1 →
              e ∈ (check_matching f t u p.1 p.2).2 := by
            intro e he hde
            have hdi : Desc t i e.1 := Desc.step hc hde
            have hnei : e.1 ≠ i := by
              have hle := desc_le t hw.hchild hde
              omega
            obtain ⟨q, hq, heq, hdq⟩ := hroute e he hdi hnei
            have hqp : q.1 = p.1 := sibling_subtrees_disjoint t hw e.1 hi
              (hchmem q hq) hc hdq hde
            have hqp2 : q = p := List.inj_on_of_nodup_map hndch hq hp hqp
            rw [hqp2] at heq
            exact heq
          obtain ⟨y, hy1, hy2⟩ := ih p.1 p.2 hcb.2 (by omega) hBp hlt0
          exact hy2 (hno y (Desc.step hsurv hy1))
        · rw [subtract_pass_mem t hw.hnodup M i p.1] at hsurv
          have hkill : ∃ e ∈ M, e.1 = p.1 ∧
              10 * e.2 ≥ 9 * (nd t p.1).text_nodes_count ∧
              (nd t p.1).parent_index > -1 ∧ i = (nd t p.1).parent_index.toNat := by
            by_contra hk
            exact hsurv ⟨hc, hk⟩
          obtain ⟨e, he, he1, he2, _, _⟩ := hkill
          have hnei : e.1 ≠ i := by
            rw [he1]
            omega
          have hdi : Desc t i e.1 := by
            rw [he1]
            exact Desc.step hc (Desc.refl p.1)
          obtain ⟨q, hq, heq, hdq⟩ := hroute e he hdi hnei
          have hqp : q.1 = p.1 := by
            apply sibling_subtrees_disjoint t hw e.1 hi (hchmem q hq) hc hdq
            rw [he1]
            exact Desc.refl p.1
          have hqp2 : q = p := List.inj_on_of_nodup_map hndch hq hp hqp
          rw [hqp2] at heq
          have hself : e.2 = (check_matching f t u p.1 p.2).1 :=
            matching_entry_self t u hw.hchild f p.1 p.2 e heq he1
          rw [hacc p.1] at he2
          omega
      have hzero : ∀ c ∈ (nd t i).child_indices,
          (∀ p ∈ CH, ¬ p.1 = c) → cT t c = 0 := by
        intro c hc hnone
        by_contra hcpos0
        have hcpos : 0 < cT t c := Nat.pos_of_ne_zero hcpos0
        have hcb := hw.hchild i hi c hc
        have hnokill : ∀ x, Desc t c x → ¬∃ e ∈ M, e.1 = x ∧
            10 * e.2 ≥ 9 * (nd t x).text_nodes_count ∧
            (nd t x).parent_index > -1 := by
          rintro x hx ⟨e, he, he1, _, _⟩
          have hdi : Desc t i e.1 := by
            rw [he1]
            exact Desc.step hc hx
          have hnei : e.1 ≠ i := by
            have hle := desc_le t hw.hchild hx
            rw [he1]
            omega
          obtain ⟨q, hq, heq, hdq⟩ := hroute e he hdi hnei
          have hdq2 : Desc t q.1 x := by rwa [he1] at hdq
          have hqc : q.1 = c := sibling_subtrees_disjoint t hw x hi
            (hchmem q hq) hc hdq2 hx
          exact hnone q hq hqc
        obtain ⟨y, hy1, hy2⟩ := cT_pos_leaf t hw.hchild t.length c (by omega) hcpos
        have hy1' : Desc (subtract_pass t M) c y :=
          desc_preserved t M hw.hnodup hy1 hnokill
        have hsurv : c ∈ (nd (subtract_pass t M) i).child_indices := by
          rw [subtract_pass_mem t hw.hnodup M i c]
          refine ⟨hc, ?_⟩
          rintro ⟨e, he, he1, he2, he3, _⟩
          exact hnokill c (Desc.refl c) ⟨e, he, he1, he2, he3⟩
        exact hy2 (hno y (Desc.step hsurv hy1'))
      have hsum := hl_sum_bound f t u CH (nd t i).child_indices h1
        (hw.hnodup i) hper hzero
      rw [h4] at hfrac
      rw [cT_unfold t hw.hchild i, if_neg ht] at hfrac
      omega

/-- Every entry of a matcher run is the head of a nested run: its recorded
score equals that run's score, and every entry of the outer run that names a
node of the entry's subtree is an entry of the nested run. -/
theorem matching_entry_run (t u : Tree) (hw : WFT t) :
    ∀ (fuel i j : Nat), i < t.length → t.length - i ≤ fuel →
      ∀ e ∈ (check_matching fuel t u i j).2,
        ∃ f2 j2, t.length - e.1 ≤ f2 ∧
          e.2 = (check_matching f2 t u e.1 j2).1 ∧
          (∀ e2 ∈ (check_matching fuel t u i j).2, Desc t e.1 e2.1 →
            e2 ∈ (check_matching f2 t u e.1 j2).2) ∧
          (∀ e2 ∈ (check_matching f2 t u e.1 j2).2,
            e2 ∈ (check_matching fuel t u i j).2) := by
  intro fuel
  induction fuel with
  | zero =>
    intro i j hi hf e he
    exact absurd he (List.not_mem_nil e)
  | succ f ih =>
    intro i j hi hf e he
    by_cases ht : (nd t i).text ≠ []
    · unfold check_matching at he
      rw [if_pos ht] at he
      by_cases hm : ¬(nd u j).text = [] ∧
          ((nd u j).text.isPrefixOf (nd t i).text ∨
            (nd t i).text.isPrefixOf (nd u j).text)
      · rw [if_pos hm] at he
        rcases List.mem_singleton.mp he with rfl
        refine ⟨f + 1, j, ?_, ?_, fun e2 he2 _ => he2, fun e2 he2 => he2⟩
        · show t.length - i ≤ f + 1
          omega
        · show 1 = (check_matching (f+1) t u i j).1
          unfold check_matching
          rw [if_pos ht, if_pos hm]
      · rw [if_neg hm] at he
        rcases List.mem_singleton.mp he with rfl
        refine ⟨f + 1, j, ?_, ?_, fun e2 he2 _ => he2, fun e2 he2 => he2⟩
        · show t.length - i ≤ f + 1
          omega
        · show 0 = (check_matching (f+1) t u i j).1
          unfold check_matching
          rw [if_pos ht, if_neg hm]
    · obtain ⟨CH, h1, h2, h3, h4⟩ := matching_decomp f t u i j ht
      rw [h3] at he
      rcases List.mem_cons.mp he with heq | hflat
      · subst heq
        refine ⟨f + 1, j, ?_, rfl, fun e2 he2 _ => he2, fun e2 he2 => he2⟩
        show t.length - i ≤ f + 1
        omega
      · rcases List.mem_flatten.mp hflat with ⟨l, hl, hel⟩
        rcases List.mem_map.mp hl with ⟨p, hp, rfl⟩
        have hchmem : p.1 ∈ (nd t i).child_indices :=
          h1.mem (List.mem_map_of_mem _ hp)
        have hcb := hw.hchild i hi p.1 hchmem
        obtain ⟨f2, j2, k1, k2, k3, k4⟩ := ih p.1 p.2 hcb.2 (by omega) e hel
        refine ⟨f2, j2, k1, k2, ?_, ?_⟩
        swap
        · intro e2 he2
          have hsub := k4 e2 he2
          rw [h3]
          exact List.mem_cons_of_mem _
            (List.mem_flatten.mpr ⟨_, List.mem_map_of_mem _ hp, hsub⟩)
        intro e2 he2 hde2
        rw [h3] at he2
        rcases List.mem_cons.mp he2 with heq2 | hflat2
        · exfalso
          have hd0 : Desc t p.1 e.1 := matching_entry_desc t u f p.1 p.2 e hel
          have hle1 := desc_le t hw.hchild hd0
          have he21 : e2.1 = i := congrArg Prod.fst heq2
          rw [he21] at hde2
          have hle2 := desc_le t hw.hchild hde2
          omega
        · rcases List.mem_flatten.mp hflat2 with ⟨l2, hl2, hel2⟩
          rcases List.mem_map.mp hl2 with ⟨q, hq, rfl⟩
          have hdp : Desc t p.1 e2.1 :=
            desc_trans t (matching_entry_desc t u f p.1 p.2 e hel) hde2
          have hdq : Desc t q.1 e2.1 := matching_entry_desc t u f q.1 q.2 e2 hel2
          have hchq : q.1 ∈ (nd t i).child_indices :=
            h1.mem (List.mem_map_of_mem _ hq)
          have hqp : q.1 = p.1 := sibling_subtrees_disjoint t hw e2.1 hi
            hchq hchmem hdq hdp
          have hqp2 : q = p :=
            List.inj_on_of_nodup_map (h1.nodup (hw.hnodup i)) hq hp hqp
          rw [hqp2] at hel2
          exact k3 e2 hel2 hde2

/-- Build `WFT` from its in-range (decidable) components. -/
theorem WFT_of_dec (t : Tree) (h1 : 0 < t.length)
    (h2 : ∀ i < t.length, ∀ c ∈ (nd t i).child_indices, i < c ∧ c < t.length)
    (h3 : ∀ i < t.length, ∀ c ∈ (nd t i).child_indices,
      (nd t c).parent_index = (i : Int))
    (h4 : ∀ i < t.length, (nd t i).child_indices.Nodup)
    (h5 : ∀ i < t.length, (nd t i).text ≠ [] → (nd t i).child_indices = [])
    (h6 : (nd t 0).parent_index = -1) : WFT t := by
  refine ⟨h1, h2, h3, ?_, ?_, h6⟩
  · intro i
    by_cases hi : i < t.length
    · exact h4 i hi
    · rw [nd_oob t i (le_of_not_lt hi)]
      exact List.nodup_nil
  · intro i hti
    by_cases hi : i < t.length
    · exact h5 i hi hti
    · rw [nd_oob t i (le_of_not_lt hi)]

end Claim1Infra

section Claim1

/-- C1: for subtract run against a reference tree, on a well-formed subject
tree with accurate cached text counts: a node named in the matcher's output
that is not the root is unlinked from its parent's child list exactly when its
matched fraction reaches 0.9 (the float test `score / text_nodes_count ≥ 0.9`
rendered exactly as `10 * score ≥ 9 * text_nodes_count`); the root — the node
with no parent — is never unlinked: it appears in no child list and remains
reachable. -/
theorem subtract_unlink_iff (t u : Tree) (hw : WFT t)
    (hacc : ∀ i < t.length,
      (nd t i).text_nodes_count = subtree_text_count t.length t i) :
    ∀ e ∈ (check_matching t.length t u 0 0).2,
      (e.1 ≠ 0 →
        (e.1 ∉ (nd (substract_tree t u)
            (nd t e.1).parent_index.toNat).child_indices ↔
          10 * e.2 ≥ 9 * (nd t e.1).text_nodes_count)) ∧
      (e.1 = 0 →
        (∀ q, 0 ∉ (nd (substract_tree t u) q).child_indices) ∧
        Reachable (substract_tree t u) 0) := by
  have hacc2 : ∀ x, (nd t x).text_nodes_count = cT t x := by
    intro x
    by_cases hx : x < t.length
    · exact hacc x hx
    · rw [nd_oob t x (le_of_not_lt hx), cT_oob t hw.hchild x (le_of_not_lt hx)]
  obtain ⟨M, hM⟩ : ∃ M2, (check_matching t.length t u 0 0).2 = M2 := ⟨_, rfl⟩
  obtain ⟨t1, ht1⟩ : ∃ s, subtract_pass t M = s := ⟨_, rfl⟩
  obtain ⟨t2, ht2⟩ : ∃ s, (count_texts_in_nodes t1.length t1 0).1 = s := ⟨_, rfl⟩
  have hT : substract_tree t u = unlink_text_free_nodes t2 := by
    simp only [substract_tree]
    rw [hM, ht1, ht2]
  have her1 : Erased t t1 := ht1 ▸ subtract_pass_Erased t M
  have hw1 : WFT t1 := WFT_of_Erased hw her1
  have hsh2 : SameShape t1 t2 := ht2 ▸ recount_shape t1 hw1
  have hw2 : WFT t2 := WFT_of_SameShape hw1 hsh2
  have hcnt2 : ∀ q, Desc t1 0 q →
      (nd t2 q).text_nodes_count = cT t1 q :=
    fun q h => ht2 ▸ recount_desc t1 hw1 q h
  have hcnt2' : ∀ q, ¬ Desc t1 0 q →
      (nd t2 q).text_nodes_count = (nd t1 q).text_nodes_count :=
    fun q h => ht2 ▸ recount_not_desc t1 hw1 q h
  have hnodupM : (M.map (fun x => x.1)).Nodup := by
    rw [← hM]
    exact matching_names_nodup t u hw t.length 0 0 hw.hlen
  intro e he'
  have he : e ∈ M := hM ▸ he'
  have hdesc0 : Desc t 0 e.1 := matching_entry_desc t u t.length 0 0 e he'
  constructor
  · intro hne
    obtain ⟨pa, hpa1, hpa2⟩ := desc_last_step t hdesc0 (Ne.symm hne)
    have hpalen : pa < t.length := by
      by_contra hc
      rw [children_oob t pa (le_of_not_lt hc)] at hpa2
      exact absurd hpa2 (List.not_mem_nil _)
    have hpar : (nd t e.1).parent_index = (pa : Int) :=
      hw.hparent pa hpalen e.1 hpa2
    have hq : (nd t e.1).parent_index.toNat = pa := by
      rw [hpar]
      omega
    have hparpos : (nd t e.1).parent_index > -1 := by
      rw [hpar]
      omega
    have hctpos : 0 < cT t e.1 := by
      rcases matching_entry_pos t u t.length 0 0 e he' with hpos | hhead
      · have hle := matching_entry_le t u t.length 0 0 e he'
        have hbr : subtree_text_count t.length t e.1 = cT t e.1 := rfl
        omega
      · exact absurd (congrArg Prod.fst hhead) hne
    have hcntpos : 0 < (nd t e.1).text_nodes_count := by
      rw [hacc2 e.1]
      exact hctpos
    constructor
    · intro habs
      by_contra hfr
      push_neg at hfr
      have hm1 : e.1 ∈ (nd t1 pa).child_indices := by
        rw [← ht1, subtract_pass_mem t hw.hnodup M pa e.1]
        refine ⟨hpa2, ?_⟩
        rintro ⟨e2, he2m, he21, he2frac, _, _⟩
        have hee : e2 = e := List.inj_on_of_nodup_map hnodupM he2m he he21
        rw [hee] at he2frac
        omega
      have hcnt2pos : 0 < (nd t2 e.1).text_nodes_count := by
        by_cases hreach : Desc t1 0 e.1
        · obtain ⟨f2, j2, k1, k2, k3, _⟩ :=
            matching_entry_run t u hw t.length 0 0 hw.hlen (by omega) e he'
          have hB : ∀ e2 ∈ M, Desc t e.1 e2.1 →
              e2 ∈ (check_matching f2 t u e.1 j2).2 := by
            intro e2 he2 hde2
            rw [← hM] at he2
            exact k3 e2 he2 hde2
          have helen : e.1 < t.length := desc_lt_len t hw.hchild hdesc0 hw.hlen
          have hfrac2 : 10 * (check_matching f2 t u e.1 j2).1 < 9 * cT t e.1 := by
            rw [← k2, ← hacc2 e.1]
            exact hfr
          obtain ⟨y, hy1, hy2⟩ :=
            subtract_keeps_text t u hw hacc2 M f2 e.1 j2 helen k1 hB hfrac2
          rw [ht1] at hy1
          have hct1pos : 0 < cT t1 e.1 := by
            refine cT_pos_of_leaf t1 hw1.hchild hy1 ?_
            rw [(her1.hfields y).2.1]
            exact hy2
          rw [hcnt2 e.1 hreach]
          exact hct1pos
        · rw [hcnt2' e.1 hreach, (her1.hfields e.1).2.2.1]
          exact hcntpos
      have hm2 : e.1 ∈ (nd t2 pa).child_indices := by
        rw [(hsh2.2 pa).2.1]
        exact hm1
      have hm3 : e.1 ∈ (nd (unlink_text_free_nodes t2) pa).child_indices := by
        rw [unlink_mem t2 hw2.hnodup pa e.1]
        refine ⟨hm2, ?_⟩
        rintro ⟨_, _, hz, _⟩
        omega
      rw [hT, hq] at habs
      exact habs hm3
    · intro hge
      have hm1 : e.1 ∉ (nd t1 pa).child_indices := by
        rw [← ht1, subtract_pass_mem t hw.hnodup M pa e.1]
        rintro ⟨_, hno2⟩
        exact hno2 ⟨e, he, rfl, hge, hparpos, hq.symm⟩
      have hm2 : e.1 ∉ (nd t2 pa).child_indices := by
        rw [(hsh2.2 pa).2.1]
        exact hm1
      rw [hT, hq]
      intro hmem
      exact hm2 (((unlink_Erased t2).hsub pa).mem hmem)
  · intro _
    constructor
    · intro q hmem0
      rw [hT] at hmem0
      have hmem2 : (0 : Nat) ∈ (nd t2 q).child_indices :=
        ((unlink_Erased t2).hsub q).mem hmem0
      rw [(hsh2.2 q).2.1] at hmem2
      have hmemt : (0 : Nat) ∈ (nd t q).child_indices := (her1.hsub q).mem hmem2
      have hq2 : q < t.length := by
        by_contra hc
        rw [children_oob t q (le_of_not_lt hc)] at hmemt
        exact absurd hmemt (List.not_mem_nil _)
      have hlt := (hw.hchild q hq2 0 hmemt).1
      omega
    · exact Reachable.root

/-- A well-formed tree with accurate counts for the C1 witness. -/
def ex1 : Tree :=
  [ { tag := "root", child_indices := [1, 2], text_nodes_count := 2 },
    { tag := "li", parent_index := 0, child_indices := [3], text_nodes_count := 1 },
    { tag := "li", parent_index := 0, child_indices := [4], text_nodes_count := 1 },
    { parent_index := 1, text := ['a'], text_nodes_count := 1 },
    { parent_index := 2, text := ['b'], text_nodes_count := 1 } ]

/-- Witness for `subtract_unlink_iff` on `ex1` against itself. -/
theorem subtract_unlink_iff_witness :
    ((0 < ex1.length ∧
      (∀ i < ex1.length, ∀ c ∈ (nd ex1 i).child_indices, i < c ∧ c < ex1.length) ∧
      (∀ i < ex1.length, ∀ c ∈ (nd ex1 i).child_indices,
        (nd ex1 c).parent_index = (i : Int)) ∧
      (∀ i < ex1.length, (nd ex1 i).child_indices.Nodup) ∧
      (∀ i < ex1.length, (nd ex1 i).text ≠ [] → (nd ex1 i).child_indices = []) ∧
      (nd ex1 0).parent_index = -1) ∧
      (∀ i < ex1.length,
        (nd ex1 i).text_nodes_count = subtree_text_count ex1.length ex1 i)) ∧
    (∀ e ∈ (check_matching ex1.length ex1 ex1 0 0).2,
      (e.1 ≠ 0 →
        (e.1 ∉ (nd (substract_tree ex1 ex1)
            (nd ex1 e.1).parent_index.toNat).child_indices ↔
          10 * e.2 ≥ 9 * (nd ex1 e.1).text_nodes_count)) ∧
      (e.1 = 0 →
        (∀ q, 0 ∉ (nd (substract_tree ex1 ex1) q).child_indices) ∧
        Reachable (substract_tree ex1 ex1) 0)) :=
  ⟨⟨⟨by decide, by decide, by decide, by decide, by decide, by decide⟩, by decide⟩,
    subtract_unlink_iff ex1 ex1
      (WFT_of_dec ex1 (by decide) (by decide) (by decide) (by decide) (by decide)
        (by decide))
      (by decide)⟩

end Claim1

section Claim2Infra

/-- The tag-match predicate is reflexive. -/
theorem tag_match_refl (n : Node) : check_tag_match n n = true := by
  unfold check_tag_match
  rw [if_neg (fun h => h rfl)]
  by_cases hl : n.style_classes.length + n.style_classes.length < 2
  · rw [if_pos hl]
  · rw [if_neg hl]
    have hne : n.style_classes ≠ [] := by
      intro h
      rw [h] at hl
      simp at hl
    obtain ⟨x, hx⟩ := List.exists_mem_of_ne_nil n.style_classes hne
    rw [List.any_eq_true]
    exact ⟨x, hx, List.elem_iff.mpr hx⟩

/-- Cross analog of the hard lemma: a positively scored node keeps a text leaf
below it through the cross pass, provided its run's entries are all listed in
the pass's matching `M`. -/
theorem cross_keeps_text (t u : Tree) (hw : WFT t) (M : List (Nat × Nat)) :
    ∀ (fuel i j : Nat), i < t.length →
      (∀ e2 ∈ (check_matching fuel t u i j).2, e2 ∈ M) →
      0 < (check_matching fuel t u i j).1 →
      ∃ y, Desc (cross_pass t M) i y ∧ (nd t y).text ≠ [] := by
  intro fuel
  induction fuel with
  | zero =>
    intro i j _ _ hpos
    exact absurd hpos (lt_irrefl 0)
  | succ f ih =>
    intro i j hi hA hpos
    by_cases ht : (nd t i).text ≠ []
    · exact ⟨i, Desc.refl i, ht⟩
    · obtain ⟨CH, h1, h2, h3, h4⟩ := matching_decomp f t u i j ht
      cases CH with
      | nil =>
        rw [h4] at hpos
        simp at hpos
      | cons p CH2 =>
        have hp : p ∈ p :: CH2 := List.mem_cons_self p CH2
        have hchmem : p.1 ∈ (nd t i).child_indices :=
          h1.mem (List.mem_map_of_mem _ hp)
        have hppos := h2 p hp
        have hA2 : ∀ e2 ∈ (check_matching f t u p.1 p.2).2, e2 ∈ M := by
          intro e2 he2
          apply hA
          rw [h3]
          exact List.mem_cons_of_mem _
            (List.mem_flatten.mpr ⟨_, List.mem_map_of_mem _ hp, he2⟩)
        cases f with
        | zero => exact absurd hppos (lt_irrefl 0)
        | succ g =>
          obtain ⟨rest, hrest⟩ := matching_head g t u p.1 p.2
          have hheadM : (p.1, (check_matching (g+1) t u p.1 p.2).1) ∈ M := by
            apply hA2
            rw [hrest]
            exact List.mem_cons_self _ _
          have hmn : p.1 ∈ (M.filter (fun e => e.2 ≠ 0)).map (fun e => e.1) := by
            apply List.mem_map.mpr
            refine ⟨(p.1, (check_matching (g+1) t u p.1 p.2).1), ?_, rfl⟩
            apply List.mem_filter.mpr
            refine ⟨hheadM, ?_⟩
            exact decide_eq_true (Nat.pos_iff_ne_zero.mp hppos)
          have hsurv : p.1 ∈ (nd (cross_pass t M) i).child_indices := by
            rw [cross_pass_mem t hw.hnodup M i p.1]
            refine ⟨hchmem, ?_⟩
            rintro ⟨_, hnm, _, _⟩
            exact hnm hmn
          obtain ⟨y, hy1, hy2⟩ := ih p.1 p.2 (hw.hchild i hi p.1 hchmem).2 hA2 hppos
          exact ⟨y, Desc.step hsurv hy1, hy2⟩

/-- A held best is kept by the scan when no later candidate strictly beats it. -/
theorem scan_keep (t u : Tree) (c : Nat) (tcs : List Nat)
    (score : Nat → Nat × List (Nat × Nat)) :
    ∀ (L : List Nat) (b0 : Nat × Nat × List (Nat × Nat)),
      (∀ pos : Nat, (score (tcs.getD pos 0)).1 ≤ b0.2.1) →
      L.foldl (cm_scan_step t u c tcs score) (some b0) = some b0 := by
  intro L
  induction L with
  | nil =>
    intro b0 _
    rfl
  | cons pos L2 ihs =>
    intro b0 hb
    rw [List.foldl_cons]
    have hstep : cm_scan_step t u c tcs score (some b0) pos = some b0 := by
      simp only [cm_scan_step]
      by_cases htm : check_tag_match (nd t c) (nd u (tcs.getD pos 0)) = true
      · rw [if_pos htm]
        show (if (score (tcs.getD pos 0)).1 > b0.2.1 then
            some (pos, (score (tcs.getD pos 0)).1, (score (tcs.getD pos 0)).2)
          else some b0) = some b0
        rw [if_neg (not_lt.mpr (hb pos))]
      · rw [if_neg htm]
    rw [hstep]
    exact ihs b0 hb

/-- On identical trees, the scan's first candidate — the child itself — is
taken whenever its self-score is positive. -/
theorem scan_step_first (t : Tree) (c : Nat) (tcs : List Nat)
    (score : Nat → Nat × List (Nat × Nat)) (k : Nat)
    (hg : tcs.getD k 0 = c) (hpos : 0 < (score c).1) :
    cm_scan_step t t c tcs score none k = some (k, (score c).1, (score c).2) := by
  simp only [cm_scan_step]
  rw [hg, tag_match_refl]
  rw [if_pos rfl]
  show (if (score c).1 > 0 then some (k, (score c).1, (score c).2) else none) =
    some (k, (score c).1, (score c).2)
  rw [if_pos hpos]

/-- The identity fold: matching a non-text node's children against the same
children list picks each child at its own position, sums the children's
subtree text counts, and merges every child's self-matching into the output. -/
theorem id_fold (t : Tree) (f : Nat) (cs : List Nat)
    (hrec : ∀ c ∈ cs, (check_matching f t t c c).1 = cT t c ∧ 0 < cT t c)
    (hbound : ∀ c ∈ cs, ∀ y, (check_matching f t t c y).1 ≤ cT t c) :
    ∀ (cs2 : List Nat) (k : Nat) (S : Nat) (E : List (Nat × Nat)),
      cs.drop k = cs2 →
      ((cs2.foldl (cm_child_step t t cs
          (fun c tci => check_matching f t t c tci)) (S, E, k)).1 =
        S + (cs2.map (fun c => cT t c)).sum) ∧
      (∀ e2, (e2 ∈ E ∨ ∃ c ∈ cs2, e2 ∈ (check_matching f t t c c).2) →
        e2 ∈ (cs2.foldl (cm_child_step t t cs
          (fun c tci => check_matching f t t c tci)) (S, E, k)).2.1) := by
  intro cs2
  induction cs2 with
  | nil =>
    intro k S E _
    constructor
    · simp
    · intro e2 he2
      rcases he2 with h | ⟨c, hc, _⟩
      · exact h
      · exact absurd hc (List.not_mem_nil c)
  | cons c cs3 ihc =>
    intro k S E hdrop
    have hk : k < cs.length := by
      by_contra hc2
      rw [List.drop_eq_nil_of_le (le_of_not_lt hc2)] at hdrop
      exact List.noConfusion hdrop
    have h1 : cs[k]? = some c := by
      have h2 : (cs.drop k)[0]? = some c := by
        rw [hdrop]
        simp
      rw [List.getElem?_drop] at h2
      simpa using h2
    have hgetd : cs.getD k 0 = c := by
      rw [List.getD_eq_getElem?_getD, h1]
      rfl
    have hcmem : c ∈ cs := by
      have hmem2 : c ∈ cs.drop k := by
        rw [hdrop]
        exact List.mem_cons_self c cs3
      exact (List.drop_sublist k cs).mem hmem2
    have hdrop2 : cs.drop (k+1) = cs3 := by
      have h5 := congrArg (List.drop 1) hdrop
      rw [List.drop_drop] at h5
      simpa using h5
    have hscan : cm_scan t t c cs (check_matching f t t c)
        (List.range' k (cs.length - k)) none =
        some (k, (check_matching f t t c c).1, (check_matching f t t c c).2) := by
      have hlen : cs.length - k = (cs.length - k - 1) + 1 := by omega
      rw [hlen, List.range'_succ]
      unfold cm_scan
      rw [List.foldl_cons]
      rw [scan_step_first t c cs (check_matching f t t c) k hgetd
        (by rw [(hrec c hcmem).1]; exact (hrec c hcmem).2)]
      apply scan_keep
      intro pos
      show (check_matching f t t c (cs.getD pos 0)).1 ≤ (check_matching f t t c c).1
      rw [(hrec c hcmem).1]
      exact hbound c hcmem (cs.getD pos 0)
    have hstep : cm_child_step t t cs (fun c tci => check_matching f t t c tci)
        (S, E, k) c =
        (S + (check_matching f t t c c).1, E ++ (check_matching f t t c c).2, k + 1) := by
      rw [cm_child_step, hscan]
    rw [List.foldl_cons, hstep]
    obtain ⟨m1, m2⟩ := ihc (k+1) (S + (check_matching f t t c c).1)
      (E ++ (check_matching f t t c c).2) hdrop2
    constructor
    · rw [m1, List.map_cons, List.sum_cons, (hrec c hcmem).1]
      omega
    · intro e2 he2
      apply m2
      rcases he2 with h | ⟨c2, hc2, h⟩
      · exact Or.inl (List.mem_append_left _ h)
      · rcases List.mem_cons.mp hc2 with rfl | hc3
        · exact Or.inl (List.mem_append_right _ h)
        · exact Or.inr ⟨c2, hc3, h⟩

/-- The matcher's self-match score of a node of a pruned tree (every node of
its subtree has a positive count) is exactly its subtree text count. -/
theorem id_score (t : Tree) (hw : WFT t) :
    ∀ (fuel i : Nat), i < t.length → t.length - i ≤ fuel →
      (∀ x, Desc t i x → 0 < cT t x) →
      (check_matching fuel t t i i).1 = cT t i := by
  intro fuel
  induction fuel with
  | zero =>
    intro i hi hf _
    omega
  | succ f ih =>
    intro i hi hf hprem
    by_cases ht : (nd t i).text ≠ []
    · unfold check_matching
      rw [if_pos ht,
        if_pos ⟨ht, Or.inl (List.isPrefixOf_iff_prefix.mpr (List.prefix_refl _))⟩]
      rw [cT_unfold t hw.hchild i, if_pos ht]
    · rw [matching_nontext f t t i i ht]
      show ((nd t i).child_indices.foldl (cm_child_step t t (nd t i).child_indices
        (fun c tci => check_matching f t t c tci)) (0, [], 0)).1 = cT t i
      have hrec : ∀ c ∈ (nd t i).child_indices,
          (check_matching f t t c c).1 = cT t c ∧ 0 < cT t c := by
        intro c hc
        have hcb := hw.hchild i hi c hc
        exact ⟨ih c hcb.2 (by omega) (fun x hx => hprem x (Desc.step hc hx)),
          hprem c (Desc.step hc (Desc.refl c))⟩
      have hbound : ∀ c ∈ (nd t i).child_indices, ∀ y,
          (check_matching f t t c y).1 ≤ cT t c :=
        fun c hc y => le_trans (score_le_count t t f c y)
          (subtree_text_count_le_cT t hw.hchild f c)
      obtain ⟨m1, _⟩ := id_fold t f (nd t i).child_indices hrec hbound
        (nd t i).child_indices 0 0 [] (List.drop_zero _)
      rw [m1, cT_unfold t hw.hchild i, if_neg ht]
      omega

/-- On a pruned tree, the self-run lists every subtree node with its count as
its score. -/
theorem id_entry (t : Tree) (hw : WFT t) :
    ∀ (fuel i : Nat), i < t.length → t.length - i ≤ fuel →
      (∀ x, Desc t i x → 0 < cT t x) →
      ∀ x, Desc t i x → (x, cT t x) ∈ (check_matching fuel t t i i).2 := by
  intro fuel
  induction fuel with
  | zero =>
    intro i hi hf _ x _
    exact absurd hi (by omega)
  | succ f ih =>
    intro i hi hf hprem x hx
    by_cases ht : (nd t i).text ≠ []
    · have hchnil := hw.htext i ht
      have hxi : x = i := by
        rcases desc_cases t hx with h | ⟨c, hc, _⟩
        · exact h
        · rw [hchnil] at hc
          exact absurd hc (List.not_mem_nil c)
      subst hxi
      unfold check_matching
      rw [if_pos ht,
        if_pos ⟨ht, Or.inl (List.isPrefixOf_iff_prefix.mpr (List.prefix_refl _))⟩]
      have hct : cT t x = 1 := by
        rw [cT_unfold t hw.hchild x, if_pos ht]
      rw [hct]
      exact List.mem_singleton.mpr rfl
    · have hrec : ∀ c ∈ (nd t i).child_indices,
          (check_matching f t t c c).1 = cT t c ∧ 0 < cT t c := by
        intro c hc
        have hcb := hw.hchild i hi c hc
        exact ⟨id_score t hw f c hcb.2 (by omega)
            (fun z hz => hprem z (Desc.step hc hz)),
          hprem c (Desc.step hc (Desc.refl c))⟩
      have hbound : ∀ c ∈ (nd t i).child_indices, ∀ y,
          (check_matching f t t c y).1 ≤ cT t c :=
        fun c hc y => le_trans (score_le_count t t f c y)
          (subtree_text_count_le_cT t hw.hchild f c)
      obtain ⟨m1, m2⟩ := id_fold t f (nd t i).child_indices hrec hbound
        (nd t i).child_indices 0 0 [] (List.drop_zero _)
      rw [matching_nontext f t t i i ht]
      show (x, cT t x) ∈
        (i, ((nd t i).child_indices.foldl (cm_child_step t t (nd t i).child_indices
          (fun c tci => check_matching f t t c tci)) (0, [], 0)).1) ::
        ((nd t i).child_indices.foldl (cm_child_step t t (nd t i).child_indices
          (fun c tci => check_matching f t t c tci)) (0, [], 0)).2.1
      by_cases hxi : x = i
      · subst hxi
        have hfe : ((nd t x).child_indices.foldl (cm_child_step t t
            (nd t x).child_indices
            (fun c tci => check_matching f t t c tci)) (0, [], 0)).1 = cT t x := by
          rw [m1, cT_unfold t hw.hchild x, if_neg ht]
          omega
        rw [hfe]
        exact List.mem_cons_self _ _
      · rcases desc_cases t hx with h | ⟨c, hc, hdx⟩
        · exact absurd h hxi
        · have hcb := hw.hchild i hi c hc
          have hent := ih c hcb.2 (by omega)
            (fun z hz => hprem z (Desc.step hc hz)) x hdx
          exact List.mem_cons_of_mem _ (m2 (x, cT t x) (Or.inr ⟨c, hc, hent⟩))

/-- Links inside a subtree all of whose proper members are positively matched
survive the cross pass. -/
theorem cross_desc_preserved (t : Tree) (M : List (Nat × Nat)) (hw : WFT t) :
    ∀ {i y : Nat}, Desc t i y →
      (∀ x, Desc t i x → x ≠ i →
        x ∈ (M.filter (fun e => e.2 ≠ 0)).map (fun e => e.1)) →
      Desc (cross_pass t M) i y := by
  intro i y h
  induction h with
  | refl j => exact fun _ => Desc.refl j
  | @step i0 c0 j0 hc hd ih =>
    intro hmn
    have hi0 : i0 < t.length := by
      by_contra hcon
      rw [children_oob t i0 (le_of_not_lt hcon)] at hc
      exact absurd hc (List.not_mem_nil c0)
    have hlt := (hw.hchild i0 hi0 c0 hc).1
    have hc0mn : c0 ∈ (M.filter (fun e => e.2 ≠ 0)).map (fun e => e.1) :=
      hmn c0 (Desc.step hc (Desc.refl c0)) (by omega)
    have hc1 : c0 ∈ (nd (cross_pass t M) i0).child_indices := by
      rw [cross_pass_mem t hw.hnodup M i0 c0]
      refine ⟨hc, ?_⟩
      rintro ⟨_, hnm, _, _⟩
      exact hnm hc0mn
    refine Desc.step hc1 (ih ?_)
    intro x hx hxne
    refine hmn x (Desc.step hc hx) ?_
    have hle := desc_le t hw.hchild hx
    omega

end Claim2Infra

section Claim2

/-- C2: for intersect (cross) run against a reference tree, on a well-formed
subject tree with accurate cached counts: a non-root node named in the
matcher's output remains listed in its parent's children iff its matcher score
is strictly positive; and when both operands are the same built (pruned) tree,
intersect leaves the reachable node set unchanged. -/
theorem intersect_keep_iff (t u : Tree) (hw : WFT t)
    (hacc : ∀ i < t.length,
      (nd t i).text_nodes_count = subtree_text_count t.length t i) :
    (∀ e ∈ (check_matching t.length t u 0 0).2, e.1 ≠ 0 →
      (e.1 ∈ (nd (cross_tree t u)
          (nd t e.1).parent_index.toNat).child_indices ↔ 0 < e.2)) ∧
    ((∀ x, Reachable t x → 0 < (nd t x).text_nodes_count) →
      ∀ x, Reachable (cross_tree t t) x ↔ Reachable t x) := by
  have hacc2 : ∀ x, (nd t x).text_nodes_count = cT t x := by
    intro x
    by_cases hx : x < t.length
    · exact hacc x hx
    · rw [nd_oob t x (le_of_not_lt hx), cT_oob t hw.hchild x (le_of_not_lt hx)]
  constructor
  · obtain ⟨M, hM⟩ : ∃ M2, (check_matching t.length t u 0 0).2 = M2 := ⟨_, rfl⟩
    obtain ⟨t1, ht1⟩ : ∃ s, cross_pass t M = s := ⟨_, rfl⟩
    obtain ⟨t2, ht2⟩ : ∃ s, (count_texts_in_nodes t1.length t1 0).1 = s := ⟨_, rfl⟩
    have hT : cross_tree t u = unlink_text_free_nodes t2 := by
      simp only [cross_tree]
      rw [hM, ht1, ht2]
    have her1 : Erased t t1 := ht1 ▸ cross_pass_Erased t M
    have hw1 : WFT t1 := WFT_of_Erased hw her1
    have hsh2 : SameShape t1 t2 := ht2 ▸ recount_shape t1 hw1
    have hw2 : WFT t2 := WFT_of_SameShape hw1 hsh2
    have hcnt2 : ∀ q, Desc t1 0 q → (nd t2 q).text_nodes_count = cT t1 q :=
      fun q h => ht2 ▸ recount_desc t1 hw1 q h
    have hcnt2' : ∀ q, ¬ Desc t1 0 q →
        (nd t2 q).text_nodes_count = (nd t1 q).text_nodes_count :=
      fun q h => ht2 ▸ recount_not_desc t1 hw1 q h
    have hnodupM : (M.map (fun x => x.1)).Nodup := by
      rw [← hM]
      exact matching_names_nodup t u hw t.length 0 0 hw.hlen
    intro e he' hne
    have he : e ∈ M := hM ▸ he'
    have hdesc0 : Desc t 0 e.1 := matching_entry_desc t u t.length 0 0 e he'
    obtain ⟨pa, hpa1, hpa2⟩ := desc_last_step t hdesc0 (Ne.symm hne)
    have hpalen : pa < t.length := by
      by_contra hc
      rw [children_oob t pa (le_of_not_lt hc)] at hpa2
      exact absurd hpa2 (List.not_mem_nil _)
    have hpar : (nd t e.1).parent_index = (pa : Int) :=
      hw.hparent pa hpalen e.1 hpa2
    have hq : (nd t e.1).parent_index.toNat = pa := by
      rw [hpar]
      omega
    have hparpos : (nd t e.1).parent_index > -1 := by
      rw [hpar]
      omega
    have helen : e.1 < t.length := desc_lt_len t hw.hchild hdesc0 hw.hlen
    constructor
    · intro hpres
      by_contra hz
      push_neg at hz
      have hm1 : e.1 ∉ (nd t1 pa).child_indices := by
        rw [← ht1, cross_pass_mem t hw.hnodup M pa e.1]
        rintro ⟨_, hno2⟩
        apply hno2
        refine ⟨List.mem_range.mpr helen, ?_, hparpos, hq.symm⟩
        intro hmn
        rcases List.mem_map.mp hmn with ⟨e2, he2f, he2eq⟩
        rcases List.mem_filter.mp he2f with ⟨he2M, he2pos⟩
        have he2eq2 : e2.1 = e.1 := he2eq
        have hee : e2 = e := List.inj_on_of_nodup_map hnodupM he2M he he2eq2
        rw [hee] at he2pos
        have hne2 : e.2 ≠ 0 := of_decide_eq_true he2pos
        omega
      have hm2 : e.1 ∉ (nd t2 pa).child_indices := by
        rw [(hsh2.2 pa).2.1]
        exact hm1
      rw [hT, hq] at hpres
      exact hm2 (((unlink_Erased t2).hsub pa).mem hpres)
    · intro hpos
      have hmn : e.1 ∈ (M.filter (fun x => x.2 ≠ 0)).map (fun x => x.1) := by
        apply List.mem_map.mpr
        exact ⟨e, List.mem_filter.mpr
          ⟨he, decide_eq_true (Nat.pos_iff_ne_zero.mp hpos)⟩, rfl⟩
      have hm1 : e.1 ∈ (nd t1 pa).child_indices := by
        rw [← ht1, cross_pass_mem t hw.hnodup M pa e.1]
        refine ⟨hpa2, ?_⟩
        rintro ⟨_, hnm, _, _⟩
        exact hnm hmn
      have hcnt2pos : 0 < (nd t2 e.1).text_nodes_count := by
        by_cases hreach : Desc t1 0 e.1
        · obtain ⟨f2, j2, k1, k2, k3, k4⟩ :=
            matching_entry_run t u hw t.length 0 0 hw.hlen (by omega) e he'
          have hA : ∀ e2 ∈ (check_matching f2 t u e.1 j2).2, e2 ∈ M := by
            intro e2 he2
            rw [← hM]
            exact k4 e2 he2
          have hpos2 : 0 < (check_matching f2 t u e.1 j2).1 := by
            rw [← k2]
            exact hpos
          obtain ⟨y, hy1, hy2⟩ :=
            cross_keeps_text t u hw M f2 e.1 j2 helen hA hpos2
          rw [ht1] at hy1
          have hct1pos : 0 < cT t1 e.1 := by
            refine cT_pos_of_leaf t1 hw1.hchild hy1 ?_
            rw [(her1.hfields y).2.1]
            exact hy2
          rw [hcnt2 e.1 hreach]
          exact hct1pos
        · rw [hcnt2' e.1 hreach, (her1.hfields e.1).2.2.1, hacc2 e.1]
          have hle := matching_entry_le t u t.length 0 0 e he'
          have hbr : subtree_text_count t.length t e.1 = cT t e.1 := rfl
          omega
      have hm2 : e.1 ∈ (nd t2 pa).child_indices := by
        rw [(hsh2.2 pa).2.1]
        exact hm1
      have hm3 : e.1 ∈ (nd (unlink_text_free_nodes t2) pa).child_indices := by
        rw [unlink_mem t2 hw2.hnodup pa e.1]
        refine ⟨hm2, ?_⟩
        rintro ⟨_, _, hzz, _⟩
        omega
      rw [hT, hq]
      exact hm3
  · intro hpruned x
    obtain ⟨N, hN⟩ : ∃ N2, (check_matching t.length t t 0 0).2 = N2 := ⟨_, rfl⟩
    obtain ⟨s1, hs1⟩ : ∃ s, cross_pass t N = s := ⟨_, rfl⟩
    obtain ⟨s2, hs2⟩ : ∃ s, (count_texts_in_nodes s1.length s1 0).1 = s := ⟨_, rfl⟩
    have hT2 : cross_tree t t = unlink_text_free_nodes s2 := by
      simp only [cross_tree]
      rw [hN, hs1, hs2]
    have her1 : Erased t s1 := hs1 ▸ cross_pass_Erased t N
    have hw1 : WFT s1 := WFT_of_Erased hw her1
    have hsh2 : SameShape s1 s2 := hs2 ▸ recount_shape s1 hw1
    have hw2 : WFT s2 := WFT_of_SameShape hw1 hsh2
    have hcnt2 : ∀ q, Desc s1 0 q → (nd s2 q).text_nodes_count = cT s1 q :=
      fun q h => hs2 ▸ recount_desc s1 hw1 q h
    have hprem : ∀ z, Desc t 0 z → 0 < cT t z := by
      intro z hz
      rw [← hacc2 z]
      exact hpruned z ((reachable_iff_desc t z).mpr hz)
    have HMN : ∀ z, Desc t 0 z → z ≠ 0 →
        z ∈ (N.filter (fun e => e.2 ≠ 0)).map (fun e => e.1) := by
      intro z hz hzne
      have hent : (z, cT t z) ∈ N := by
        rw [← hN]
        exact id_entry t hw t.length 0 hw.hlen (by omega) hprem z hz
      apply List.mem_map.mpr
      refine ⟨(z, cT t z), List.mem_filter.mpr ⟨hent, ?_⟩, rfl⟩
      exact decide_eq_true (Nat.pos_iff_ne_zero.mp (hprem z hz))
    constructor
    · intro hr
      induction hr with
      | root => exact Reachable.root
      | @child p c hp hc ihr =>
        refine Reachable.child ihr ?_
        rw [hT2] at hc
        have hc2 := ((unlink_Erased s2).hsub p).mem hc
        rw [(hsh2.2 p).2.1] at hc2
        exact (her1.hsub p).mem hc2
    · intro hr
      rw [reachable_iff_desc] at hr
      have hsurvall : ∀ z, Desc t 0 z → Desc s1 0 z := by
        intro z hz
        rw [← hs1]
        exact cross_desc_preserved t N hw hz (fun w hwd hwne => HMN w hwd hwne)
      have hsubtree : ∀ z, Desc t 0 z → ∀ y2, Desc t z y2 → Desc s1 z y2 := by
        intro z hz y2 hy2
        rw [← hs1]
        refine cross_desc_preserved t N hw hy2 ?_
        intro w hwd hwne
        refine HMN w (desc_trans t hz hwd) ?_
        intro hw0
        apply hwne
        have hle := desc_le t hw.hchild hwd
        omega
      have hback : ∀ {a b : Nat}, Desc s1 a b → Desc t a b := by
        intro a b hd
        induction hd with
        | refl j => exact Desc.refl j
        | @step i0 c0 j0 hc hd2 ih2 => exact Desc.step ((her1.hsub i0).mem hc) ih2
      have hcntpos : ∀ z, Desc s1 0 z → 0 < (nd s2 z).text_nodes_count := by
        intro z hz1
        rw [hcnt2 z hz1]
        have hzt : Desc t 0 z := hback hz1
        have hctz : 0 < cT t z := hprem z hzt
        obtain ⟨y2, hy21, hy22⟩ := cT_pos_leaf t hw.hchild t.length z (by omega) hctz
        have hy2s : Desc s1 z y2 := hsubtree z hzt y2 hy21
        refine cT_pos_of_leaf s1 hw1.hchild hy2s ?_
        rw [(her1.hfields y2).2.1]
        exact hy22
      have hfinal : ∀ {a b : Nat}, Desc s1 a b → Desc s1 0 a →
          Desc (unlink_text_free_nodes s2) a b := by
        intro a b hd
        induction hd with
        | refl j => exact fun _ => Desc.refl j
        | @step i0 c0 j0 hc hd2 ih2 =>
          intro h0
          have hc0reach : Desc s1 0 c0 :=
            desc_trans s1 h0 (Desc.step hc (Desc.refl c0))
          have hcmem2 : c0 ∈ (nd s2 i0).child_indices := by
            rw [(hsh2.2 i0).2.1]
            exact hc
          have hkeep : c0 ∈ (nd (unlink_text_free_nodes s2) i0).child_indices := by
            rw [unlink_mem s2 hw2.hnodup i0 c0]
            refine ⟨hcmem2, ?_⟩
            rintro ⟨_, _, hzz, _⟩
            have hp0 := hcntpos c0 hc0reach
            omega
          exact Desc.step hkeep (ih2 hc0reach)
      rw [reachable_iff_desc, hT2]
      exact hfinal (hsurvall x hr) (Desc.refl 0)

/-- A well-formed pruned tree with accurate counts for the C2 witness. -/
def ex2 : Tree :=
  [ { tag := "root", child_indices := [1, 2], text_nodes_count := 2 },
    { tag := "div", parent_index := 0, child_indices := [3], text_nodes_count := 1 },
    { tag := "p", parent_index := 0, child_indices := [4], text_nodes_count := 1 },
    { parent_index := 1, text := ['a'], text_nodes_count := 1 },
    { parent_index := 2, text := ['b'], text_nodes_count := 1 } ]

/-- Witness for `intersect_keep_iff` on `ex2` against itself. -/
theorem intersect_keep_iff_witness :
    ((0 < ex2.length ∧
      (∀ i < ex2.length, ∀ c ∈ (nd ex2 i).child_indices, i < c ∧ c < ex2.length) ∧
      (∀ i < ex2.length, ∀ c ∈ (nd ex2 i).child_indices,
        (nd ex2 c).parent_index = (i : Int)) ∧
      (∀ i < ex2.length, (nd ex2 i).child_indices.Nodup) ∧
      (∀ i < ex2.length, (nd ex2 i).text ≠ [] → (nd ex2 i).child_indices = []) ∧
      (nd ex2 0).parent_index = -1) ∧
      (∀ i < ex2.length,
        (nd ex2 i).text_nodes_count = subtree_text_count ex2.length ex2 i)) ∧
    ((∀ e ∈ (check_matching ex2.length ex2 ex2 0 0).2, e.1 ≠ 0 →
      (e.1 ∈ (nd (cross_tree ex2 ex2)
          (nd ex2 e.1).parent_index.toNat).child_indices ↔ 0 < e.2)) ∧
    ((∀ x, Reachable ex2 x → 0 < (nd ex2 x).text_nodes_count) →
      ∀ x, Reachable (cross_tree ex2 ex2) x ↔ Reachable ex2 x)) :=
  ⟨⟨⟨by decide, by decide, by decide, by decide, by decide, by decide⟩, by decide⟩,
    intersect_keep_iff ex2 ex2
      (WFT_of_dec ex2 (by decide) (by decide) (by decide) (by decide) (by decide)
        (by decide))
      (by decide)⟩

end Claim2

section Claim8Defs

/-- `__TAGS_TO_SKIP`. -/
def TAGS_TO_SKIP : List String :=
  ["script", "none", "meta", "link", "iframe", "style", "object", "noscript"]

/-- `__BLOCK_TAGS`. -/
def BLOCK_TAGS : List String :=
  ["address", "applet", "blockquote", "body", "button", "center", "dd", "del",
   "dir", "div", "dl", "dt", "fieldset", "form", "frameset", "h1", "h2", "h3",
   "h4", "h5", "h6", "head", "hr", "html", "iframe", "ins", "isindex", "li",
   "link", "map", "menu", "meta", "noframes", "noscript", "object", "ol", "p",
   "pre", "script", "style", "table", "tbody", "td", "tfoot", "th", "thead",
   "title", "tr", "ul"]

/-- `__LINK_TAGS`. -/
def LINK_TAGS : List String := ["a"]

/-- Python's default whitespace for `str.strip`, on the characters that occur
in this embedding. -/
def isSpace (c : Char) : Bool := c = ' ' || c = '\t' || c = '\n' || c = '\r'

/-- `str.strip()`. -/
def pyStrip (s : List Char) : List Char :=
  ((s.dropWhile isSpace).reverse.dropWhile isSpace).reverse

/-- A string with neither leading nor trailing whitespace. -/
def Stripped (s : List Char) : Prop :=
  s.dropWhile isSpace = s ∧ s.reverse.dropWhile isSpace = s.reverse

/-- `" ".join([a, b]).strip()`. -/
def join_strip (a b : List Char) : List Char := pyStrip (a ++ ' ' :: b)

/-- A parsed markup element as `__translate_tree` consumes it: the (already
lower-cased, namespace-free) tag name, the class list, the raw link attribute,
the element's leading text, its child elements, and its tail text. -/
inductive LNode where
  | mk (tag : String) (style_classes : List String) (link : String)
      (text : List Char) (children : List LNode) (tail : List Char)

/-- `__get_link_url`: the link attribute is kept only on link tags. -/
def get_link_url (tag link : String) : String :=
  if LINK_TAGS.contains tag then link else ""

/-- `__split_mark_zones`: unfinished zones are closed at `text_length` for the
current node and restarted at 0 for the followers; zones of length 0 are not
attached. -/
def split_mark_zones : List MarkZone → Nat → List MarkZone × List MarkZone
  | [], _ => ([], [])
  | z :: rest, text_length =>
    let r := split_mark_zones rest text_length
    if z.length = -1 then
      let z2 := { z with length := (text_length : Int) - (z.start : Int) }
      (if z2.length ≠ 0 then z2 :: r.1 else r.1, { z with start := 0 } :: r.2)
    else
      (if z.length ≠ 0 then z :: r.1 else r.1, r.2)

/-- The zone-closing loop at the end of the inline branch of
`__translate_tree`: walk the zones from the end and close the last still-open
zone at the current buffer length; `none` when no open zone is left (the
`add_len` branch that `break`s). -/
def close_last : List MarkZone → Nat → Option (List MarkZone)
  | [], _ => none
  | z :: rest, L =>
    match close_last rest L with
    | some rest2 => some (z :: rest2)
    | none =>
      if z.length = -1 then
        some ({ z with length := (L : Int) - (z.start : Int) } :: rest)
      else none

/-- `self.append(child_node); self[parent_index].child_indices.append(len(self) - 1)`. -/
def append_child (acc : Tree) (parent : Nat) (node : Node) : Tree :=
  let acc2 := acc ++ [node]
  acc2.set parent
    { nd acc2 parent with
        child_indices := (nd acc2 parent).child_indices ++ [acc.length] }

/-- The flush at the top of `__translate_tree`'s loop body: when text has
accumulated and a block (or skipped) element starts, attach the buffered text
as a node under `parent` with its closed zones, and carry the reopened zones. -/
def tn_flush (parent : Nat) (is_block to_skip : Bool)
    (st : Tree × List Char × List MarkZone) : Tree × List Char × List MarkZone :=
  if st.2.1 ≠ [] ∧ (is_block || to_skip) = true then
    (append_child st.1 parent
      { text := st.2.1, parent_index := (parent : Int),
        mark_zones := (split_mark_zones st.2.2 st.2.1.length).1 },
      ([] : List Char), (split_mark_zones st.2.2 st.2.1.length).2)
  else st

/-- The tail handling at the end of `__translate_tree`'s loop body. -/
def tn_post (tail : List Char) (st : Tree × List Char × List MarkZone) :
    Tree × List Char × List MarkZone :=
  (st.1, join_strip st.2.1 (pyStrip tail), st.2.2)

mutual

/-- One iteration of `__translate_tree`'s loop body for a single element
(fuel-bounded; any fuel at least the element count reproduces the Python
recursion).  The `Bool` is the `break` triggered when no zone can be closed. -/
def translate_node : Nat → LNode → Nat → Tree → List Char → List MarkZone →
    Tree × List Char × List MarkZone × Bool
  | 0, _, _, acc, tb, zs => (acc, tb, zs, false)
  | fuel+1, LNode.mk tag classes link text children tail, parent, acc, tb, zs =>
    let is_block := BLOCK_TAGS.contains tag
    let to_skip := TAGS_TO_SKIP.contains tag
    let s1 := tn_flush parent is_block to_skip (acc, tb, zs)
    if is_block = true ∧ ¬ to_skip = true then
      let node_index := s1.1.length
      let acc2 := append_child s1.1 parent
        { tag := tag, style_classes := classes, parent_index := (parent : Int) }
      let rb := translate_list fuel children node_index acc2 (pyStrip text) s1.2.2
      let s2 :=
        if rb.2.1 ≠ [] then
          (append_child rb.1 node_index
            { text := rb.2.1, parent_index := (node_index : Int),
              mark_zones := (split_mark_zones rb.2.2 s1.2.1.length).1 },
            s1.2.1, (split_mark_zones rb.2.2 s1.2.1.length).2)
        else (rb.1, s1.2.1, rb.2.2)
      (s2.1, join_strip s2.2.1 (pyStrip tail), s2.2.2, false)
    else if ¬ to_skip = true then
      let zone : MarkZone :=
        { start := s1.2.1.length, length := -1, tag := tag,
          style_classes := classes, link := get_link_url tag link }
      let ri := translate_list fuel children parent s1.1
        (join_strip s1.2.1 (pyStrip text)) (s1.2.2 ++ [zone])
      match close_last ri.2.2 ri.2.1.length with
      | none => (ri.1, ri.2.1, ri.2.2, true)
      | some zs4 => (ri.1, join_strip ri.2.1 (pyStrip tail), zs4, false)
    else
      (s1.1, join_strip s1.2.1 (pyStrip tail), s1.2.2, false)

/-- `__translate_tree`'s loop over a sibling list. -/
def translate_list : Nat → List LNode → Nat → Tree → List Char → List MarkZone →
    Tree × List Char × List MarkZone
  | 0, _, _, acc, tb, zs => (acc, tb, zs)
  | _+1, [], _, acc, tb, zs => (acc, tb, zs)
  | fuel+1, n :: rest, parent, acc, tb, zs =>
    let r := translate_node fuel n parent acc tb zs
    if r.2.2.2 = true then (r.1, r.2.1, r.2.2.1)
    else translate_list fuel rest parent r.1 r.2.1 r.2.2.1

end

/-- `__load`: a fresh root node, the tree translation, the recount and the
prune pass. -/
def load_tree (fuel : Nat) (root : LNode) : Tree :=
  let r := translate_list fuel [root] 0 [{ tag := "root" }] [] []
  let t2 := (count_texts_in_nodes r.1.length r.1 0).1
  unlink_text_free_nodes t2

end Claim8Defs

section Claim8Strings

theorem dropWhile_head_false {p : Char → Bool} {h : Char} {t : List Char}
    (he : List.dropWhile p (h :: t) = h :: t) : p h = false := by
  by_cases hp : p h = true
  · rw [List.dropWhile_cons, if_pos hp] at he
    have hle : (List.dropWhile p t).length ≤ t.length :=
      (List.dropWhile_suffix p).length_le
    rw [he] at hle
    simp only [List.length_cons] at hle
    omega
  · revert hp
    cases p h <;> simp

theorem dropWhile_fixed_prefix {p : Char → Bool} :
    ∀ {l l' : List Char}, List.dropWhile p l = l → l' <+: l →
      List.dropWhile p l' = l' := by
  intro l l' hl hpre
  cases l' with
  | nil => rfl
  | cons h t =>
    obtain ⟨r, hr⟩ := hpre
    rw [← hr, List.cons_append] at hl
    have hph : p h = false := dropWhile_head_false hl
    rw [List.dropWhile_cons, if_neg (by rw [hph]; exact Bool.false_ne_true)]

theorem dropWhile_idem {p : Char → Bool} (l : List Char) :
    List.dropWhile p (List.dropWhile p l) = List.dropWhile p l := by
  induction l with
  | nil => rfl
  | cons h t ih =>
    rw [List.dropWhile_cons]
    by_cases hp : p h = true
    · rw [if_pos hp]
      exact ih
    · rw [if_neg hp, List.dropWhile_cons, if_neg hp]

theorem Stripped_nil : Stripped [] := ⟨rfl, rfl⟩

theorem Stripped_pyStrip (s : List Char) : Stripped (pyStrip s) := by
  unfold pyStrip Stripped
  constructor
  · apply dropWhile_fixed_prefix (l := s.dropWhile isSpace)
    · exact dropWhile_idem s
    · conv_rhs => rw [← List.reverse_reverse (List.dropWhile isSpace s)]
      rw [List.reverse_prefix]
      exact List.dropWhile_suffix isSpace
  · rw [List.reverse_reverse]
    exact dropWhile_idem _

theorem join_strip_stripped (a b : List Char) : Stripped (join_strip a b) :=
  Stripped_pyStrip _

theorem join_strip_length (a b : List Char) (ha : Stripped a) :
    a.length ≤ (join_strip a b).length := by
  cases a with
  | nil => exact Nat.zero_le _
  | cons h t =>
    unfold join_strip pyStrip
    have hph : isSpace h = false := dropWhile_head_false ha.1
    have h1 : List.dropWhile isSpace ((h :: t) ++ ' ' :: b) = (h :: t) ++ ' ' :: b := by
      rw [List.cons_append, List.dropWhile_cons,
        if_neg (by rw [hph]; exact Bool.false_ne_true)]
    rw [h1, List.reverse_append, List.dropWhile_append]
    by_cases he : (List.dropWhile isSpace (' ' :: b).reverse).isEmpty = true
    · rw [if_pos he, ha.2, List.reverse_reverse]
    · rw [if_neg he]
      simp only [List.length_reverse, List.length_append, List.length_cons]
      omega

end Claim8Strings

section Claim8Zones

/-- The C8 validity property on all stored mark zones of an arena. -/
def GOODZ (s : Tree) : Prop :=
  ∀ q, ∀ z ∈ (nd s q).mark_zones,
    0 < z.length ∧ z.start + z.length.toNat ≤ (nd s q).text.length

/-- The loop invariant relating the carried zones to the text buffer: open
zones start within the buffer, closed zones lie within it. -/
def TINVZ (L : Nat) (zs : List MarkZone) : Prop :=
  ∀ z ∈ zs, (z.length = -1 → z.start ≤ L) ∧
    (z.length ≠ -1 → 0 ≤ z.length ∧ z.start + z.length.toNat ≤ L)

/-- The starts of the still-open zones, in order. -/
def unfStarts (zs : List MarkZone) : List Nat :=
  (zs.filter (fun z => z.length = -1)).map (fun z => z.start)

/-- Pointwise refinement of the open-zone starts: each start is kept or was
reset to 0 by a flush. -/
def ZR (a b : List Nat) : Prop := List.Forall₂ (fun s2 s1 => s2 = s1 ∨ s2 = 0) a b

theorem TINVZ_mono {L L' : Nat} (h : L ≤ L') {zs : List MarkZone}
    (ht : TINVZ L zs) : TINVZ L' zs := by
  intro z hz
  obtain ⟨h1, h2⟩ := ht z hz
  refine ⟨fun hu => le_trans (h1 hu) h, fun hf => ?_⟩
  obtain ⟨h3, h4⟩ := h2 hf
  omega

theorem TINVZ_nil (L : Nat) : TINVZ L [] :=
  fun z hz => absurd hz (List.not_mem_nil z)

theorem ZR_refl (l : List Nat) : ZR l l :=
  List.forall₂_same.mpr (fun _ _ => Or.inl rfl)

theorem ZR_trans : ∀ {a b c : List Nat}, ZR a b → ZR b c → ZR a c := by
  intro a b c h1
  induction h1 generalizing c with
  | nil =>
    intro h2
    cases h2
    exact List.Forall₂.nil
  | @cons x y as bs hxy _ ih =>
    intro h2
    cases h2 with
    | cons hyc h2t =>
      refine List.Forall₂.cons ?_ (ih h2t)
      rcases hxy with rfl | rfl
      · exact hyc
      · exact Or.inr rfl

theorem ZR_zero_right : ∀ (a : List Nat) {b : List Nat}, ZR a b →
    (∀ x ∈ b, x = 0) → ∀ x ∈ a, x = 0 := by
  intro a
  induction a with
  | nil =>
    intro b _ _ x hx
    exact absurd hx (List.not_mem_nil x)
  | cons x0 as ih =>
    intro b h hb x hx
    cases b with
    | nil => cases h
    | cons y0 bs =>
      cases h with
      | cons hxy ht =>
        rcases List.mem_cons.mp hx with rfl | hx2
        · rcases hxy with rfl | h0
          · exact hb x (List.mem_cons_self x bs)
          · exact h0
        · exact ih ht (fun w hw => hb w (List.mem_cons_of_mem y0 hw)) x hx2

theorem ZR_dropLast : ∀ (a : List Nat) {b : List Nat}, ZR a b →
    ZR a.dropLast b.dropLast := by
  intro a
  induction a with
  | nil =>
    intro b h
    cases h
    exact List.Forall₂.nil
  | cons x as ih =>
    intro b h
    cases b with
    | nil => cases h
    | cons y bs =>
      cases h with
      | cons hxy ht =>
        cases as with
        | nil =>
          cases ht
          exact List.Forall₂.nil
        | cons x2 as2 =>
          cases bs with
          | nil => cases ht
          | cons y2 bs2 =>
            have h1 : (x :: x2 :: as2).dropLast = x :: (x2 :: as2).dropLast :=
              List.dropLast_cons_of_ne_nil (by simp)
            have h2 : (y :: y2 :: bs2).dropLast = y :: (y2 :: bs2).dropLast :=
              List.dropLast_cons_of_ne_nil (by simp)
            rw [h1, h2]
            exact List.Forall₂.cons hxy (ih ht)

theorem unfStarts_nil : unfStarts [] = [] := rfl

theorem unfStarts_cons_unf (z : MarkZone) (rest : List MarkZone)
    (hu : z.length = -1) :
    unfStarts (z :: rest) = z.start :: unfStarts rest := by
  unfold unfStarts
  rw [List.filter_cons, if_pos (by simp [hu]), List.map_cons]

theorem unfStarts_cons_fin (z : MarkZone) (rest : List MarkZone)
    (hu : ¬ z.length = -1) :
    unfStarts (z :: rest) = unfStarts rest := by
  unfold unfStarts
  rw [List.filter_cons, if_neg (by simp [hu])]

theorem unfStarts_append (a b : List MarkZone) :
    unfStarts (a ++ b) = unfStarts a ++ unfStarts b := by
  unfold unfStarts
  rw [List.filter_append, List.map_append]

theorem split_cons_unf (z : MarkZone) (rest : List MarkZone) (L : Nat)
    (hu : z.length = -1) :
    split_mark_zones (z :: rest) L =
      (if (L : Int) - (z.start : Int) ≠ 0 then
          { z with length := (L : Int) - (z.start : Int) } ::
            (split_mark_zones rest L).1
        else (split_mark_zones rest L).1,
       { z with start := 0 } :: (split_mark_zones rest L).2) := by
  simp only [split_mark_zones]
  rw [if_pos hu]

theorem split_cons_fin (z : MarkZone) (rest : List MarkZone) (L : Nat)
    (hu : ¬ z.length = -1) :
    split_mark_zones (z :: rest) L =
      (if z.length ≠ 0 then z :: (split_mark_zones rest L).1
        else (split_mark_zones rest L).1,
       (split_mark_zones rest L).2) := by
  simp only [split_mark_zones]
  rw [if_neg hu]

/-- Attached zones of a split are positive and fit within `Lv`, provided the
open starts are within the split length `Ls ≤ Lv` and closed zones fit `Lv`. -/
theorem split_for_node_valid :
    ∀ (zs : List MarkZone) (Ls Lv : Nat),
      (∀ z ∈ zs, z.length = -1 → z.start ≤ Ls) →
      (∀ z ∈ zs, z.length ≠ -1 → 0 ≤ z.length ∧ z.start + z.length.toNat ≤ Lv) →
      Ls ≤ Lv →
      ∀ z2 ∈ (split_mark_zones zs Ls).1,
        0 < z2.length ∧ z2.start + z2.length.toNat ≤ Lv := by
  intro zs
  induction zs with
  | nil =>
    intro Ls Lv _ _ _ z2 h2
    exact absurd h2 (List.not_mem_nil z2)
  | cons z rest ih =>
    intro Ls Lv hA hB hle z2 h2
    have ihr := ih Ls Lv (fun w hw => hA w (List.mem_cons_of_mem z hw))
      (fun w hw => hB w (List.mem_cons_of_mem z hw)) hle
    by_cases hu : z.length = -1
    · rw [split_cons_unf z rest Ls hu] at h2
      have hs := hA z (List.mem_cons_self z rest) hu
      by_cases hnz : (Ls : Int) - (z.start : Int) ≠ 0
      · rw [if_pos hnz] at h2
        rcases List.mem_cons.mp h2 with rfl | h3
        · constructor
          · show (0 : Int) < (Ls : Int) - (z.start : Int)
            omega
          · show z.start + ((Ls : Int) - (z.start : Int)).toNat ≤ Lv
            omega
        · exact ihr z2 h3
      · rw [if_neg hnz] at h2
        exact ihr z2 h2
    · rw [split_cons_fin z rest Ls hu] at h2
      by_cases hnz : z.length ≠ 0
      · rw [if_pos hnz] at h2
        rcases List.mem_cons.mp h2 with rfl | h3
        · obtain ⟨hb1, hb2⟩ := hB z2 (List.mem_cons_self z2 rest) hu
          exact ⟨by omega, hb2⟩
        · exact ihr z2 h3
      · rw [if_neg hnz] at h2
        exact ihr z2 h2

theorem split_followers :
    ∀ (zs : List MarkZone) (L : Nat), ∀ z2 ∈ (split_mark_zones zs L).2,
      z2.length = -1 ∧ z2.start = 0 := by
  intro zs
  induction zs with
  | nil =>
    intro L z2 h2
    exact absurd h2 (List.not_mem_nil z2)
  | cons z rest ih =>
    intro L z2 h2
    by_cases hu : z.length = -1
    · rw [split_cons_unf z rest L hu] at h2
      rcases List.mem_cons.mp h2 with rfl | h3
      · exact ⟨hu, rfl⟩
      · exact ih L z2 h3
    · rw [split_cons_fin z rest L hu] at h2
      exact ih L z2 h2

theorem split_followers_TINV (zs : List MarkZone) (L L' : Nat) :
    TINVZ L' (split_mark_zones zs L).2 := by
  intro z2 h2
  obtain ⟨hl, hs⟩ := split_followers zs L z2 h2
  constructor
  · intro _
    rw [hs]
    exact Nat.zero_le _
  · intro hne
    exact absurd hl hne

theorem split_followers_ZR :
    ∀ (zs : List MarkZone) (L : Nat),
      ZR (unfStarts (split_mark_zones zs L).2) (unfStarts zs) := by
  intro zs
  induction zs with
  | nil => exact fun L => List.Forall₂.nil
  | cons z rest ih =>
    intro L
    by_cases hu : z.length = -1
    · rw [split_cons_unf z rest L hu]
      show ZR (unfStarts ({ z with start := 0 } :: (split_mark_zones rest L).2))
        (unfStarts (z :: rest))
      rw [unfStarts_cons_unf { z with start := 0 } ((split_mark_zones rest L).2) hu,
        unfStarts_cons_unf z rest hu]
      exact List.Forall₂.cons (Or.inr rfl) (ih L)
    · rw [split_cons_fin z rest L hu]
      show ZR (unfStarts (split_mark_zones rest L).2) (unfStarts (z :: rest))
      rw [unfStarts_cons_fin z rest hu]
      exact ih L

theorem close_last_none (L : Nat) :
    ∀ zs, close_last zs L = none → unfStarts zs = [] := by
  intro zs
  induction zs with
  | nil =>
    intro _
    rfl
  | cons z rest ih =>
    intro h
    unfold close_last at h
    cases hr : close_last rest L with
    | some r2 =>
      rw [hr] at h
      exact absurd h (by simp)
    | none =>
      rw [hr] at h
      by_cases hu : z.length = -1
      · rw [if_pos hu] at h
        exact absurd h (by simp)
      · rw [unfStarts_cons_fin z rest hu]
        exact ih hr

/-- What the closing loop does: every output zone is an input zone or the
closed form of an open input zone, and exactly the last open start is
removed. -/
theorem close_last_spec (L : Nat) :
    ∀ (zs zs' : List MarkZone), close_last zs L = some zs' →
      (∀ z2 ∈ zs', z2 ∈ zs ∨ ∃ z ∈ zs, z.length = -1 ∧
        z2 = { z with length := (L : Int) - (z.start : Int) }) ∧
      ((∀ z ∈ zs, z.length = -1 → z.start ≤ L) →
        unfStarts zs' = (unfStarts zs).dropLast) ∧
      unfStarts zs ≠ [] := by
  intro zs
  induction zs with
  | nil =>
    intro zs' h
    exact absurd h (by simp [close_last])
  | cons z rest ih =>
    intro zs' h
    unfold close_last at h
    cases hr : close_last rest L with
    | some r2 =>
      rw [hr] at h
      have hz' : zs' = z :: r2 := by
        injection h with h2
        exact h2.symm
      subst hz'
      obtain ⟨k1, k2, k3⟩ := ih r2 hr
      refine ⟨?_, ?_, ?_⟩
      · intro z2 h2
        rcases List.mem_cons.mp h2 with rfl | h3
        · exact Or.inl (List.mem_cons_self _ _)
        · rcases k1 z2 h3 with h4 | ⟨w, hw, hw2, hw3⟩
          · exact Or.inl (List.mem_cons_of_mem z h4)
          · exact Or.inr ⟨w, List.mem_cons_of_mem z hw, hw2, hw3⟩
      · intro hA
        have k2' := k2 (fun w hw hwu => hA w (List.mem_cons_of_mem z hw) hwu)
        by_cases hu : z.length = -1
        · rw [unfStarts_cons_unf z r2 hu, unfStarts_cons_unf z rest hu, k2',
            List.dropLast_cons_of_ne_nil k3]
        · rw [unfStarts_cons_fin z r2 hu, unfStarts_cons_fin z rest hu, k2']
      · by_cases hu : z.length = -1
        · rw [unfStarts_cons_unf z rest hu]
          simp
        · rw [unfStarts_cons_fin z rest hu]
          exact k3
    | none =>
      rw [hr] at h
      by_cases hu : z.length = -1
      · rw [if_pos hu] at h
        have hz' : zs' = { z with length := (L : Int) - (z.start : Int) } :: rest := by
          injection h with h2
          exact h2.symm
        subst hz'
        have hrest := close_last_none L rest hr
        refine ⟨?_, ?_, ?_⟩
        · intro z2 h2
          rcases List.mem_cons.mp h2 with rfl | h3
          · exact Or.inr ⟨z, List.mem_cons_self z rest, hu, rfl⟩
          · exact Or.inl (List.mem_cons_of_mem z h3)
        · intro hA
          have hs := hA z (List.mem_cons_self z rest) hu
          have hfin : ¬ ({ z with length := (L : Int) - (z.start : Int) } :
              MarkZone).length = -1 := by
            show ¬ (L : Int) - (z.start : Int) = -1
            omega
          rw [unfStarts_cons_fin _ rest hfin, unfStarts_cons_unf z rest hu,
            hrest]
          rfl
        · rw [unfStarts_cons_unf z rest hu]
          simp
      · rw [if_neg hu] at h
        exact absurd h (by simp)

end Claim8Zones

section Claim8Arena

theorem nd_append_lt (acc : Tree) (node : Node) (q : Nat) (h : q < acc.length) :
    nd (acc ++ [node]) q = nd acc q := by
  unfold nd
  rw [List.getD_eq_getElem?_getD, List.getD_eq_getElem?_getD, List.getElem?_append,
    if_pos h]

theorem nd_append_eq (acc : Tree) (node : Node) :
    nd (acc ++ [node]) acc.length = node := by
  unfold nd
  rw [List.getD_eq_getElem?_getD, List.getElem?_append, if_neg (lt_irrefl _),
    Nat.sub_self]
  rfl

/-- `append_child` only edits the parent's child list besides the new node. -/
theorem nd_append_child (acc : Tree) (parent : Nat) (node : Node) (q : Nat) :
    (nd (append_child acc parent node) q).mark_zones =
      (nd (acc ++ [node]) q).mark_zones ∧
    (nd (append_child acc parent node) q).text = (nd (acc ++ [node]) q).text := by
  unfold append_child
  rw [nd_set]
  by_cases h : parent = q ∧ parent < (acc ++ [node]).length
  · obtain ⟨rfl, hp⟩ := h
    rw [if_pos ⟨rfl, hp⟩]
    exact ⟨rfl, rfl⟩
  · rw [if_neg h]
    exact ⟨rfl, rfl⟩

theorem GOODZ_append_child (acc : Tree) (parent : Nat) (node : Node)
    (hg : GOODZ acc)
    (hn : ∀ z ∈ node.mark_zones,
      0 < z.length ∧ z.start + z.length.toNat ≤ node.text.length) :
    GOODZ (append_child acc parent node) := by
  intro q z hz
  rw [(nd_append_child acc parent node q).1] at hz
  rw [(nd_append_child acc parent node q).2]
  by_cases hq : q < acc.length
  · rw [nd_append_lt acc node q hq] at hz ⊢
    exact hg q z hz
  · by_cases hq2 : q = acc.length
    · subst hq2
      rw [nd_append_eq acc node] at hz ⊢
      exact hn z hz
    · have hoob : (acc ++ [node]).length ≤ q := by
        rw [List.length_append]
        simp only [List.length_cons, List.length_nil]
        omega
      rw [nd_oob (acc ++ [node]) q hoob] at hz
      exact absurd hz (List.not_mem_nil z)

theorem set_count_keeps (s : Tree) (i n q : Nat) :
    (nd (set_count s i n) q).mark_zones = (nd s q).mark_zones ∧
    (nd (set_count s i n) q).text = (nd s q).text := by
  unfold set_count
  rw [nd_set]
  by_cases h : i = q ∧ i < s.length
  · obtain ⟨rfl, hp⟩ := h
    rw [if_pos ⟨rfl, hp⟩]
    exact ⟨rfl, rfl⟩
  · rw [if_neg h]
    exact ⟨rfl, rfl⟩

theorem count_texts_keeps : ∀ (fuel : Nat) (s : Tree) (i q : Nat),
    (nd (count_texts_in_nodes fuel s i).1 q).mark_zones = (nd s q).mark_zones ∧
    (nd (count_texts_in_nodes fuel s i).1 q).text = (nd s q).text := by
  intro fuel
  induction fuel with
  | zero => exact fun s i q => ⟨rfl, rfl⟩
  | succ f ih =>
    intro s i q
    by_cases ht : (nd s i).text ≠ []
    · rw [count_texts_text f s i ht]
      exact set_count_keeps s i 1 q
    · have hfold : ∀ (cs : List Nat) (a : Tree) (n : Nat),
          (nd (cs.foldl (fun (acc : Tree × Nat) c =>
            ((count_texts_in_nodes f acc.1 c).1,
              acc.2 + (count_texts_in_nodes f acc.1 c).2)) (a, n)).1 q).mark_zones =
            (nd a q).mark_zones ∧
          (nd (cs.foldl (fun (acc : Tree × Nat) c =>
            ((count_texts_in_nodes f acc.1 c).1,
              acc.2 + (count_texts_in_nodes f acc.1 c).2)) (a, n)).1 q).text =
            (nd a q).text := by
        intro cs
        induction cs with
        | nil => exact fun a n => ⟨rfl, rfl⟩
        | cons c cs2 ihc =>
          intro a n
          simp only [List.foldl_cons]
          obtain ⟨m1, m2⟩ := ihc (count_texts_in_nodes f a c).1
            (n + (count_texts_in_nodes f a c).2)
          obtain ⟨k1, k2⟩ := ih a c q
          exact ⟨m1.trans k1, m2.trans k2⟩
      obtain ⟨R, hR⟩ : ∃ R, (nd s i).child_indices.foldl
          (fun (acc : Tree × Nat) c =>
            ((count_texts_in_nodes f acc.1 c).1,
              acc.2 + (count_texts_in_nodes f acc.1 c).2)) (set_count s i 0, 0) = R :=
        ⟨_, rfl⟩
      rw [count_texts_nontext f s i ht R hR]
      obtain ⟨f1, f2⟩ := hfold (nd s i).child_indices (set_count s i 0) 0
      rw [hR] at f1 f2
      obtain ⟨g1, g2⟩ := set_count_keeps R.1 i R.2 q
      obtain ⟨e1, e2⟩ := set_count_keeps s i 0 q
      exact ⟨g1.trans (f1.trans e1), g2.trans (f2.trans e2)⟩

theorem erase_child_keeps (t : Tree) (p c q : Nat) :
    (nd (erase_child t p c) q).mark_zones = (nd t q).mark_zones ∧
    (nd (erase_child t p c) q).text = (nd t q).text := by
  rw [nd_erase_child]
  by_cases h : p = q ∧ p < t.length
  · obtain ⟨rfl, hp⟩ := h
    rw [if_pos ⟨rfl, hp⟩]
    exact ⟨rfl, rfl⟩
  · rw [if_neg h]
    exact ⟨rfl, rfl⟩

theorem unlink_keeps (t : Tree) (q : Nat) :
    (nd (unlink_text_free_nodes t) q).mark_zones = (nd t q).mark_zones ∧
    (nd (unlink_text_free_nodes t) q).text = (nd t q).text := by
  unfold unlink_text_free_nodes
  have key : ∀ (l : List Nat) (acc : Tree),
      (nd (l.foldl prune_step acc) q).mark_zones = (nd acc q).mark_zones ∧
      (nd (l.foldl prune_step acc) q).text = (nd acc q).text := by
    intro l
    induction l with
    | nil => exact fun acc => ⟨rfl, rfl⟩
    | cons i l2 ihl =>
      intro acc
      rw [List.foldl_cons]
      obtain ⟨m1, m2⟩ := ihl (prune_step acc i)
      have hstep : (nd (prune_step acc i) q).mark_zones = (nd acc q).mark_zones ∧
          (nd (prune_step acc i) q).text = (nd acc q).text := by
        unfold prune_step
        split
        · exact erase_child_keeps ..
        · exact ⟨rfl, rfl⟩
      exact ⟨m1.trans hstep.1, m2.trans hstep.2⟩
  exact key (List.range t.length) t

end Claim8Arena

section Claim8Steps

theorem mem_unfStarts {z : MarkZone} {zs : List MarkZone} (hz : z ∈ zs)
    (hu : z.length = -1) : z.start ∈ unfStarts zs := by
  unfold unfStarts
  exact List.mem_map_of_mem _ (List.mem_filter.mpr ⟨hz, by simp [hu]⟩)

theorem unfStarts_mem {zs : List MarkZone} {x : Nat} (hx : x ∈ unfStarts zs) :
    ∃ z ∈ zs, z.length = -1 ∧ z.start = x := by
  unfold unfStarts at hx
  obtain ⟨z, hz, hzx⟩ := List.mem_map.mp hx
  obtain ⟨hz2, hz3⟩ := List.mem_filter.mp hz
  exact ⟨z, hz2, by simpa using hz3, hzx⟩

/-- When a block or skipped tag starts, the flushed buffer is empty. -/
theorem tn_flush_empties (parent : Nat) (is_block to_skip : Bool)
    (hb : (is_block || to_skip) = true) (st : Tree × List Char × List MarkZone) :
    (tn_flush parent is_block to_skip st).2.1 = [] := by
  unfold tn_flush
  by_cases hne : st.2.1 ≠ []
  · rw [if_pos ⟨hne, hb⟩]
  · rw [if_neg (fun hc => hne hc.1)]
    exact not_ne_iff.mp hne

/-- Inline tags never flush. -/
theorem tn_flush_id (parent : Nat) (is_block to_skip : Bool)
    (hb : (is_block || to_skip) = false) (st : Tree × List Char × List MarkZone) :
    tn_flush parent is_block to_skip st = st := by
  unfold tn_flush
  rw [if_neg (fun hc => by rw [hb] at hc; exact Bool.false_ne_true hc.2)]

/-- The flush preserves the loop invariant pack. -/
theorem tn_flush_inv (parent : Nat) (is_block to_skip : Bool)
    (acc : Tree) (tb : List Char) (zs : List MarkZone)
    (hg : GOODZ acc) (hs : Stripped tb) (ht : TINVZ tb.length zs) :
    GOODZ (tn_flush parent is_block to_skip (acc, tb, zs)).1 ∧
    Stripped (tn_flush parent is_block to_skip (acc, tb, zs)).2.1 ∧
    TINVZ (tn_flush parent is_block to_skip (acc, tb, zs)).2.1.length
      (tn_flush parent is_block to_skip (acc, tb, zs)).2.2 ∧
    ZR (unfStarts (tn_flush parent is_block to_skip (acc, tb, zs)).2.2)
      (unfStarts zs) := by
  unfold tn_flush
  by_cases hc : (acc, tb, zs).2.1 ≠ [] ∧ (is_block || to_skip) = true
  · rw [if_pos hc]
    refine ⟨?_, Stripped_nil, ?_, ?_⟩
    · refine GOODZ_append_child _ _ _ hg ?_
      intro z hz
      refine split_for_node_valid zs tb.length tb.length ?_ ?_ (le_refl _) z hz
      · exact fun w hw => (ht w hw).1
      · exact fun w hw => (ht w hw).2
    · exact split_followers_TINV zs tb.length 0
    · exact split_followers_ZR zs tb.length
  · rw [if_neg hc]
    exact ⟨hg, hs, ht, ZR_refl _⟩

theorem tn_step_block_text (f : Nat) (tag : String) (classes : List String)
    (link : String) (text : List Char) (children : List LNode) (tail : List Char)
    (parent : Nat) (acc : Tree) (tb : List Char) (zs : List MarkZone)
    (hb : BLOCK_TAGS.contains tag = true) (hsk : TAGS_TO_SKIP.contains tag = false)
    (s1 : Tree × List Char × List MarkZone)
    (hs1 : tn_flush parent (BLOCK_TAGS.contains tag) (TAGS_TO_SKIP.contains tag)
      (acc, tb, zs) = s1)
    (rb : Tree × List Char × List MarkZone)
    (hrb : translate_list f children s1.1.length
      (append_child s1.1 parent
        { tag := tag, style_classes := classes, parent_index := (parent : Int) })
      (pyStrip text) s1.2.2 = rb)
    (hne : rb.2.1 ≠ []) :
    translate_node (f+1) (LNode.mk tag classes link text children tail) parent
        acc tb zs =
      (append_child rb.1 s1.1.length
        { text := rb.2.1, parent_index := (s1.1.length : Int),
          mark_zones := (split_mark_zones rb.2.2 s1.2.1.length).1 },
       join_strip s1.2.1 (pyStrip tail),
       (split_mark_zones rb.2.2 s1.2.1.length).2, false) := by
  subst hs1 hrb
  simp only [translate_node]
  rw [if_pos ⟨hb, by rw [hsk]; exact Bool.false_ne_true⟩, if_pos hne]

theorem tn_step_block_notext (f : Nat) (tag : String) (classes : List String)
    (link : String) (text : List Char) (children : List LNode) (tail : List Char)
    (parent : Nat) (acc : Tree) (tb : List Char) (zs : List MarkZone)
    (hb : BLOCK_TAGS.contains tag = true) (hsk : TAGS_TO_SKIP.contains tag = false)
    (s1 : Tree × List Char × List MarkZone)
    (hs1 : tn_flush parent (BLOCK_TAGS.contains tag) (TAGS_TO_SKIP.contains tag)
      (acc, tb, zs) = s1)
    (rb : Tree × List Char × List MarkZone)
    (hrb : translate_list f children s1.1.length
      (append_child s1.1 parent
        { tag := tag, style_classes := classes, parent_index := (parent : Int) })
      (pyStrip text) s1.2.2 = rb)
    (hne : ¬ rb.2.1 ≠ []) :
    translate_node (f+1) (LNode.mk tag classes link text children tail) parent
        acc tb zs =
      (rb.1, join_strip s1.2.1 (pyStrip tail), rb.2.2, false) := by
  subst hs1 hrb
  simp only [translate_node]
  rw [if_pos ⟨hb, by rw [hsk]; exact Bool.false_ne_true⟩, if_neg hne]

theorem tn_step_inline (f : Nat) (tag : String) (classes : List String)
    (link : String) (text : List Char) (children : List LNode) (tail : List Char)
    (parent : Nat) (acc : Tree) (tb : List Char) (zs : List MarkZone)
    (hnb : BLOCK_TAGS.contains tag = false)
    (hsk : TAGS_TO_SKIP.contains tag = false)
    (ri : Tree × List Char × List MarkZone)
    (hri : translate_list f children parent acc (join_strip tb (pyStrip text))
      (zs ++ [{ start := tb.length, length := -1, tag := tag,
                style_classes := classes, link := get_link_url tag link }]) = ri) :
    translate_node (f+1) (LNode.mk tag classes link text children tail) parent
        acc tb zs =
      (match close_last ri.2.2 ri.2.1.length with
       | none => (ri.1, ri.2.1, ri.2.2, true)
       | some zs4 => (ri.1, join_strip ri.2.1 (pyStrip tail), zs4, false)) := by
  subst hri
  simp only [translate_node]
  rw [if_neg (fun hc => by rw [hnb] at hc; exact Bool.false_ne_true hc.1),
    if_pos (by rw [hsk]; exact Bool.false_ne_true),
    tn_flush_id parent _ _ (by rw [hnb, hsk]; rfl)]

theorem tn_step_skip (f : Nat) (tag : String) (classes : List String)
    (link : String) (text : List Char) (children : List LNode) (tail : List Char)
    (parent : Nat) (acc : Tree) (tb : List Char) (zs : List MarkZone)
    (hsk : TAGS_TO_SKIP.contains tag = true)
    (s1 : Tree × List Char × List MarkZone)
    (hs1 : tn_flush parent (BLOCK_TAGS.contains tag) (TAGS_TO_SKIP.contains tag)
      (acc, tb, zs) = s1) :
    translate_node (f+1) (LNode.mk tag classes link text children tail) parent
        acc tb zs =
      (s1.1, join_strip s1.2.1 (pyStrip tail), s1.2.2, false) := by
  subst hs1
  simp only [translate_node]
  rw [if_neg (fun hc => by rw [hsk] at hc; exact hc.2 rfl),
    if_neg (fun hc => by rw [hsk] at hc; exact hc rfl)]

theorem tl_step (f : Nat) (n : LNode) (rest : List LNode) (parent : Nat)
    (acc : Tree) (tb : List Char) (zs : List MarkZone)
    (r : Tree × List Char × List MarkZone × Bool)
    (hr : translate_node f n parent acc tb zs = r) :
    translate_list (f+1) (n :: rest) parent acc tb zs =
      if r.2.2.2 = true then (r.1, r.2.1, r.2.2.1)
      else translate_list f rest parent r.1 r.2.1 r.2.2.1 := by
  subst hr
  simp only [translate_list]

end Claim8Steps

section Claim8Main

/-- The translation loop invariant: starting from an arena with valid zones, a
stripped text buffer and carried zones consistent with it, both loop forms
preserve all three, and refine the open-zone starts (each is kept or reset to
0 by a flush). -/
theorem translate_invariant : ∀ (fuel : Nat),
    (∀ (n : LNode) (parent : Nat) (acc : Tree) (tb : List Char)
        (zs : List MarkZone), GOODZ acc → Stripped tb → TINVZ tb.length zs →
      GOODZ (translate_node fuel n parent acc tb zs).1 ∧
      Stripped (translate_node fuel n parent acc tb zs).2.1 ∧
      TINVZ (translate_node fuel n parent acc tb zs).2.1.length
        (translate_node fuel n parent acc tb zs).2.2.1 ∧
      ZR (unfStarts (translate_node fuel n parent acc tb zs).2.2.1)
        (unfStarts zs)) ∧
    (∀ (l : List LNode) (parent : Nat) (acc : Tree) (tb : List Char)
        (zs : List MarkZone), GOODZ acc → Stripped tb → TINVZ tb.length zs →
      GOODZ (translate_list fuel l parent acc tb zs).1 ∧
      Stripped (translate_list fuel l parent acc tb zs).2.1 ∧
      TINVZ (translate_list fuel l parent acc tb zs).2.1.length
        (translate_list fuel l parent acc tb zs).2.2 ∧
      ZR (unfStarts (translate_list fuel l parent acc tb zs).2.2)
        (unfStarts zs)) := by
  intro fuel
  induction fuel with
  | zero =>
    constructor
    · intro n parent acc tb zs hg hs ht
      simp only [translate_node]
      exact ⟨hg, hs, ht, ZR_refl _⟩
    · intro l parent acc tb zs hg hs ht
      simp only [translate_list]
      exact ⟨hg, hs, ht, ZR_refl _⟩
  | succ f ih =>
    obtain ⟨ihn, ihl⟩ := ih
    constructor
    · intro n parent acc tb zs hg hs ht
      cases n with
      | mk tag classes link text children tail =>
        by_cases hsk : TAGS_TO_SKIP.contains tag = true
        · -- skipped tag: flush, drop the subtree, keep the tail
          obtain ⟨s1, hs1⟩ : ∃ s1, tn_flush parent (BLOCK_TAGS.contains tag)
              (TAGS_TO_SKIP.contains tag) (acc, tb, zs) = s1 := ⟨_, rfl⟩
          rw [tn_step_skip f tag classes link text children tail parent acc tb
            zs hsk s1 hs1]
          have hp : GOODZ s1.1 ∧ Stripped s1.2.1 ∧ TINVZ s1.2.1.length s1.2.2 ∧
              ZR (unfStarts s1.2.2) (unfStarts zs) := by
            rw [← hs1]
            exact tn_flush_inv parent _ _ acc tb zs hg hs ht
          obtain ⟨p1, p2, p3, p4⟩ := hp
          exact ⟨p1, join_strip_stripped _ _,
            TINVZ_mono (join_strip_length _ _ p2) p3, p4⟩
        · replace hsk : TAGS_TO_SKIP.contains tag = false :=
            Bool.not_eq_true _ ▸ hsk
          by_cases hbl : BLOCK_TAGS.contains tag = true
          · -- block tag: flush, recurse under a fresh node, attach the buffer
            obtain ⟨s1, hs1⟩ : ∃ s1, tn_flush parent (BLOCK_TAGS.contains tag)
                (TAGS_TO_SKIP.contains tag) (acc, tb, zs) = s1 := ⟨_, rfl⟩
            obtain ⟨rb, hrb⟩ : ∃ rb, translate_list f children s1.1.length
                (append_child s1.1 parent
                  { tag := tag, style_classes := classes,
                    parent_index := (parent : Int) })
                (pyStrip text) s1.2.2 = rb := ⟨_, rfl⟩
            have hp : GOODZ s1.1 ∧ Stripped s1.2.1 ∧
                TINVZ s1.2.1.length s1.2.2 ∧
                ZR (unfStarts s1.2.2) (unfStarts zs) := by
              rw [← hs1]
              exact tn_flush_inv parent _ _ acc tb zs hg hs ht
            obtain ⟨p1, p2, p3, p4⟩ := hp
            have hs1e : s1.2.1 = [] := by
              rw [← hs1]
              exact tn_flush_empties parent _ _ (by rw [hbl]; rfl) _
            have hq : GOODZ rb.1 ∧ Stripped rb.2.1 ∧
                TINVZ rb.2.1.length rb.2.2 ∧
                ZR (unfStarts rb.2.2) (unfStarts s1.2.2) := by
              rw [← hrb]
              refine ihl children s1.1.length _ (pyStrip text) s1.2.2 ?_
                (Stripped_pyStrip _) ?_
              · refine GOODZ_append_child _ _ _ p1 ?_
                intro z hz
                exact absurd hz (List.not_mem_nil z)
              · rw [hs1e] at p3
                exact TINVZ_mono (Nat.zero_le _) p3
            obtain ⟨q1, q2, q3, q4⟩ := hq
            have hz0 : ∀ x ∈ unfStarts rb.2.2, x = 0 := by
              refine ZR_zero_right _ q4 ?_
              intro x hx
              obtain ⟨z, hzmem, hzu, hzs⟩ := unfStarts_mem hx
              have h2 := (p3 z hzmem).1 hzu
              rw [hs1e] at h2
              simp only [List.length_nil] at h2
              omega
            by_cases hne : rb.2.1 ≠ []
            · rw [tn_step_block_text f tag classes link text children tail
                parent acc tb zs hbl hsk s1 hs1 rb hrb hne]
              refine ⟨?_, join_strip_stripped _ _,
                split_followers_TINV rb.2.2 s1.2.1.length _,
                ZR_trans (split_followers_ZR rb.2.2 s1.2.1.length)
                  (ZR_trans q4 p4)⟩
              refine GOODZ_append_child _ _ _ q1 ?_
              intro z hz
              refine split_for_node_valid rb.2.2 s1.2.1.length rb.2.1.length
                ?_ ?_ ?_ z hz
              · intro w hw hwu
                rw [hz0 w.start (mem_unfStarts hw hwu)]
                exact Nat.zero_le _
              · exact fun w hw => (q3 w hw).2
              · rw [hs1e]
                exact Nat.zero_le _
            · rw [tn_step_block_notext f tag classes link text children tail
                parent acc tb zs hbl hsk s1 hs1 rb hrb hne]
              have hrbe : rb.2.1 = [] := not_ne_iff.mp hne
              refine ⟨q1, join_strip_stripped _ _, ?_, ZR_trans q4 p4⟩
              refine TINVZ_mono ?_ q3
              rw [hrbe]
              exact Nat.zero_le _
          · -- inline tag: open a zone, recurse in place, close the zone
            replace hbl : BLOCK_TAGS.contains tag = false :=
              Bool.not_eq_true _ ▸ hbl
            obtain ⟨ri, hri⟩ : ∃ ri, translate_list f children parent acc
                (join_strip tb (pyStrip text))
                (zs ++ [{ start := tb.length, length := -1, tag := tag,
                          style_classes := classes,
                          link := get_link_url tag link }]) = ri := ⟨_, rfl⟩
            rw [tn_step_inline f tag classes link text children tail parent
              acc tb zs hbl hsk ri hri]
            have hq : GOODZ ri.1 ∧ Stripped ri.2.1 ∧
                TINVZ ri.2.1.length ri.2.2 ∧
                ZR (unfStarts ri.2.2)
                  (unfStarts (zs ++ [{ start := tb.length, length := -1,
                                       tag := tag, style_classes := classes,
                                       link := get_link_url tag link }])) := by
              rw [← hri]
              refine ihl children parent acc (join_strip tb (pyStrip text)) _
                hg (join_strip_stripped _ _) ?_
              intro z hz
              rcases List.mem_append.mp hz with h1 | h2
              · obtain ⟨t1, t2⟩ := ht z h1
                exact ⟨fun hu => le_trans (t1 hu) (join_strip_length tb _ hs),
                  fun hf => ⟨(t2 hf).1,
                    le_trans (t2 hf).2 (join_strip_length tb _ hs)⟩⟩
              · rcases List.mem_cons.mp h2 with rfl | h3
                · exact ⟨fun _ => join_strip_length tb _ hs,
                    fun hf => absurd rfl hf⟩
                · exact absurd h3 (List.not_mem_nil z)
            obtain ⟨q1, q2, q3, q4⟩ := hq
            have hunf : unfStarts (zs ++ [{ start := tb.length, length := -1,
                                            tag := tag,
                                            style_classes := classes,
                                            link := get_link_url tag link }]) =
                unfStarts zs ++ [tb.length] := by
              rw [unfStarts_append, unfStarts_cons_unf _ [] rfl, unfStarts_nil]
            rw [hunf] at q4
            cases hcl : close_last ri.2.2 ri.2.1.length with
            | none =>
              exfalso
              have h0 := close_last_none ri.2.1.length ri.2.2 hcl
              have hlen := List.Forall₂.length_eq q4
              rw [h0] at hlen
              simp [List.length_append] at hlen
            | some zs4 =>
              obtain ⟨k1, k2, k3⟩ :=
                close_last_spec ri.2.1.length ri.2.2 zs4 hcl
              show GOODZ ri.1 ∧ Stripped (join_strip ri.2.1 (pyStrip tail)) ∧
                TINVZ (join_strip ri.2.1 (pyStrip tail)).length zs4 ∧
                ZR (unfStarts zs4) (unfStarts zs)
              have hm := join_strip_length ri.2.1 (pyStrip tail) q2
              refine ⟨q1, join_strip_stripped _ _, ?_, ?_⟩
              · intro z2 hz2
                rcases k1 z2 hz2 with h4 | ⟨z, hzm, hzu, hz2eq⟩
                · obtain ⟨t1, t2⟩ := q3 z2 h4
                  exact ⟨fun hu => le_trans (t1 hu) hm,
                    fun hf => ⟨(t2 hf).1, le_trans (t2 hf).2 hm⟩⟩
                · have hstart : z.start ≤ ri.2.1.length := (q3 z hzm).1 hzu
                  subst hz2eq
                  constructor
                  · intro hu
                    have hu2 : ((ri.2.1.length : Int) - (z.start : Int)) = -1 :=
                      hu
                    exact absurd hu2 (by omega)
                  · intro _
                    show (0 : Int) ≤ (ri.2.1.length : Int) - (z.start : Int) ∧
                      z.start + ((ri.2.1.length : Int) - (z.start : Int)).toNat ≤
                        (join_strip ri.2.1 (pyStrip tail)).length
                    omega
              · have k2' := k2 (fun w hw hwu => (q3 w hw).1 hwu)
                rw [k2']
                have hd := ZR_dropLast _ q4
                rw [List.dropLast_concat] at hd
                exact hd
    · intro l parent acc tb zs hg hs ht
      cases l with
      | nil =>
        simp only [translate_list]
        exact ⟨hg, hs, ht, ZR_refl _⟩
      | cons n rest =>
        obtain ⟨r, hr⟩ : ∃ r, translate_node f n parent acc tb zs = r :=
          ⟨_, rfl⟩
        rw [tl_step f n rest parent acc tb zs r hr]
        have hp : GOODZ r.1 ∧ Stripped r.2.1 ∧ TINVZ r.2.1.length r.2.2.1 ∧
            ZR (unfStarts r.2.2.1) (unfStarts zs) := by
          rw [← hr]
          exact ihn n parent acc tb zs hg hs ht
        obtain ⟨p1, p2, p3, p4⟩ := hp
        by_cases hbr : r.2.2.2 = true
        · rw [if_pos hbr]
          exact ⟨p1, p2, p3, p4⟩
        · rw [if_neg hbr]
          have hq := ihl rest parent r.1 r.2.1 r.2.2.1 p1 p2 p3
          exact ⟨hq.1, hq.2.1, hq.2.2.1, ZR_trans hq.2.2.2 p4⟩

theorem GOODZ_of_keeps (a b : Tree)
    (h : ∀ q, (nd b q).mark_zones = (nd a q).mark_zones ∧
      (nd b q).text = (nd a q).text)
    (hg : GOODZ a) : GOODZ b := by
  intro q z hz
  rw [(h q).1] at hz
  rw [(h q).2]
  exact hg q z hz

theorem GOODZ_init : GOODZ [{ tag := "root" }] := by
  intro q z hz
  cases q with
  | zero => exact absurd hz (List.not_mem_nil z)
  | succ m =>
    rw [nd_oob _ _ (by simp)] at hz
    exact absurd hz (List.not_mem_nil z)

/-- All mark zones of a loaded tree are valid: the translation establishes the
property and the recount and prune passes touch neither zones nor texts. -/
theorem load_tree_GOODZ (fuel : Nat) (root : LNode) :
    GOODZ (load_tree fuel root) := by
  have h1 : GOODZ (translate_list fuel [root] 0 [{ tag := "root" }] [] []).1 :=
    ((translate_invariant fuel).2 [root] 0 [{ tag := "root" }] [] []
      GOODZ_init Stripped_nil (TINVZ_nil 0)).1
  show GOODZ (unlink_text_free_nodes
    (count_texts_in_nodes
      (translate_list fuel [root] 0 [{ tag := "root" }] [] []).1.length
      (translate_list fuel [root] 0 [{ tag := "root" }] [] []).1 0).1)
  exact GOODZ_of_keeps _ _ (fun q => unlink_keeps _ q)
    (GOODZ_of_keeps _ _ (fun q => count_texts_keeps _ _ _ q) h1)

/-- A small concrete input: `<html><div>x<b>y</b></div></html>`. -/
def exb8 : LNode := LNode.mk "b" [] "" ['y'] [] []

def exdiv8 : LNode := LNode.mk "div" [] "" ['x'] [exb8] []

def exhtml8 : LNode := LNode.mk "html" [] "" [] [exdiv8] []

def ex8zone : MarkZone :=
  { start := 1, length := 2, tag := "b", style_classes := [], link := "" }

/-- C8: after building a tree from any markup input, every mark zone stored on
any node of the result is valid for the node that owns it: its length is
strictly positive (zero-length zones are never retained) and
`start + length ≤ len(text)` of the owning node; starts are natural numbers,
hence non-negative. -/
theorem mark_zones_valid (fuel : Nat) (root : LNode) (q : Nat) (z : MarkZone)
    (hz : z ∈ (nd (load_tree fuel root) q).mark_zones) :
    0 < z.length ∧
      z.start + z.length.toNat ≤ (nd (load_tree fuel root) q).text.length :=
  load_tree_GOODZ fuel root q z hz

theorem mark_zones_valid_witness :
    ex8zone ∈ (nd (load_tree 10 exhtml8) 3).mark_zones ∧
      (0 < ex8zone.length ∧
        ex8zone.start + ex8zone.length.toNat ≤
          (nd (load_tree 10 exhtml8) 3).text.length) :=
  ⟨by decide, mark_zones_valid 10 exhtml8 3 ex8zone (by decide)⟩

end Claim8Main

end HTMLTree
